import Mathlib

/-!
# El Farol spatial simulation and trace analyzer

A shallow embedding of `el_farol_spatial.cpp` (the simulation engine) and
`process_binary_data.cpp` (the trace analyzer).

Modelling conventions.

* A C++ `double` is an exact rational (`ℚ`); decimal literals denote their decimal
  value (`0.002` is `2/1000`).  Rounding of IEEE arithmetic is outside the model, with one
  exception: the product `p * NUM_BINS` of the analyzer's bin index, where the truncation
  turns a rounding error into another bin (`round_double`, `bin_index_double`).
  `std::log2` is the real binary logarithm, so the entropy is a real number.
* A C++ `int` is an `Int`; loop counters that only take non-negative values are `Nat`.
* A `std::vector` is a `List`.  The engine only indexes its vectors with indices
  that are in range for vectors of `NUM_PLAYERS` / `NUM_ROUNDS` entries, and a read is
  written `getD`.  Functions are total: where C++ leaves the behaviour undefined (an
  index outside a vector, a conversion outside the range of `int`) the definition says
  which value is taken, and the theorems that depend on it state the range of the input.
  For the histogram loop of the analyzer, which indexes with a value computed from its
  input, the `_checked` definitions carry the preconditions and are `none` where the
  behaviour is undefined.
* The pseudo-random source is an explicit stream: `rng k` is the value of the
  `k`-th call of `dist(rng)`; the outcome of `std::shuffle` is a parameter.
* The trace file is `Option (List Record)`: `none` when the stream failed to open.
-/

namespace ElFarol

/-! ## Engine: constants and grid -/

/-- Value of `static_cast<int>(x)` for a double `x` whose truncation is representable in
`int`: truncation toward zero.  The conversion with its precondition is
`static_cast_int_checked`. -/
def static_cast_int (x : ℚ) : Int := if 0 ≤ x then ⌊x⌋ else ⌈x⌉

def GRID_SIZE : Nat := 16

def NUM_ROUNDS : Nat := 5

def DELTA : ℚ := 2 / 1000

def NUM_PLAYERS : Nat := GRID_SIZE * GRID_SIZE

/-- Convert 2D grid coordinates to 1D index. -/
def coord_to_index (row col : Int) : Int := row * GRID_SIZE + col

/-- Convert 1D index to 2D grid coordinates (C++ `/` and `%` truncate toward zero). -/
def index_to_coord (index : Int) : Int × Int :=
  (Int.tdiv index GRID_SIZE, Int.tmod index GRID_SIZE)

/-- Crowding threshold `static_cast<int>(0.6 * NUM_PLAYERS)`. -/
def threshold : Int := static_cast_int ((6 / 10 : ℚ) * NUM_PLAYERS)

/-- Payoff of one player for one round. -/
def calculate_payoff (player_attended : Bool) (total_attendance : Int) : ℚ :=
  let bar_not_crowded : Bool := decide (total_attendance < threshold)
  if (player_attended && bar_not_crowded) || (!player_attended && !bar_not_crowded) then 1
  else 0

/-- The inner `dc` loop of `get_neighbors` for a fixed `dr`. -/
def neighbors_row (row col dr : Int) (neighbors : List Int) : List Int :=
  ([-1, 0, 1] : List Int).foldl
    (fun neighbors dc =>
      if dr = 0 ∧ dc = 0 then neighbors
      else
        let new_row := Int.tmod (row + dr + GRID_SIZE) GRID_SIZE
        let new_col := Int.tmod (col + dc + GRID_SIZE) GRID_SIZE
        neighbors ++ [coord_to_index new_row new_col])
    neighbors

/-- Neighbors of a player (8-connected grid with wraparound), in push order. -/
def get_neighbors (player_idx : Int) : List Int :=
  let rc := index_to_coord player_idx
  ([-1, 0, 1] : List Int).foldl (fun neighbors dr => neighbors_row rc.1 rc.2 dr neighbors) []

/-! ## Engine: adaptation step -/

/-- Mean payoff `std::accumulate(payoffs[i].begin(), payoffs[i].end(), 0.0) / NUM_ROUNDS`. -/
def avg_payoff (payoffs : List (List ℚ)) (i : Nat) : ℚ :=
  (payoffs.getD i []).sum / NUM_ROUNDS

/-- One pass of the loop over the neighbors: state is `(best_avg_payoff, best_neighbor)`. -/
def best_step (payoffs : List (List ℚ)) (st : ℚ × Int) (neighbor : Int) : ℚ × Int :=
  let avg := avg_payoff payoffs neighbor.toNat
  if avg > st.1 then (avg, neighbor) else st

/-- The loop over the neighbors, started at `(my_avg_payoff, -1)`. -/
def find_best (payoffs : List (List ℚ)) (my_avg_payoff : ℚ) (neighbors : List Int) : ℚ × Int :=
  neighbors.foldl (best_step payoffs) (my_avg_payoff, -1)

/-- Body of the loop over the players in `update_p_values`: reads `p_values`,
writes `new_p_values`. -/
def update_player (p_values : List ℚ) (payoffs : List (List ℚ)) (new_p_values : List ℚ)
    (i : Nat) : List ℚ :=
  let neighbors := get_neighbors i
  let my_avg_payoff := avg_payoff payoffs i
  let best := find_best payoffs my_avg_payoff neighbors
  if best.2 ≠ -1 ∧ best.1 > my_avg_payoff then
    let direction := p_values.getD best.2.toNat 0 - p_values.getD i 0
    let moved := new_p_values.getD i 0 + DELTA * direction
    new_p_values.set i (max 0 (min 1 moved))
  else new_p_values

/-- The value `update_player` leaves at position `i` when it finds the value `v` there. -/
def updated_value (p_values : List ℚ) (payoffs : List (List ℚ)) (i : Nat) (v : ℚ) : ℚ :=
  let best := find_best payoffs (avg_payoff payoffs i) (get_neighbors i)
  if best.2 ≠ -1 ∧ best.1 > avg_payoff payoffs i then
    max 0 (min 1 (v + DELTA * (p_values.getD best.2.toNat 0 - p_values.getD i 0)))
  else v

/-- The loop of `update_p_values` run over the players in the given order. -/
def update_p_values_in_order (order : List Nat) (p_values : List ℚ) (payoffs : List (List ℚ)) :
    List ℚ :=
  order.foldl (update_player p_values payoffs) p_values

/-- The new propensities computed by `update_p_values` (players `0 .. NUM_PLAYERS-1`). -/
def update_p_values (p_values : List ℚ) (payoffs : List (List ℚ)) : List ℚ :=
  update_p_values_in_order (List.range NUM_PLAYERS) p_values payoffs

/-- The best neighbour of player `i` in the words of the specification: `b` occurs in
`get_neighbors i`, every neighbour before that occurrence has a strictly smaller mean
payoff and every neighbour after it has a mean payoff that is not larger, so `b` is the
first neighbour whose mean payoff is maximal among the neighbours. -/
def IsBestNeighbor (payoffs : List (List ℚ)) (i : Nat) (b : Int) : Prop :=
  ∃ before after, get_neighbors i = before ++ b :: after ∧
    (∀ y ∈ before, avg_payoff payoffs y.toNat < avg_payoff payoffs b.toNat) ∧
    (∀ y ∈ after, avg_payoff payoffs y.toNat ≤ avg_payoff payoffs b.toNat)

/-- Every entry of the vector lies in `[0, 1]`. -/
def InUnit (p : List ℚ) : Prop := ∀ x ∈ p, 0 ≤ x ∧ x ≤ 1

/-! ## Engine: state, constructor, simulation loop -/

/-- One trace record: iteration index and propensity. -/
structure Record where
  iteration : Int
  p_value : ℚ
deriving DecidableEq, Repr

/-- The members of `ElFarolSpatial`. -/
structure State where
  p_values : List ℚ
  payoffs : List (List ℚ)
  attendance_decisions : List (List Bool)
  attendance_history : List ℚ
  variance_history : List ℚ
  mean_history : List ℚ
  p_mean_history : List ℚ
  p_median_history : List ℚ
  rng : Nat → ℚ
  rng_pos : Nat
  p_history_file_bin : Option (List Record)

/-- The constructor's assignment loop `p_values[indices[i]] = (i < NUM_PLAYERS/2) ? 0.95 : 0.25`. -/
def init_p_values (indices : List Nat) : List ℚ :=
  (List.range NUM_PLAYERS).foldl
    (fun p_values i =>
      p_values.set (indices.getD i 0) (if i < NUM_PLAYERS / 2 then 95 / 100 else 25 / 100))
    (List.replicate NUM_PLAYERS 0)

/-- The constructor; `indices` is the shuffled index vector, `rng` the stream of later
draws, `file_open` tells whether `p_values.bin` could be opened. -/
def construct (indices : List Nat) (rng : Nat → ℚ) (file_open : Bool) : State :=
  { p_values := init_p_values indices
    payoffs := List.replicate NUM_PLAYERS (List.replicate NUM_ROUNDS 0)
    attendance_decisions := List.replicate NUM_PLAYERS (List.replicate NUM_ROUNDS false)
    attendance_history := []
    variance_history := []
    mean_history := []
    p_mean_history := []
    p_median_history := []
    rng := rng
    rng_pos := 0
    p_history_file_bin := if file_open then some [] else none }

/-- First player loop of a round: draw the decisions and count the attendance. -/
def decide_step (round : Nat) (acc : State × Int) (i : Nat) : State × Int :=
  let s := acc.1
  let attends : Bool := decide (s.rng s.rng_pos < s.p_values.getD i 0)
  ({ s with
      rng_pos := s.rng_pos + 1
      attendance_decisions :=
        s.attendance_decisions.set i ((s.attendance_decisions.getD i []).set round attends) },
   if attends then acc.2 + 1 else acc.2)

/-- Second player loop of a round: store the payoffs. -/
def payoff_step (round : Nat) (attendance : Int) (s : State) (i : Nat) : State :=
  { s with
    payoffs :=
      s.payoffs.set i
        ((s.payoffs.getD i []).set round
          (calculate_payoff ((s.attendance_decisions.getD i []).getD round false) attendance)) }

/-- One round with the two player loops running over `players`; the accumulator carries
the state and `round_attendance`. -/
def play_round_on (players : List Nat) (acc : State × List Int) (round : Nat) :
    State × List Int :=
  let drawn := players.foldl (decide_step round) (acc.1, 0)
  let attendance := drawn.2
  let s := players.foldl (payoff_step round attendance) drawn.1
  ({ s with attendance_history := s.attendance_history ++ [(attendance : ℚ)] },
   acc.2 ++ [attendance])

/-- One round: the player loops run over `0 .. NUM_PLAYERS-1`. -/
def play_round (acc : State × List Int) (round : Nat) : State × List Int :=
  play_round_on (List.range NUM_PLAYERS) acc round

/-- The variance loop: `variance += (att - mean)^2` over `round_attendance`. -/
def variance_sum (round_attendance : List Int) (mean : ℚ) : ℚ :=
  round_attendance.foldl
    (fun (variance : ℚ) (att : Int) => variance + ((att : ℚ) - mean) * ((att : ℚ) - mean)) 0

/-- The trace write loop of one iteration over `players`: one record per player when
the file is open, nothing otherwise. -/
def write_trace_on (players : List Nat) (file : Option (List Record)) (iter : Nat)
    (p_values : List ℚ) : Option (List Record) :=
  match file with
  | none => none
  | some written =>
    some (players.foldl
      (fun out i => out ++ [{ iteration := (iter : Int), p_value := p_values.getD i 0 }]) written)

/-- Body of the loop of `run_simulation` for iteration `iter`, with the round loop running
over `rounds` and the player loops over `players`. -/
def iteration_step_on (players rounds : List Nat) (s : State) (iter : Nat) : State :=
  let played := rounds.foldl (play_round_on players) (s, [])
  let s := played.1
  let round_attendance := played.2
  let mean : ℚ := (round_attendance.map (fun a : Int => (a : ℚ))).sum / NUM_ROUNDS
  let variance : ℚ := variance_sum round_attendance mean / NUM_ROUNDS
  let p_mean : ℚ := s.p_values.sum / NUM_PLAYERS
  let sorted_p := s.p_values.insertionSort (· ≤ ·)
  let p_median := sorted_p.getD (NUM_PLAYERS / 2) 0
  { s with
    mean_history := s.mean_history ++ [mean]
    variance_history := s.variance_history ++ [variance]
    p_mean_history := s.p_mean_history ++ [p_mean]
    p_median_history := s.p_median_history ++ [p_median]
    p_history_file_bin := write_trace_on players s.p_history_file_bin iter s.p_values
    p_values := update_p_values_in_order players s.p_values s.payoffs }

/-- Body of the loop of `run_simulation`: rounds `0 .. NUM_ROUNDS-1`, players
`0 .. NUM_PLAYERS-1`. -/
def iteration_step (s : State) (iter : Nat) : State :=
  iteration_step_on (List.range NUM_PLAYERS) (List.range NUM_ROUNDS) s iter

/-- The loop `for (iter = 0; iter < n_iterations; ++iter)`. -/
def run_simulation (n_iterations : Nat) (s : State) : State :=
  (List.range n_iterations).foldl iteration_step s

/-! ## Trace file: byte level -/

def SIZEOF_INT : Nat := 4

def SIZEOF_DOUBLE : Nat := 8

def ALIGNOF_INT : Nat := 4

/-- The `n` little-endian bytes of the unsigned value `v`. -/
def le_bytes (n v : Nat) : List Nat := (List.range n).map (fun k => v / 256 ^ k % 256)

/-- The unsigned value of little-endian bytes. -/
def of_le_bytes (bs : List Nat) : Nat := bs.foldr (fun b acc => b + 256 * acc) 0

/-- Object representation of an `int` (two's complement, 32 bits). -/
def int_bytes (x : Int) : List Nat := le_bytes SIZEOF_INT (x % 2 ^ 32).toNat

/-- The `int` whose object representation is `bs`. -/
def int_of_bytes (bs : List Nat) : Int :=
  let v := of_le_bytes bs
  if v < 2 ^ 31 then (v : Int) else (v : Int) - 2 ^ 32

/-- A record as it is stored: the iteration index and the 64-bit pattern of the double. -/
structure RawRecord where
  iteration : Int
  p_bits : Nat
deriving DecidableEq, Repr

/-- Object representation of a `double` with bit pattern `bits`. -/
def double_bytes (bits : Nat) : List Nat := le_bytes SIZEOF_DOUBLE bits

/-- The bytes the engine writes: per record `write(&iter, sizeof(int))` and then
`write(&p_values[i], sizeof(double))`. -/
def write_records (records : List RawRecord) : List Nat :=
  records.foldl (fun out r => out ++ int_bytes r.iteration ++ double_bytes r.p_bits) []

/-- Smallest multiple of `a` that is at least `n`. -/
def round_up (n a : Nat) : Nat := (n + a - 1) / a * a

/-- Offset of `p_value` in `struct Record {int iteration; double p_value;}` for a
given alignment of `double`. -/
def offsetof_p_value (alignof_double : Nat) : Nat := round_up SIZEOF_INT alignof_double

/-- Size of `struct Record`, `sizeof(Record)`, for a given alignment of `double`. -/
def sizeof_Record (alignof_double : Nat) : Nat :=
  round_up (offsetof_p_value alignof_double + SIZEOF_DOUBLE) (max ALIGNOF_INT alignof_double)

/-- The `Record` held by a buffer of `sizeof(Record)` bytes. -/
def record_of_block (alignof_double : Nat) (block : List Nat) : RawRecord :=
  { iteration := int_of_bytes (block.take SIZEOF_INT)
    p_bits := of_le_bytes ((block.drop (offsetof_p_value alignof_double)).take SIZEOF_DOUBLE) }

/-- The records obtained by the successive complete
`input_file.read(&rec, sizeof(Record))` calls on `input`; at most `fuel` of them. -/
def read_records (alignof_double : Nat) : Nat → List Nat → List RawRecord
  | 0, _ => []
  | fuel + 1, input =>
    if 0 < sizeof_Record alignof_double ∧ sizeof_Record alignof_double ≤ input.length then
      record_of_block alignof_double (input.take (sizeof_Record alignof_double)) ::
        read_records alignof_double fuel (input.drop (sizeof_Record alignof_double))
    else []

/-- Decoding of a whole byte stream with the analyzer's reader (a stream of `n` bytes
holds at most `n` records). -/
def decode_trace (alignof_double : Nat) (input : List Nat) : List RawRecord :=
  read_records alignof_double input.length input

/-! ## Analyzer -/

def NUM_BINS : Nat := 20

/-- The index `std::min(static_cast<int>(p * NUM_BINS), NUM_BINS - 1)` with the product
taken exactly.  The index with the product rounded as binary64 rounds it, and with the
precondition of the conversion, is `bin_index_double`. -/
def bin_index (p : ℚ) : Int :=
  min (static_cast_int (p * NUM_BINS)) ((NUM_BINS : Int) - 1)

/-- The statement `hist[bin]++` for an index of the vector, `0 ≤ bin < hist.size()`.  C++
leaves every other index undefined (`hist_incr_checked` is `none` there); this function
then returns the histogram as it is. -/
def hist_incr (hist : List Nat) (bin : Int) : List Nat :=
  if 0 ≤ bin ∧ bin < hist.length then hist.set bin.toNat (hist.getD bin.toNat 0 + 1)
  else hist

/-- The histogram loop over the group's values, from `hist(NUM_BINS, 0)`. -/
def histogram (p_values : List ℚ) : List Nat :=
  p_values.foldl (fun hist p => hist_incr hist (bin_index p)) (List.replicate NUM_BINS 0)

/-- The normalisation loop: `prob_dist[i] = hist[i] / p_values.size()` for `i < hist.size()`
when the group is not empty, from `prob_dist(NUM_BINS, 0.0)`. -/
def prob_dist (hist : List Nat) (size : Nat) : List ℚ :=
  if size ≠ 0 then
    (List.range hist.length).foldl
      (fun prob_dist i => prob_dist.set i ((hist.getD i 0 : ℚ) / size))
      (List.replicate NUM_BINS 0)
  else List.replicate NUM_BINS 0

/-- The entropy loop: `if (p > 0) entropy -= p * std::log2(p)`. -/
noncomputable def entropy (prob_dist : List ℚ) : ℝ :=
  prob_dist.foldl
    (fun (entropy : ℝ) (p : ℚ) =>
      if p > 0 then entropy - (p : ℝ) * Real.logb 2 (p : ℝ) else entropy) 0

/-- What one pass of the outer loop emits: the group's iteration index (first column of
the entropy row) and its probability vector (the histogram block). -/
structure Row where
  iteration : Int
  prob_dist : List ℚ
deriving DecidableEq, Repr

/-- The processing of one group after the inner loop. -/
def process_group (current_iteration : Int) (p_values : List ℚ) : Row :=
  { iteration := current_iteration
    prob_dist := prob_dist (histogram p_values) p_values.length }

/-- The two nested `do ... while` loops of `main`, entered at the body of the inner loop
with `rec` the record read last and the list argument the records still to be read.
The inner body pushes `rec.p_value` and reads.  When the read fails (no record left) the
inner and the outer loop end after the group is handled.  When it yields a record of the
same iteration the inner loop repeats; otherwise the group is handled and the outer loop
starts a new group with that record.  `emit` is what the outer body does with a group. -/
def read_loop {β : Type} (emit : Int → List ℚ → β) (current_iteration : Int)
    (p_values : List ℚ) (rec : Record) : List Record → List β
  | [] => [emit current_iteration (p_values ++ [rec.p_value])]
  | next :: rest =>
    if next.iteration = current_iteration then
      read_loop emit current_iteration (p_values ++ [rec.p_value]) next rest
    else
      emit current_iteration (p_values ++ [rec.p_value]) ::
        read_loop emit next.iteration [] next rest

/-- The analyzer on a sequence of records: nothing is emitted when the first read yields
nothing, otherwise the loops run from the first record. -/
def analyzer_with {β : Type} (emit : Int → List ℚ → β) : List Record → List β
  | [] => []
  | rec :: rest => read_loop emit rec.iteration [] rec rest

/-- The rows the analyzer emits. -/
def analyzer_main (records : List Record) : List Row :=
  analyzer_with process_group records

/-- The groups `(current_iteration, p_values)` the outer loop forms. -/
def analyzer_groups (records : List Record) : List (Int × List ℚ) :=
  analyzer_with (fun current_iteration p_values => (current_iteration, p_values)) records

/-- The rows of the entropy output: iteration index and entropy of the group. -/
noncomputable def entropy_rows (rows : List Row) : List (Int × ℝ) :=
  rows.map (fun row => (row.iteration, entropy row.prob_dist))

/-- The records a list of groups stands for: each value with the index of its group. -/
def records_of_groups (groups : List (Int × List ℚ)) : List Record :=
  groups.flatMap (fun g => g.2.map (fun p => { iteration := g.1, p_value := p }))

/-- The records in the trace file; none when the file is not open. -/
def trace_of (s : State) : List Record := s.p_history_file_bin.getD []

/-- The records `run_simulation n` appends to the trace when it is started in `s`. -/
def emitted_records (n : Nat) (s : State) : List Record :=
  (trace_of (run_simulation n s)).drop (trace_of s).length

/-- The records of one iteration: one per player in index order. -/
def snapshot_block (players : List Nat) (iter : Nat) (p_values : List ℚ) : List Record :=
  players.map (fun i => { iteration := (iter : Int), p_value := p_values.getD i 0 })

/-- The records `n` iterations started in `s` write: block `k` holds the propensities
found after `k` iterations. -/
def expected_records (n : Nat) (s : State) : List Record :=
  (List.range n).flatMap
    (fun k => snapshot_block (List.range NUM_PLAYERS) k (run_simulation k s).p_values)

/-- First disjunct of the payoff rule: the player attended and the bar was not crowded. -/
def attended_not_crowded (player_attended : Bool) (total_attendance : Int) : Bool :=
  player_attended && decide (total_attendance < threshold)

/-- Second disjunct of the payoff rule: the player did not attend and the bar was crowded. -/
def absent_crowded (player_attended : Bool) (total_attendance : Int) : Bool :=
  !player_attended && !decide (total_attendance < threshold)

/-- The eight offsets `(dr, dc)` of the Moore neighbourhood in the order of the loops. -/
def moore_offsets : List (Int × Int) :=
  [(-1, -1), (-1, 0), (-1, 1), (0, -1), (0, 1), (1, -1), (1, 0), (1, 1)]

/-- The bin index computed by the analyzer compiled with `NUM_BINS = bins`. -/
def bin_index_of (bins : Nat) (p : ℚ) : Int :=
  min (static_cast_int (p * bins)) ((bins : Int) - 1)

/-- The histogram loop of the analyzer compiled with `NUM_BINS = bins`. -/
def histogram_of (bins : Nat) (p_values : List ℚ) : List Nat :=
  p_values.foldl (fun hist p => hist_incr hist (bin_index_of bins p)) (List.replicate bins 0)

/-- The normalisation loop of the analyzer compiled with `NUM_BINS = bins`. -/
def prob_dist_of (bins : Nat) (hist : List Nat) (size : Nat) : List ℚ :=
  if size ≠ 0 then
    (List.range hist.length).foldl
      (fun prob_dist i => prob_dist.set i ((hist.getD i 0 : ℚ) / size))
      (List.replicate bins 0)
  else List.replicate bins 0

/-- The processing of one group by the analyzer compiled with `NUM_BINS = bins`. -/
def process_group_of (bins : Nat) (current_iteration : Int) (p_values : List ℚ) : Row :=
  { iteration := current_iteration
    prob_dist := prob_dist_of bins (histogram_of bins p_values) p_values.length }

/-- The rows emitted by the analyzer compiled with `NUM_BINS = bins`. -/
def analyzer_main_of (bins : Nat) (records : List Record) : List Row :=
  analyzer_with (process_group_of bins) records

/-- State of the input stream `input_file`: the bytes not yet read, whether the stream
converts to `true` (no read has failed), and the count of the last read (`gcount()`). -/
structure IStream where
  bytes : List Nat
  good : Bool
  gcount : Nat
deriving DecidableEq, Repr

/-- The call `input_file.read(buf, size)`: the new stream state and the new contents of
the buffer.  A read on a failed stream extracts nothing; a read that meets the end of the
file before `size` bytes stores the bytes it got at the start of the buffer and fails. -/
def istream_read (size : Nat) (s : IStream) (buf : List Nat) : IStream × List Nat :=
  if s.good then
    if size ≤ s.bytes.length then
      ({ bytes := s.bytes.drop size, good := true, gcount := size }, s.bytes.take size)
    else
      ({ bytes := [], good := false, gcount := s.bytes.length },
       s.bytes ++ buf.drop s.bytes.length)
  else ({ s with gcount := 0 }, buf)

/-- The record the analyzer sees in the buffer `rec`; `double_value` gives the value of a
double from its bit pattern. -/
def record_of_buffer (alignof_double : Nat) (double_value : Nat → ℚ) (buf : List Nat) : Record :=
  { iteration := (record_of_block alignof_double buf).iteration
    p_value := double_value (record_of_block alignof_double buf).p_bits }

/-- The two nested `do ... while` loops of `main` on the byte stream, entered at the body
of the inner loop with the buffer `rec`.  The inner body pushes `rec.p_value` and
reads; while the stream is good and the record read has the current iteration the inner
loop repeats; otherwise the group is handled, and the outer loop starts a new group when
the stream is good and ends when it is not.  Each call performs one read; `none` when the
fuel does not cover the reads. -/
def byte_loop (alignof_double : Nat) (double_value : Nat → ℚ) :
    Nat → Int → List ℚ → IStream → List Nat → Option (List Row)
  | 0, _, _, _, _ => none
  | fuel + 1, current_iteration, p_values, s, rec =>
    let p_values := p_values ++ [(record_of_buffer alignof_double double_value rec).p_value]
    let r := istream_read (sizeof_Record alignof_double) s rec
    if r.1.good = true ∧
        (record_of_buffer alignof_double double_value r.2).iteration = current_iteration then
      byte_loop alignof_double double_value fuel current_iteration p_values r.1 r.2
    else if r.1.good = true then
      (byte_loop alignof_double double_value fuel
          (record_of_buffer alignof_double double_value r.2).iteration [] r.1 r.2).map
        (fun rows => process_group current_iteration p_values :: rows)
    else some [process_group current_iteration p_values]

/-- What a run of the analyzer leaves: the exit code of `main`, whether the header line
`iteration,entropy` was written to the entropy output, and per processed group the row
(its index and entropy go to the entropy output, its probability vector to the histogram
output). -/
structure AnalyzerOutput where
  exit_code : Int
  entropy_header : Bool
  rows : List Row
deriving DecidableEq, Repr

/-- The program `main` of the analyzer.  `file` is the content of `p_values.bin`
(`none` when it cannot be opened) and `rec0` the indeterminate initial content of the
buffer `rec`.  The header line is written before the first read. -/
def analyzer_bytes (alignof_double : Nat) (double_value : Nat → ℚ) (rec0 : List Nat)
    (file : Option (List Nat)) : Option AnalyzerOutput :=
  match file with
  | none => some { exit_code := 1, entropy_header := false, rows := [] }
  | some input =>
    let r := istream_read (sizeof_Record alignof_double)
      { bytes := input, good := true, gcount := 0 } rec0
    if r.1.gcount = 0 then some { exit_code := 0, entropy_header := true, rows := [] }
    else
      (byte_loop alignof_double double_value (input.length + 1)
          (record_of_buffer alignof_double double_value r.2).iteration [] r.1 r.2).map
        (fun rows => { exit_code := 0, entropy_header := true, rows := rows })

/-- Whether a run wrote nothing at all to the entropy output. -/
def entropy_output_empty (out : AnalyzerOutput) : Bool :=
  !out.entropy_header && out.rows.isEmpty

/-- Whether a run wrote nothing at all to the histogram output. -/
def histogram_output_empty (out : AnalyzerOutput) : Bool := out.rows.isEmpty

/-- The records the analyzer obtains from the complete blocks of a byte stream. -/
def decoded_records (alignof_double : Nat) (double_value : Nat → ℚ) (input : List Nat) :
    List Record :=
  (decode_trace alignof_double input).map
    (fun r => { iteration := r.iteration, p_value := double_value r.p_bits })

/-- The attendance counts `round_attendance` of the iteration that starts in state `s`. -/
def round_attendance (s : State) : List Int :=
  ((List.range NUM_ROUNDS).foldl (play_round_on (List.range NUM_PLAYERS)) (s, [])).2

/-- The decision of agent `i` in round `r` of the iteration that starts in state `s`: the
draw it consumes, compared with its propensity. -/
def attends_in (s : State) (r i : Nat) : Bool :=
  decide (s.rng (s.rng_pos + r * NUM_PLAYERS + i) < s.p_values.getD i 0)

/-- Arithmetic mean of the attendance counts of the iteration that starts in `s`. -/
def iteration_mean (s : State) : ℚ :=
  ((round_attendance s).map (fun a : Int => (a : ℚ))).sum / NUM_ROUNDS

/-- Population variance of the attendance counts of the iteration that starts in `s`. -/
def iteration_variance (s : State) : ℚ :=
  ((round_attendance s).map (fun a : Int => ((a : ℚ) - iteration_mean s) ^ 2)).sum / NUM_ROUNDS

/-- The fields of the state that the player loops of a round leave alone or advance. -/
def SameBase (s t : State) (draws : Nat) : Prop :=
  t.p_values = s.p_values ∧ t.rng = s.rng ∧ t.rng_pos = s.rng_pos + draws ∧
  t.mean_history = s.mean_history ∧ t.variance_history = s.variance_history

/-- The number of the first `m` agents of `players` that attend when the draws start at
position `pos` of the stream. -/
def attendance_count (s : State) (players : List Nat) (pos : Nat) : Int :=
  (((List.range players.length).countP
    (fun k => decide (s.rng (pos + k) < s.p_values.getD (players.getD k 0) 0)) : Nat) : Int)

/-- Rounding to the nearest integer, a tie going to the even neighbour. -/
def round_half_even (x : ℚ) : Int :=
  if x - ⌊x⌋ < 1 / 2 then ⌊x⌋
  else if 1 / 2 < x - ⌊x⌋ then ⌊x⌋ + 1
  else if ⌊x⌋ % 2 = 0 then ⌊x⌋ else ⌊x⌋ + 1

/-- Exponent of the spacing of the binary64 numbers at the magnitude of `x`: 53
significant bits, and `2^-1074` in the subnormal range. -/
def ulp_exponent (x : ℚ) : Int := max (Int.log 2 |x| - 52) (-1074)

/-- The multiple of the spacing nearest to `x` (round to nearest, ties to even): the
binary64 result of an operation whose exact result is `x`, when that result is finite. -/
def round_double (x : ℚ) : ℚ :=
  (round_half_even (x / 2 ^ ulp_exponent x) : ℚ) * 2 ^ ulp_exponent x

/-- The product `a * b` of two doubles as binary64 computes it; `none` when the rounded
product is not finite. -/
def mul_double (a b : ℚ) : Option ℚ :=
  if |round_double (a * b)| < 2 ^ 1024 then some (round_double (a * b)) else none

/-- The conversion `static_cast<int>(x)` with its precondition: C++ defines it only when
the truncated value is representable in `int`; `none` otherwise. -/
def static_cast_int_checked (x : ℚ) : Option Int :=
  if -2 ^ 31 ≤ static_cast_int x ∧ static_cast_int x ≤ 2 ^ 31 - 1 then some (static_cast_int x)
  else none

/-- The index `std::min(static_cast<int>(p * NUM_BINS), NUM_BINS - 1)` with the product
rounded as binary64 rounds it; `none` when the conversion to `int` is undefined. -/
def bin_index_double (p : ℚ) : Option Int :=
  ((mul_double p NUM_BINS).bind static_cast_int_checked).map
    (fun b => min b ((NUM_BINS : Int) - 1))

/-- The statement `hist[bin]++` with its precondition: `none` when `bin` is not an index
of the vector, where C++ leaves the behaviour undefined. -/
def hist_incr_checked (hist : List Nat) (bin : Int) : Option (List Nat) :=
  if 0 ≤ bin ∧ bin < hist.length then some (hist_incr hist bin) else none

/-- The histogram loop with the index computed in binary64; `none` when the conversion or
the indexing is undefined for some value of the group. -/
def histogram_checked (p_values : List ℚ) : Option (List Nat) :=
  p_values.foldl
    (fun (hist : Option (List Nat)) (p : ℚ) =>
      hist.bind (fun h => (bin_index_double p).bind (hist_incr_checked h)))
    (some (List.replicate NUM_BINS 0))

/-- The processing of one group after the inner loop; `none` when its histogram loop is
undefined. -/
def process_group_checked (current_iteration : Int) (p_values : List ℚ) : Option Row :=
  (histogram_checked p_values).map
    (fun hist => { iteration := current_iteration, prob_dist := prob_dist hist p_values.length })

/-- The rows the analyzer emits for a record sequence, in order; `none` when the
processing of some group is undefined. -/
def analyzer_checked (records : List Record) : Option (List Row) :=
  (analyzer_with process_group_checked records).foldr
    (fun (row : Option Row) (rows : Option (List Row)) =>
      row.bind (fun r => rows.map (fun rs => r :: rs)))
    (some [])

/-- The bytes of the trace file for the records of the trace: per record the engine writes
the 4 bytes of `iter` and then the 8 bytes of `p_values[i]`; `double_bits` gives the bit
pattern of a double. -/
def trace_bytes (double_bits : ℚ → Nat) (records : List Record) : List Nat :=
  write_records
    (records.map (fun r => { iteration := r.iteration, p_bits := double_bits r.p_value }))

/-- The groups the loops of the analyzer form from the content of the trace file: the
grouping of the records its successive reads obtain. -/
def file_groups (alignof_double : Nat) (double_value : Nat → ℚ) (input : List Nat) :
    List (Int × List ℚ) :=
  analyzer_groups (decoded_records alignof_double double_value input)

/-- Whether the histogram loop is defined for the value `p`: the conversion of the product
to `int` is defined and the index is not negative (the `std::min` keeps it below
`NUM_BINS`). -/
def bin_in_bounds (p : ℚ) : Bool :=
  match bin_index_double p with
  | some b => decide (0 ≤ b)
  | none => false

/-! ## Theorems -/

/-- C1: the threshold is `floor(0.6 * 256) = 153`; `calculate_payoff b t` is 1 exactly when
(`b` and `t < 153`) or (not `b` and `t ≥ 153`), else 0; with everybody attending
(`t = N`) an attending player gets 0, with nobody attending (`t = 0`) an absent player
gets 0. -/
theorem C1_calculate_payoff :
    threshold = 153 ∧ threshold = ⌊(6 / 10 : ℚ) * 256⌋ ∧
    (∀ (b : Bool) (t : Int),
      calculate_payoff b t =
        if (b = true ∧ t < 153) ∨ (b = false ∧ t ≥ 153) then 1 else 0) ∧
    calculate_payoff true NUM_PLAYERS = 0 ∧ calculate_payoff false 0 = 0 := by
  have hfl : ⌊(6 / 10 : ℚ) * 256⌋ = 153 := by
    rw [Int.floor_eq_iff]; norm_num
  have hT : threshold = 153 := by
    unfold threshold static_cast_int NUM_PLAYERS GRID_SIZE
    norm_num
  have key : ∀ (b : Bool) (t : Int),
      calculate_payoff b t =
        if (b = true ∧ t < 153) ∨ (b = false ∧ t ≥ 153) then 1 else 0 := by
    intro b t
    unfold calculate_payoff
    rw [hT]
    cases b <;> by_cases h : t < 153 <;> simp [h]
    · rw [if_neg (by omega)]
    · rw [if_pos (by omega)]
  refine ⟨hT, by rw [hT, hfl], key, ?_, ?_⟩
  · rw [key]; simp [NUM_PLAYERS, GRID_SIZE]
  · rw [key]; simp


theorem get_neighbors_eq (i : Int) :
    get_neighbors i =
      [coord_to_index (Int.tmod ((index_to_coord i).1 + -1 + GRID_SIZE) GRID_SIZE)
          (Int.tmod ((index_to_coord i).2 + -1 + GRID_SIZE) GRID_SIZE),
       coord_to_index (Int.tmod ((index_to_coord i).1 + -1 + GRID_SIZE) GRID_SIZE)
          (Int.tmod ((index_to_coord i).2 + 0 + GRID_SIZE) GRID_SIZE),
       coord_to_index (Int.tmod ((index_to_coord i).1 + -1 + GRID_SIZE) GRID_SIZE)
          (Int.tmod ((index_to_coord i).2 + 1 + GRID_SIZE) GRID_SIZE),
       coord_to_index (Int.tmod ((index_to_coord i).1 + 0 + GRID_SIZE) GRID_SIZE)
          (Int.tmod ((index_to_coord i).2 + -1 + GRID_SIZE) GRID_SIZE),
       coord_to_index (Int.tmod ((index_to_coord i).1 + 0 + GRID_SIZE) GRID_SIZE)
          (Int.tmod ((index_to_coord i).2 + 1 + GRID_SIZE) GRID_SIZE),
       coord_to_index (Int.tmod ((index_to_coord i).1 + 1 + GRID_SIZE) GRID_SIZE)
          (Int.tmod ((index_to_coord i).2 + -1 + GRID_SIZE) GRID_SIZE),
       coord_to_index (Int.tmod ((index_to_coord i).1 + 1 + GRID_SIZE) GRID_SIZE)
          (Int.tmod ((index_to_coord i).2 + 0 + GRID_SIZE) GRID_SIZE),
       coord_to_index (Int.tmod ((index_to_coord i).1 + 1 + GRID_SIZE) GRID_SIZE)
          (Int.tmod ((index_to_coord i).2 + 1 + GRID_SIZE) GRID_SIZE)] := by
  simp [get_neighbors, neighbors_row]

theorem get_neighbors_nonneg (i : Nat) (b : Int) (hb : b ∈ get_neighbors i) : 0 ≤ b := by
  rw [get_neighbors_eq] at hb
  simp only [index_to_coord, coord_to_index, GRID_SIZE] at hb
  have h1 : 0 ≤ Int.tdiv (i : Int) ((16 : Nat) : Int) := Int.tdiv_nonneg (by omega) (by omega)
  have h2 : 0 ≤ Int.tmod (i : Int) ((16 : Nat) : Int) := Int.tmod_nonneg _ (by omega)
  generalize Int.tdiv (i : Int) ((16 : Nat) : Int) = r at *
  generalize Int.tmod (i : Int) ((16 : Nat) : Int) = c at *
  have e : ∀ x : Int, 0 ≤ x → Int.tmod x ((16 : Nat) : Int) = x % 16 := by
    intro x hx
    rw [Int.tmod_eq_emod hx (by omega)]; rfl
  simp only [List.mem_cons, List.mem_singleton, List.not_mem_nil, or_false] at hb
  rw [e _ (by omega), e _ (by omega), e _ (by omega), e _ (by omega), e _ (by omega), e _ (by omega)] at hb
  omega


/-! ### The neighbour scan -/

theorem foldl_best_step_le (payoffs : List (List ℚ)) (l : List Int) (st : ℚ × Int)
    (h : ∀ y ∈ l, avg_payoff payoffs y.toNat ≤ st.1) :
    l.foldl (best_step payoffs) st = st := by
  induction l generalizing st with
  | nil => rfl
  | cons x l ih =>
    have hx : ¬ avg_payoff payoffs x.toNat > st.1 := not_lt.mpr (h x (List.mem_cons_self _ _))
    simp only [List.foldl_cons, best_step, if_neg hx]
    exact ih st (fun y hy => h y (List.mem_cons_of_mem _ hy))

theorem foldl_best_step_lt (payoffs : List (List ℚ)) (c : ℚ) (l : List Int) (st : ℚ × Int)
    (hst : st.1 < c) (h : ∀ y ∈ l, avg_payoff payoffs y.toNat < c) :
    (l.foldl (best_step payoffs) st).1 < c := by
  induction l generalizing st with
  | nil => exact hst
  | cons x l ih =>
    simp only [List.foldl_cons]
    apply ih
    · unfold best_step
      by_cases hx : avg_payoff payoffs x.toNat > st.1
      · simp only [if_pos hx]; exact h x (List.mem_cons_self _ _)
      · simp only [if_neg hx]; exact hst
    · exact fun y hy => h y (List.mem_cons_of_mem _ hy)

theorem find_best_of_better (payoffs : List (List ℚ)) (my : ℚ) (before after : List Int)
    (b : Int) (hb : my < avg_payoff payoffs b.toNat)
    (h1 : ∀ y ∈ before, avg_payoff payoffs y.toNat < avg_payoff payoffs b.toNat)
    (h2 : ∀ y ∈ after, avg_payoff payoffs y.toNat ≤ avg_payoff payoffs b.toNat) :
    find_best payoffs my (before ++ b :: after) = (avg_payoff payoffs b.toNat, b) := by
  unfold find_best
  rw [List.foldl_append, List.foldl_cons]
  have hlt := foldl_best_step_lt payoffs _ before (my, -1) hb h1
  have hstep : best_step payoffs (before.foldl (best_step payoffs) (my, -1)) b
      = (avg_payoff payoffs b.toNat, b) := by
    show (if avg_payoff payoffs b.toNat > (before.foldl (best_step payoffs) (my, -1)).1 then
      (avg_payoff payoffs b.toNat, b) else _) = _
    rw [if_pos hlt]
  rw [hstep]
  exact foldl_best_step_le payoffs after _ h2

theorem find_best_of_not_better (payoffs : List (List ℚ)) (my : ℚ) (l : List Int)
    (h : ∀ y ∈ l, avg_payoff payoffs y.toNat ≤ my) :
    find_best payoffs my l = (my, -1) :=
  foldl_best_step_le payoffs l (my, -1) h

theorem exists_first_max (payoffs : List (List ℚ)) (l : List Int) (hl : l ≠ []) :
    ∃ before b after, l = before ++ b :: after ∧
      (∀ y ∈ before, avg_payoff payoffs y.toNat < avg_payoff payoffs b.toNat) ∧
      (∀ y ∈ after, avg_payoff payoffs y.toNat ≤ avg_payoff payoffs b.toNat) := by
  induction l with
  | nil => exact absurd rfl hl
  | cons x l ih =>
    by_cases hnil : l = []
    · subst hnil
      exact ⟨[], x, [], rfl, by simp, by simp⟩
    · obtain ⟨before, b, after, hsplit, h1, h2⟩ := ih hnil
      by_cases hx : avg_payoff payoffs x.toNat < avg_payoff payoffs b.toNat
      · refine ⟨x :: before, b, after, by rw [hsplit]; rfl, ?_, h2⟩
        intro y hy
        rcases List.mem_cons.mp hy with rfl | hy
        · exact hx
        · exact h1 y hy
      · refine ⟨[], x, l, rfl, by simp, ?_⟩
        intro y hy
        rw [hsplit] at hy
        have hbx : avg_payoff payoffs b.toNat ≤ avg_payoff payoffs x.toNat := not_lt.mp hx
        rcases List.mem_append.mp hy with hy | hy
        · exact le_trans (le_of_lt (h1 y hy)) hbx
        · rcases List.mem_cons.mp hy with rfl | hy
          · exact hbx
          · exact le_trans (h2 y hy) hbx

/-! ### The player loop -/

theorem update_player_length (p payoffs q i) : (update_player p payoffs q i).length = q.length := by
  unfold update_player
  dsimp only
  split <;> simp

theorem update_player_getD (p : List ℚ) (payoffs : List (List ℚ)) (q : List ℚ) (i j : Nat)
    (hi : i < q.length) :
    (update_player p payoffs q i).getD j 0 =
      if j = i then updated_value p payoffs i (q.getD i 0) else q.getD j 0 := by
  unfold update_player updated_value
  by_cases hc : (find_best payoffs (avg_payoff payoffs i) (get_neighbors i)).2 ≠ -1 ∧
      (find_best payoffs (avg_payoff payoffs i) (get_neighbors i)).1 > avg_payoff payoffs i
  · simp only [if_pos hc]
    by_cases hj : j = i
    · subst hj
      simp [List.getD_eq_getElem?_getD, List.getElem?_set, hi]
    · have hj2 : ¬ i = j := fun h => hj h.symm
      simp [List.getD_eq_getElem?_getD, List.getElem?_set, hj, hj2]
  · simp only [if_neg hc]
    by_cases hj : j = i
    · subst hj; simp
    · simp [hj]

theorem foldl_update_player_length (p payoffs) (order : List Nat) (q : List ℚ) :
    (order.foldl (update_player p payoffs) q).length = q.length := by
  induction order generalizing q with
  | nil => rfl
  | cons x l ih => simp only [List.foldl_cons]; rw [ih, update_player_length]

theorem foldl_update_player_getD (p : List ℚ) (payoffs : List (List ℚ)) (order : List Nat)
    (q : List ℚ) (j : Nat) (hnd : order.Nodup) (hlt : ∀ i ∈ order, i < q.length) :
    (order.foldl (update_player p payoffs) q).getD j 0 =
      if j ∈ order then updated_value p payoffs j (q.getD j 0) else q.getD j 0 := by
  induction order generalizing q with
  | nil => simp
  | cons x l ih =>
    have hx : x < q.length := hlt x (List.mem_cons_self _ _)
    have hnd2 := List.nodup_cons.mp hnd
    simp only [List.foldl_cons]
    rw [ih _ hnd2.2 (fun i hi => by
      rw [update_player_length]; exact hlt i (List.mem_cons_of_mem _ hi))]
    rw [update_player_getD p payoffs q x j hx]
    by_cases hjx : j = x
    · subst hjx
      simp [hnd2.1]
    · have hxj : ¬ x = j := fun h => hjx h.symm
      by_cases hjl : j ∈ l
      · simp [hjx, hjl]
      · simp [hjx, hjl]


theorem updated_value_of_best (p : List ℚ) (payoffs : List (List ℚ)) (i : Nat) (v : ℚ) (b : Int)
    (hb : IsBestNeighbor payoffs i b) :
    updated_value p payoffs i v =
      if avg_payoff payoffs b.toNat > avg_payoff payoffs i then
        max 0 (min 1 (v + 2 / 1000 * (p.getD b.toNat 0 - p.getD i 0)))
      else v := by
  obtain ⟨before, after, hsplit, h1, h2⟩ := hb
  have hmem : b ∈ get_neighbors i := by rw [hsplit]; simp
  have hnn : 0 ≤ b := get_neighbors_nonneg i b hmem
  unfold updated_value
  by_cases hgt : avg_payoff payoffs b.toNat > avg_payoff payoffs i
  · rw [hsplit, find_best_of_better payoffs _ before after b hgt h1 h2]
    have hc : (b ≠ -1 ∧ avg_payoff payoffs b.toNat > avg_payoff payoffs i) :=
      ⟨by omega, hgt⟩
    simp only [if_pos hc, if_pos hgt, DELTA]
  · have hall : ∀ y ∈ get_neighbors i, avg_payoff payoffs y.toNat ≤ avg_payoff payoffs i := by
      intro y hy
      have hbi : avg_payoff payoffs b.toNat ≤ avg_payoff payoffs i := not_lt.mp hgt
      rw [hsplit] at hy
      rcases List.mem_append.mp hy with hy | hy
      · exact le_trans (le_of_lt (h1 y hy)) hbi
      · rcases List.mem_cons.mp hy with rfl | hy
        · exact hbi
        · exact le_trans (h2 y hy) hbi
    rw [find_best_of_not_better payoffs _ _ hall]
    simp [hgt]

theorem update_p_values_in_order_getD (p : List ℚ) (payoffs : List (List ℚ)) (order : List Nat)
    (hp : p.length = NUM_PLAYERS) (horder : order.Perm (List.range NUM_PLAYERS)) (j : Nat) :
    (update_p_values_in_order order p payoffs).getD j 0 =
      if j < NUM_PLAYERS then updated_value p payoffs j (p.getD j 0) else p.getD j 0 := by
  unfold update_p_values_in_order
  rw [foldl_update_player_getD p payoffs order p j (horder.nodup_iff.mpr (List.nodup_range _))
    (fun i hi => by rw [hp]; exact List.mem_range.mp (horder.mem_iff.mp hi))]
  have hiff : j ∈ order ↔ j < NUM_PLAYERS := by rw [horder.mem_iff, List.mem_range]
  by_cases hj : j < NUM_PLAYERS
  · rw [if_pos (hiff.mpr hj), if_pos hj]
  · rw [if_neg (fun h => hj (hiff.mp h)), if_neg hj]

theorem update_p_values_length (p : List ℚ) (payoffs : List (List ℚ)) :
    (update_p_values p payoffs).length = p.length :=
  foldl_update_player_length p payoffs _ p

theorem update_p_values_getD (p : List ℚ) (payoffs : List (List ℚ))
    (hp : p.length = NUM_PLAYERS) (j : Nat) (hj : j < NUM_PLAYERS) :
    (update_p_values p payoffs).getD j 0 = updated_value p payoffs j (p.getD j 0) := by
  have h := update_p_values_in_order_getD p payoffs (List.range NUM_PLAYERS) hp (List.Perm.refl _) j
  rw [if_pos hj] at h
  exact h

theorem get_neighbors_ne_nil (i : Int) : get_neighbors i ≠ [] := by
  rw [get_neighbors_eq]; simp

theorem foldl_preserves {α β : Type} (P : α → Prop) (f : α → β → α) (l : List β) (a : α)
    (h0 : P a) (hstep : ∀ a b, P a → P (f a b)) : P (l.foldl f a) := by
  induction l generalizing a with
  | nil => exact h0
  | cons x l ih => exact ih (f a x) (hstep a x h0)

theorem init_p_values_spec (indices : List Nat) :
    (init_p_values indices).length = NUM_PLAYERS ∧ InUnit (init_p_values indices) := by
  unfold init_p_values
  apply foldl_preserves (fun q : List ℚ => q.length = NUM_PLAYERS ∧ InUnit q)
  · refine ⟨List.length_replicate _ _, ?_⟩
    intro x hx
    rw [List.eq_of_mem_replicate hx]
    norm_num
  · intro q i hq
    refine ⟨by rw [List.length_set]; exact hq.1, ?_⟩
    intro x hx
    rcases List.mem_or_eq_of_mem_set hx with h | h
    · exact hq.2 x h
    · rw [h]; split <;> norm_num

theorem updated_value_unit (p : List ℚ) (payoffs : List (List ℚ)) (i : Nat) (v : ℚ)
    (hv : 0 ≤ v ∧ v ≤ 1) :
    0 ≤ updated_value p payoffs i v ∧ updated_value p payoffs i v ≤ 1 := by
  unfold updated_value
  dsimp only
  split
  · exact ⟨le_max_left _ _, max_le (by norm_num) (min_le_left _ _)⟩
  · exact hv

theorem mem_iff_getD (p : List ℚ) (x : ℚ) : x ∈ p ↔ ∃ j, j < p.length ∧ p.getD j 0 = x := by
  rw [List.mem_iff_getElem]
  constructor
  · rintro ⟨j, hj, h⟩
    exact ⟨j, hj, by rw [List.getD_eq_getElem _ _ hj]; exact h⟩
  · rintro ⟨j, hj, h⟩
    exact ⟨j, hj, by rw [List.getD_eq_getElem _ _ hj] at h; exact h⟩

theorem update_p_values_unit (p : List ℚ) (payoffs : List (List ℚ))
    (hp : p.length = NUM_PLAYERS) (hu : InUnit p) : InUnit (update_p_values p payoffs) := by
  intro x hx
  obtain ⟨j, hj, h⟩ := (mem_iff_getD _ _).mp hx
  rw [update_p_values_length, hp] at hj
  rw [update_p_values_getD p payoffs hp j hj] at h
  rw [← h]
  apply updated_value_unit
  exact hu _ ((mem_iff_getD _ _).mpr ⟨j, by rw [hp]; exact hj, rfl⟩)

theorem decide_loop_p_values (round : Nat) (l : List Nat) (acc : State × Int) :
    (l.foldl (decide_step round) acc).1.p_values = acc.1.p_values :=
  foldl_preserves (fun a : State × Int => a.1.p_values = acc.1.p_values) _ l acc rfl
    (fun _ _ h => h)

theorem payoff_loop_p_values (round : Nat) (attendance : Int) (l : List Nat) (s : State) :
    (l.foldl (payoff_step round attendance) s).p_values = s.p_values :=
  foldl_preserves (fun a : State => a.p_values = s.p_values) _ l s rfl (fun _ _ h => h)

theorem play_round_on_p_values (players : List Nat) (acc : State × List Int) (round : Nat) :
    (play_round_on players acc round).1.p_values = acc.1.p_values := by
  unfold play_round_on
  dsimp only
  rw [payoff_loop_p_values, decide_loop_p_values]

theorem rounds_p_values (players l : List Nat) (acc : State × List Int) :
    (l.foldl (play_round_on players) acc).1.p_values = acc.1.p_values :=
  foldl_preserves (fun a : State × List Int => a.1.p_values = acc.1.p_values) _ l acc rfl
    (fun a b h => by
      show (play_round_on players a b).1.p_values = acc.1.p_values
      rw [play_round_on_p_values]; exact h)

theorem iteration_step_on_p_values (players rounds : List Nat) (s : State) (iter : Nat) :
    (iteration_step_on players rounds s iter).p_values =
      update_p_values_in_order players s.p_values
        (rounds.foldl (play_round_on players) (s, [])).1.payoffs := by
  have h := rounds_p_values players rounds (s, [])
  unfold iteration_step_on
  dsimp only at h ⊢
  rw [h]

theorem iteration_step_p_values (s : State) (iter : Nat) :
    (iteration_step s iter).p_values =
      update_p_values s.p_values
        ((List.range NUM_ROUNDS).foldl (play_round_on (List.range NUM_PLAYERS)) (s, [])).1.payoffs :=
  iteration_step_on_p_values (List.range NUM_PLAYERS) (List.range NUM_ROUNDS) s iter

theorem run_simulation_unit (n : Nat) (s : State) (hl : s.p_values.length = NUM_PLAYERS)
    (hu : InUnit s.p_values) :
    (run_simulation n s).p_values.length = NUM_PLAYERS ∧ InUnit (run_simulation n s).p_values := by
  unfold run_simulation
  apply foldl_preserves (fun a : State => a.p_values.length = NUM_PLAYERS ∧ InUnit a.p_values)
  · exact ⟨hl, hu⟩
  · intro a iter ha
    rw [iteration_step_p_values]
    exact ⟨by rw [update_p_values_length]; exact ha.1, update_p_values_unit _ _ ha.1 ha.2⟩

/-- C3: `0 ≤ p[i] ≤ 1` for every agent in every reachable state: for every shuffle
outcome the constructor yields propensities in `[0, 1]`, `update_p_values` maps a vector
in `[0, 1]` to a vector in `[0, 1]` for every payoff window, and so after any number `n` of
iterations of `run_simulation`, for any random draws, every propensity is in `[0, 1]`. -/
theorem C3_propensity_in_unit_interval (indices : List Nat)
    (_hperm : indices.Perm (List.range NUM_PLAYERS)) (rng : Nat → ℚ) (file_open : Bool)
    (n : Nat) :
    (∀ i, i < NUM_PLAYERS →
      0 ≤ (construct indices rng file_open).p_values.getD i 0 ∧
      (construct indices rng file_open).p_values.getD i 0 ≤ 1) ∧
    (∀ (p : List ℚ) (payoffs : List (List ℚ)), p.length = NUM_PLAYERS →
      (∀ i, i < NUM_PLAYERS → 0 ≤ p.getD i 0 ∧ p.getD i 0 ≤ 1) →
      ∀ i, i < NUM_PLAYERS →
        0 ≤ (update_p_values p payoffs).getD i 0 ∧ (update_p_values p payoffs).getD i 0 ≤ 1) ∧
    (run_simulation n (construct indices rng file_open)).p_values.length = NUM_PLAYERS ∧
    (∀ i, i < NUM_PLAYERS →
      0 ≤ (run_simulation n (construct indices rng file_open)).p_values.getD i 0 ∧
      (run_simulation n (construct indices rng file_open)).p_values.getD i 0 ≤ 1) := by
  have hc : (construct indices rng file_open).p_values = init_p_values indices := by
    rw [construct]
  have hinit := init_p_values_spec indices
  rw [← hc] at hinit
  have hrun := run_simulation_unit n (construct indices rng file_open) hinit.1 hinit.2
  refine ⟨?_, ?_, hrun.1, ?_⟩
  · intro i hi
    exact hinit.2 _ ((mem_iff_getD _ _).mpr ⟨i, by rw [hinit.1]; exact hi, rfl⟩)
  · intro p payoffs hp hu i hi
    have hu2 : InUnit p := by
      intro x hx
      obtain ⟨j, hj, h⟩ := (mem_iff_getD _ _).mp hx
      rw [← h]
      exact hu j (by rw [← hp]; exact hj)
    exact update_p_values_unit p payoffs hp hu2 _
      ((mem_iff_getD _ _).mpr ⟨i, by rw [update_p_values_length, hp]; exact hi, rfl⟩)
  · intro i hi
    exact hrun.2 _ ((mem_iff_getD _ _).mpr ⟨i, by rw [hrun.1]; exact hi, rfl⟩)

theorem C3_propensity_in_unit_interval_witness :
    (List.range NUM_PLAYERS).Perm (List.range NUM_PLAYERS) ∧
    (run_simulation 3 (construct (List.range NUM_PLAYERS) (fun _ => 0) true)).p_values.length
      = NUM_PLAYERS :=
  ⟨List.Perm.refl _,
   (C3_propensity_in_unit_interval (List.range NUM_PLAYERS) (List.Perm.refl _)
      (fun _ => 0) true 3).2.2.1⟩

/-! ### The trace format -/

theorem le_bytes_length (n v : Nat) : (le_bytes n v).length = n := by
  simp [le_bytes]

theorem write_records_length (records : List RawRecord) :
    (write_records records).length = 12 * records.length := by
  unfold write_records
  have h : ∀ (l : List RawRecord) (acc : List Nat),
      (l.foldl (fun out r => out ++ int_bytes r.iteration ++ double_bytes r.p_bits) acc).length
        = acc.length + 12 * l.length := by
    intro l
    induction l with
    | nil => intro acc; simp
    | cons r l ih =>
      intro acc
      rw [List.foldl_cons, ih]
      simp only [List.length_append, int_bytes, double_bytes,
        le_bytes_length, SIZEOF_INT, SIZEOF_DOUBLE, List.length_cons]
      omega
  rw [h]; simp

theorem read_records_length_le (a fuel : Nat) (input : List Nat) :
    (read_records a fuel input).length * sizeof_Record a ≤ input.length := by
  induction fuel generalizing input with
  | zero => simp [read_records]
  | succ fuel ih =>
    unfold read_records
    split
    · rename_i h
      have := ih (input.drop (sizeof_Record a))
      simp only [List.length_cons, List.length_drop] at this ⊢
      rw [Nat.add_mul]
      omega
    · simp

/-- With `alignof(double) = 8` the reader of the analyzer never recovers a non-empty
record sequence from the bytes the engine writes for it: it obtains fewer records. -/
theorem decode_trace_shorter (records : List RawRecord) (h : records ≠ []) :
    (decode_trace 8 (write_records records)).length < records.length := by
  have h1 := read_records_length_le 8 (write_records records).length (write_records records)
  rw [write_records_length] at h1
  have h2 : sizeof_Record 8 = 16 := by decide
  rw [h2] at h1
  have h3 : 0 < records.length := List.length_pos.mpr h
  unfold decode_trace
  rw [write_records_length]
  omega

/-- C4 (the code at the failing input): with `alignof(double) = 8` a `Record` has 16
bytes with `p_value` at offset 8, while the engine writes 12 bytes per record.  For the
four records `(0, 0.95), (0, 0.25), (0, 0.95), (0, 0.25)` (doubles given by their bit
patterns) the engine writes 48 bytes, which the reader of the analyzer takes for three
records, none of which is one of the records written. -/
theorem C4_trace_round_trip_fails :
    sizeof_Record 8 = 16 ∧ offsetof_p_value 8 = 8 ∧
    (write_records [⟨0, 0x3FEE666666666666⟩, ⟨0, 0x3FD0000000000000⟩,
      ⟨0, 0x3FEE666666666666⟩, ⟨0, 0x3FD0000000000000⟩]).length = 48 ∧
    decode_trace 8 (write_records [⟨0, 0x3FEE666666666666⟩, ⟨0, 0x3FD0000000000000⟩,
      ⟨0, 0x3FEE666666666666⟩, ⟨0, 0x3FD0000000000000⟩]) =
      [⟨0, 1072588390⟩, ⟨0, 7378697627765833728⟩, ⟨1072588390, 4598175219545276416⟩] ∧
    decode_trace 8 (write_records [⟨0, 0x3FEE666666666666⟩, ⟨0, 0x3FD0000000000000⟩,
      ⟨0, 0x3FEE666666666666⟩, ⟨0, 0x3FD0000000000000⟩]) ≠
      [⟨0, 0x3FEE666666666666⟩, ⟨0, 0x3FD0000000000000⟩,
      ⟨0, 0x3FEE666666666666⟩, ⟨0, 0x3FD0000000000000⟩] := by
  decide

/-! ### The trace format without padding -/

theorem le_bytes_succ (n v : Nat) : le_bytes (n + 1) v = (v % 256) :: le_bytes n (v / 256) := by
  unfold le_bytes
  rw [List.range_succ_eq_map, List.map_cons, List.map_map]
  congr 1
  · simp
  · apply List.map_congr_left
    intro k _
    simp only [Function.comp, Nat.succ_eq_add_one, pow_succ]
    rw [Nat.div_div_eq_div_mul, mul_comm]

theorem of_le_bytes_le_bytes (n v : Nat) : of_le_bytes (le_bytes n v) = v % 256 ^ n := by
  induction n generalizing v with
  | zero => simp [le_bytes, of_le_bytes, Nat.mod_one]
  | succ n ih =>
    rw [le_bytes_succ]
    have h : of_le_bytes ((v % 256) :: le_bytes n (v / 256)) =
        v % 256 + 256 * of_le_bytes (le_bytes n (v / 256)) := rfl
    rw [h, ih, pow_succ', Nat.mod_mul]

theorem int_of_bytes_int_bytes (x : Int) (h0 : -2 ^ 31 ≤ x) (h1 : x < 2 ^ 31) :
    int_of_bytes (int_bytes x) = x := by
  unfold int_of_bytes int_bytes
  dsimp only
  rw [of_le_bytes_le_bytes]
  have hv : (x % 2 ^ 32).toNat % 256 ^ SIZEOF_INT = (x % 2 ^ 32).toNat := by
    apply Nat.mod_eq_of_lt
    have : SIZEOF_INT = 4 := rfl
    rw [this]
    omega
  rw [hv]
  split <;> omega

theorem write_records_foldl (records : List RawRecord) (acc : List Nat) :
    records.foldl (fun out r => out ++ int_bytes r.iteration ++ double_bytes r.p_bits) acc =
      acc ++ write_records records := by
  unfold write_records
  induction records generalizing acc with
  | nil => simp
  | cons r rs ih =>
    rw [List.foldl_cons, ih, List.foldl_cons, ih ([] ++ _ ++ _)]
    simp

theorem write_records_cons (r : RawRecord) (rs : List RawRecord) :
    write_records (r :: rs) =
      int_bytes r.iteration ++ (double_bytes r.p_bits ++ write_records rs) := by
  have h : write_records (r :: rs) =
      rs.foldl (fun out r => out ++ int_bytes r.iteration ++ double_bytes r.p_bits)
        ([] ++ int_bytes r.iteration ++ double_bytes r.p_bits) := rfl
  rw [h, write_records_foldl]
  simp

theorem record_of_block_packed (r : RawRecord) (h0 : -2 ^ 31 ≤ r.iteration)
    (h1 : r.iteration < 2 ^ 31) (h2 : r.p_bits < 2 ^ 64) (rest : List Nat) :
    record_of_block 4
        ((int_bytes r.iteration ++ (double_bytes r.p_bits ++ rest)).take (sizeof_Record 4)) = r := by
  have hs : sizeof_Record 4 = 12 := by decide
  have ho : offsetof_p_value 4 = 4 := by decide
  have hi : (int_bytes r.iteration).length = 4 := le_bytes_length _ _
  have hd : (double_bytes r.p_bits).length = 8 := le_bytes_length _ _
  have htake : (int_bytes r.iteration ++ (double_bytes r.p_bits ++ rest)).take 12 =
      int_bytes r.iteration ++ double_bytes r.p_bits := by
    rw [← List.append_assoc]
    rw [List.take_append_of_le_length (by rw [List.length_append, hi, hd])]
    rw [List.take_of_length_le (by rw [List.length_append, hi, hd])]
  unfold record_of_block
  rw [hs, ho, htake]
  have e1 : (int_bytes r.iteration ++ double_bytes r.p_bits).take SIZEOF_INT =
      int_bytes r.iteration := by
    rw [List.take_append_of_le_length (by rw [hi]; decide)]
    rw [List.take_of_length_le (by rw [hi]; decide)]
  have e2 : ((int_bytes r.iteration ++ double_bytes r.p_bits).drop 4).take SIZEOF_DOUBLE =
      double_bytes r.p_bits := by
    rw [List.drop_append_of_le_length (by rw [hi])]
    rw [List.drop_of_length_le (by rw [hi]), List.nil_append]
    rw [List.take_of_length_le (by rw [hd]; decide)]
  rw [e1, e2, int_of_bytes_int_bytes _ h0 h1]
  unfold double_bytes
  rw [of_le_bytes_le_bytes, Nat.mod_eq_of_lt (by
    have : SIZEOF_DOUBLE = 8 := rfl
    rw [this]; omega)]

theorem read_records_packed (records : List RawRecord)
    (hr : ∀ r ∈ records, -2 ^ 31 ≤ r.iteration ∧ r.iteration < 2 ^ 31 ∧ r.p_bits < 2 ^ 64)
    (fuel : Nat) (hf : records.length ≤ fuel) :
    read_records 4 fuel (write_records records) = records := by
  have hs : sizeof_Record 4 = 12 := by decide
  induction records generalizing fuel with
  | nil =>
    cases fuel with
    | zero => rfl
    | succ fuel =>
      unfold read_records
      rw [if_neg]
      rw [hs]
      simp [write_records]
  | cons r rs ih =>
    cases fuel with
    | zero => simp at hf
    | succ fuel =>
      have hrr := hr r (List.mem_cons_self _ _)
      have hlen := write_records_length (r :: rs)
      unfold read_records
      rw [if_pos (by rw [hs, hlen, List.length_cons]; omega)]
      rw [write_records_cons, record_of_block_packed r hrr.1 hrr.2.1 hrr.2.2]
      have hdrop : (int_bytes r.iteration ++ (double_bytes r.p_bits ++ write_records rs)).drop
          (sizeof_Record 4) = write_records rs := by
        have hi : (int_bytes r.iteration).length = 4 := le_bytes_length _ _
        have hd : (double_bytes r.p_bits).length = 8 := le_bytes_length _ _
        rw [hs, ← List.append_assoc]
        rw [List.drop_append_of_le_length (by rw [List.length_append, hi, hd])]
        rw [List.drop_of_length_le (by rw [List.length_append, hi, hd]), List.nil_append]
      rw [hdrop, ih (fun r' h' => hr r' (List.mem_cons_of_mem _ h')) fuel
        (by simpa using hf)]

/-- Where `struct Record` has no padding (`alignof(double) = 4`, so `sizeof(Record) = 12`)
the reader of the analyzer recovers every record sequence from the bytes the engine writes
for it. -/
theorem decode_trace_packed (records : List RawRecord)
    (hr : ∀ r ∈ records, -2 ^ 31 ≤ r.iteration ∧ r.iteration < 2 ^ 31 ∧ r.p_bits < 2 ^ 64) :
    decode_trace 4 (write_records records) = records := by
  unfold decode_trace
  apply read_records_packed records hr
  rw [write_records_length]
  omega

/-! ### The trace written by the simulation -/

theorem decide_loop_file (round : Nat) (l : List Nat) (acc : State × Int) :
    (l.foldl (decide_step round) acc).1.p_history_file_bin = acc.1.p_history_file_bin :=
  foldl_preserves (fun a : State × Int => a.1.p_history_file_bin = acc.1.p_history_file_bin)
    _ l acc rfl (fun _ _ h => h)

theorem payoff_loop_file (round : Nat) (attendance : Int) (l : List Nat) (s : State) :
    (l.foldl (payoff_step round attendance) s).p_history_file_bin = s.p_history_file_bin :=
  foldl_preserves (fun a : State => a.p_history_file_bin = s.p_history_file_bin) _ l s rfl
    (fun _ _ h => h)

theorem play_round_on_file (players : List Nat) (acc : State × List Int) (round : Nat) :
    (play_round_on players acc round).1.p_history_file_bin = acc.1.p_history_file_bin := by
  unfold play_round_on
  dsimp only
  rw [payoff_loop_file, decide_loop_file]

theorem rounds_file (players l : List Nat) (acc : State × List Int) :
    (l.foldl (play_round_on players) acc).1.p_history_file_bin = acc.1.p_history_file_bin :=
  foldl_preserves
    (fun a : State × List Int => a.1.p_history_file_bin = acc.1.p_history_file_bin) _ l acc rfl
    (fun a b h => by
      show (play_round_on players a b).1.p_history_file_bin = acc.1.p_history_file_bin
      rw [play_round_on_file]; exact h)

theorem write_loop_eq (players : List Nat) (iter : Nat) (p_values : List ℚ)
    (written : List Record) :
    players.foldl
        (fun out i => out ++ [({ iteration := (iter : Int), p_value := p_values.getD i 0 } : Record)])
        written
      = written ++ players.map (fun i => ({ iteration := (iter : Int), p_value := p_values.getD i 0 } : Record)) := by
  induction players generalizing written with
  | nil => simp
  | cons x l ih => rw [List.foldl_cons, ih]; simp

theorem write_trace_on_some (players : List Nat) (iter : Nat) (p_values : List ℚ)
    (written : List Record) :
    write_trace_on players (some written) iter p_values
      = some (written ++ snapshot_block players iter p_values) := by
  unfold write_trace_on snapshot_block
  dsimp only
  rw [write_loop_eq]

theorem iteration_step_on_file (players rounds : List Nat) (s : State) (iter : Nat) :
    (iteration_step_on players rounds s iter).p_history_file_bin =
      write_trace_on players s.p_history_file_bin iter s.p_values := by
  have h1 := rounds_p_values players rounds (s, [])
  have h2 := rounds_file players rounds (s, [])
  unfold iteration_step_on
  dsimp only at h1 h2 ⊢
  rw [h1, h2]

theorem iteration_step_file (s : State) (iter : Nat) :
    (iteration_step s iter).p_history_file_bin =
      write_trace_on (List.range NUM_PLAYERS) s.p_history_file_bin iter s.p_values :=
  iteration_step_on_file (List.range NUM_PLAYERS) (List.range NUM_ROUNDS) s iter

theorem run_simulation_succ (n : Nat) (s : State) :
    run_simulation (n + 1) s = iteration_step (run_simulation n s) n := by
  unfold run_simulation
  rw [List.range_succ, List.foldl_append]
  rfl

theorem expected_records_succ (n : Nat) (s : State) :
    expected_records (n + 1) s = expected_records n s ++
      snapshot_block (List.range NUM_PLAYERS) n (run_simulation n s).p_values := by
  unfold expected_records
  rw [List.range_succ, List.flatMap_append]
  simp

theorem run_simulation_file_open (n : Nat) (s : State) (written : List Record)
    (h : s.p_history_file_bin = some written) :
    (run_simulation n s).p_history_file_bin = some (written ++ expected_records n s) := by
  induction n with
  | zero => simpa [run_simulation, expected_records] using h
  | succ n ih =>
    rw [run_simulation_succ, iteration_step_file, ih, write_trace_on_some,
      expected_records_succ, List.append_assoc]

theorem run_simulation_file_closed (n : Nat) (s : State) (h : s.p_history_file_bin = none) :
    (run_simulation n s).p_history_file_bin = none := by
  induction n with
  | zero => simpa [run_simulation] using h
  | succ n ih =>
    rw [run_simulation_succ, iteration_step_file, ih]
    rfl

theorem emitted_records_open (n : Nat) (s : State) (written : List Record)
    (h : s.p_history_file_bin = some written) :
    emitted_records n s = expected_records n s := by
  unfold emitted_records trace_of
  rw [run_simulation_file_open n s written h, h]
  simp

theorem emitted_records_closed (n : Nat) (s : State) (h : s.p_history_file_bin = none) :
    emitted_records n s = [] := by
  unfold emitted_records trace_of
  rw [run_simulation_file_closed n s h, h]
  simp

theorem snapshot_block_length (players : List Nat) (iter : Nat) (p : List ℚ) :
    (snapshot_block players iter p).length = players.length := by
  simp [snapshot_block]

theorem expected_records_length (n : Nat) (s : State) :
    (expected_records n s).length = n * NUM_PLAYERS := by
  induction n with
  | zero => simp [expected_records]
  | succ n ih =>
    rw [expected_records_succ, List.length_append, ih, snapshot_block_length, List.length_range]
    ring

theorem expected_records_getElem? (n : Nat) (s : State) (k : Nat) (hk : k < n * NUM_PLAYERS) :
    (expected_records n s)[k]? =
      some { iteration := ((k / NUM_PLAYERS : Nat) : Int),
             p_value := (run_simulation (k / NUM_PLAYERS) s).p_values.getD (k % NUM_PLAYERS) 0 } := by
  have hN : NUM_PLAYERS = 256 := by decide
  induction n with
  | zero => simp at hk
  | succ n ih =>
    rw [expected_records_succ, List.getElem?_append, expected_records_length]
    by_cases hlt : k < n * NUM_PLAYERS
    · rw [if_pos hlt]; exact ih hlt
    · rw [if_neg hlt]
      have hdiv : k / NUM_PLAYERS = n := by rw [hN] at hk hlt ⊢; omega
      have hmod : k - n * NUM_PLAYERS = k % NUM_PLAYERS := by rw [hN] at hk hlt ⊢; omega
      have hm : k % NUM_PLAYERS < NUM_PLAYERS := Nat.mod_lt _ (by rw [hN]; omega)
      rw [hmod, hdiv]
      unfold snapshot_block
      rw [List.getElem?_map, List.getElem?_range hm]
      rfl

theorem expected_records_mono (m n : Nat) (s : State) (h : m ≤ n) :
    expected_records m s <+: expected_records n s := by
  induction n with
  | zero =>
    have : m = 0 := by omega
    subst this
    exact List.prefix_refl _
  | succ n ih =>
    by_cases hm : m = n + 1
    · subst hm; exact List.prefix_refl _
    · rw [expected_records_succ]
      exact (ih (by omega)).trans (List.prefix_append _ _)

/-- C5 (as amended): when the trace file is open, `run_simulation n` extends the trace by
the records it emits and changes nothing already in it; it emits exactly `n * N` records,
the `k`-th being `(k div N, p_j)` with `j = k mod N` and `p_j` the propensity of agent `j`
at the start of iteration `k div N` (after `k div N` iterations; iteration 0 records the
initial propensities); and the records emitted by the first `m ≤ n` iterations are a
prefix of those emitted by `n` iterations. -/
theorem C5_trace_records (n : Nat) (s : State) (hopen : s.p_history_file_bin.isSome = true) :
    trace_of (run_simulation n s) = trace_of s ++ emitted_records n s ∧
    (emitted_records n s).length = n * NUM_PLAYERS ∧
    (∀ k, k < n * NUM_PLAYERS →
      (emitted_records n s)[k]? =
        some { iteration := ((k / NUM_PLAYERS : Nat) : Int),
               p_value :=
                 (run_simulation (k / NUM_PLAYERS) s).p_values.getD (k % NUM_PLAYERS) 0 }) ∧
    (∀ m, m ≤ n → emitted_records m s <+: emitted_records n s) := by
  obtain ⟨written, hw⟩ := Option.isSome_iff_exists.mp hopen
  refine ⟨?_, ?_, ?_, ?_⟩
  · rw [emitted_records_open n s written hw]
    unfold trace_of
    rw [run_simulation_file_open n s written hw, hw]
    rfl
  · rw [emitted_records_open n s written hw]; exact expected_records_length n s
  · intro k hk
    rw [emitted_records_open n s written hw]; exact expected_records_getElem? n s k hk
  · intro m hm
    rw [emitted_records_open n s written hw, emitted_records_open m s written hw]
    exact expected_records_mono m n s hm

theorem C5_trace_records_witness :
    (construct (List.range NUM_PLAYERS) (fun _ => 0) true).p_history_file_bin.isSome = true ∧
    (emitted_records 2 (construct (List.range NUM_PLAYERS) (fun _ => 0) true)).length
      = 2 * NUM_PLAYERS :=
  ⟨rfl, (C5_trace_records 2 (construct (List.range NUM_PLAYERS) (fun _ => 0) true) rfl).2.1⟩

/-- C5 (the claim as stated fails): when the trace file could not be opened, one
iteration of `run_simulation` emits no record at all, not `1 * N` records. -/
theorem C5_closed_file_counterexample :
    ¬ (emitted_records 1 (construct (List.range NUM_PLAYERS) (fun _ => 0) false)).length
        = 1 * NUM_PLAYERS := by
  rw [emitted_records_closed 1 _ rfl]
  decide

/-! ### The grouping of the analyzer -/

theorem read_loop_map {β : Type} (emit : Int → List ℚ → β) (cur : Int) (ps : List ℚ)
    (rec : Record) (rest : List Record) :
    read_loop emit cur ps rec rest =
      (read_loop (fun c v => (c, v)) cur ps rec rest).map (fun g => emit g.1 g.2) := by
  induction rest generalizing cur ps rec with
  | nil => simp [read_loop]
  | cons next rest ih =>
    unfold read_loop
    by_cases h : next.iteration = cur
    · simp only [if_pos h]; exact ih _ _ _
    · simp only [if_neg h, List.map_cons]; rw [ih]

theorem read_loop_nonempty (cur : Int) (ps : List ℚ) (rec : Record) (rest : List Record) :
    ∀ g ∈ read_loop (fun c v => (c, v)) cur ps rec rest, g.2 ≠ [] := by
  induction rest generalizing cur ps rec with
  | nil => simp [read_loop]
  | cons next rest ih =>
    unfold read_loop
    by_cases h : next.iteration = cur
    · simp only [if_pos h]; exact ih _ _ _
    · simp only [if_neg h]
      intro g hg
      rcases List.mem_cons.mp hg with rfl | hg
      · simp
      · exact ih _ _ _ g hg

theorem read_loop_records (cur : Int) (ps : List ℚ) (rec : Record) (rest : List Record)
    (hrec : rec.iteration = cur) :
    records_of_groups (read_loop (fun c v => (c, v)) cur ps rec rest) =
      ps.map (fun p => ({ iteration := cur, p_value := p } : Record)) ++ rec :: rest := by
  induction rest generalizing cur ps rec with
  | nil =>
    subst hrec
    simp [read_loop, records_of_groups]
  | cons next rest ih =>
    unfold read_loop
    by_cases h : next.iteration = cur
    · simp only [if_pos h]
      rw [ih _ _ _ h]
      subst hrec
      simp
    · simp only [if_neg h]
      have e := ih next.iteration [] next rfl
      unfold records_of_groups at e ⊢
      rw [List.flatMap_cons, e]
      subst hrec
      simp

theorem read_loop_chain (cur : Int) (ps : List ℚ) (rec : Record) (rest : List Record) :
    ∃ ps1 tl, read_loop (fun c v => (c, v)) cur ps rec rest = (cur, ps1) :: tl ∧
      List.Chain' (fun a b : Int × List ℚ => a.1 ≠ b.1) ((cur, ps1) :: tl) := by
  induction rest generalizing cur ps rec with
  | nil => exact ⟨ps ++ [rec.p_value], [], by simp [read_loop], List.chain'_singleton _⟩
  | cons next rest ih =>
    unfold read_loop
    by_cases h : next.iteration = cur
    · simp only [if_pos h]; exact ih _ _ _
    · simp only [if_neg h]
      obtain ⟨ps1, tl, e, hc⟩ := ih next.iteration [] next
      refine ⟨ps ++ [rec.p_value], (next.iteration, ps1) :: tl, by rw [e], ?_⟩
      exact List.Chain'.cons (fun hEq => h hEq.symm) hc

theorem analyzer_groups_cons (rec : Record) (rest : List Record) :
    analyzer_groups (rec :: rest) = read_loop (fun c v => (c, v)) rec.iteration [] rec rest :=
  rfl

theorem hist_incr_length (hist : List Nat) (bin : Int) :
    (hist_incr hist bin).length = hist.length := by
  unfold hist_incr
  split <;> simp

theorem prob_dist_length (hist : List Nat) (size : Nat) :
    (prob_dist hist size).length = NUM_BINS := by
  unfold prob_dist
  split
  · apply foldl_preserves (fun q : List ℚ => q.length = NUM_BINS)
    · exact List.length_replicate _ _
    · intro q i hq
      rw [List.length_set]; exact hq
  · exact List.length_replicate _ _

theorem records_of_groups_values (groups : List (Int × List ℚ)) :
    (records_of_groups groups).map (fun r => r.p_value) = groups.flatMap (fun g => g.2) := by
  induction groups with
  | nil => rfl
  | cons g gs ih =>
    unfold records_of_groups at ih ⊢
    rw [List.flatMap_cons, List.flatMap_cons, List.map_append, ih, List.map_map]
    have hid : ((fun r : Record => r.p_value) ∘
        fun p => ({ iteration := g.1, p_value := p } : Record)) = id := rfl
    rw [hid, List.map_id]

theorem read_loop_run (c : Int) (acc : List ℚ) (p : ℚ) (qs : List ℚ) (R : List Record)
    (hR : ∀ r ∈ R.head?, r.iteration ≠ c) :
    read_loop (fun c v => (c, v)) c acc { iteration := c, p_value := p }
        (qs.map (fun q => ({ iteration := c, p_value := q } : Record)) ++ R) =
      (c, acc ++ p :: qs) :: analyzer_groups R := by
  induction qs generalizing acc p with
  | nil =>
    cases R with
    | nil => simp [read_loop, analyzer_groups, analyzer_with]
    | cons r R =>
      have hr : r.iteration ≠ c := hR r (by simp)
      simp only [List.map_nil, List.nil_append]
      unfold read_loop
      rw [if_neg hr, analyzer_groups_cons]
  | cons q qs ih =>
    simp only [List.map_cons, List.cons_append]
    unfold read_loop
    rw [if_pos rfl, ih]
    simp

theorem records_of_groups_cons (g : Int × List ℚ) (gs : List (Int × List ℚ)) :
    records_of_groups (g :: gs) =
      g.2.map (fun p => ({ iteration := g.1, p_value := p } : Record)) ++ records_of_groups gs := by
  unfold records_of_groups
  rw [List.flatMap_cons]

theorem records_of_groups_head (gs : List (Int × List ℚ)) (hne : ∀ g ∈ gs, g.2 ≠ []) :
    ∀ r ∈ (records_of_groups gs).head?, ∃ g ∈ gs.head?, r.iteration = g.1 := by
  cases gs with
  | nil => simp [records_of_groups]
  | cons g gs =>
    intro r hr
    rw [records_of_groups_cons] at hr
    have hg : g.2 ≠ [] := hne g (List.mem_cons_self _ _)
    obtain ⟨p, ps, hps⟩ := List.exists_cons_of_ne_nil hg
    rw [hps] at hr
    simp only [List.map_cons, List.cons_append, List.head?_cons, Option.mem_def,
      Option.some.injEq] at hr
    exact ⟨g, by simp, by rw [← hr]⟩

/-- The analyzer recovers any list of non-empty groups whose adjacent indices differ
from the records the groups stand for. -/
theorem analyzer_groups_records_of_groups (gs : List (Int × List ℚ))
    (hne : ∀ g ∈ gs, g.2 ≠ [])
    (hch : List.Chain' (fun a b : Int × List ℚ => a.1 ≠ b.1) gs) :
    analyzer_groups (records_of_groups gs) = gs := by
  induction gs with
  | nil => rfl
  | cons g gs ih =>
    have hg : g.2 ≠ [] := hne g (List.mem_cons_self _ _)
    obtain ⟨p, ps, hps⟩ := List.exists_cons_of_ne_nil hg
    have hne2 : ∀ g' ∈ gs, g'.2 ≠ [] := fun g' h => hne g' (List.mem_cons_of_mem _ h)
    have hch2 := (List.chain'_cons'.mp hch)
    rw [records_of_groups_cons, hps]
    simp only [List.map_cons, List.cons_append]
    rw [analyzer_groups_cons]
    have hR : ∀ r ∈ (records_of_groups gs).head?, r.iteration ≠ g.1 := by
      intro r hr
      obtain ⟨g', hg', e⟩ := records_of_groups_head gs hne2 r hr
      rw [e]
      exact fun h => hch2.1 g' hg' h.symm
    have := read_loop_run g.1 [] p ps (records_of_groups gs) hR
    simp only [List.nil_append] at this
    rw [this, ih hne2 hch2.2]
    have : g = (g.1, p :: ps) := by rw [← hps]
    rw [← this]

/-- The grouping of the two nested loops, for a non-empty record sequence: at least one
group is formed; every group is non-empty; the records are, in order, the values of the
groups, each carrying the iteration index of its group; adjacent groups have different
indices; and the groups are the only list of groups with these properties, the maximal
runs of equal consecutive index. -/
theorem analyzer_groups_facts (records : List Record) (hne : records ≠ []) :
    analyzer_groups records ≠ [] ∧
    (∀ g ∈ analyzer_groups records, g.2 ≠ []) ∧
    records_of_groups (analyzer_groups records) = records ∧
    List.Chain' (fun a b : Int × List ℚ => a.1 ≠ b.1) (analyzer_groups records) ∧
    (analyzer_groups records).flatMap (fun g => g.2) = records.map (fun r => r.p_value) ∧
    (∀ gs : List (Int × List ℚ), (∀ g ∈ gs, g.2 ≠ []) →
      List.Chain' (fun a b : Int × List ℚ => a.1 ≠ b.1) gs →
      records_of_groups gs = records → analyzer_groups records = gs) := by
  have huniq : ∀ gs : List (Int × List ℚ), (∀ g ∈ gs, g.2 ≠ []) →
      List.Chain' (fun a b : Int × List ℚ => a.1 ≠ b.1) gs →
      records_of_groups gs = records → analyzer_groups records = gs := by
    intro gs h1 h2 h3
    rw [← h3]
    exact analyzer_groups_records_of_groups gs h1 h2
  cases records with
  | nil => exact absurd rfl hne
  | cons rec rest =>
    have hrec : records_of_groups (analyzer_groups (rec :: rest)) = rec :: rest := by
      rw [analyzer_groups_cons, read_loop_records _ _ _ _ rfl]
      rfl
    obtain ⟨ps1, tl, e, hc⟩ := read_loop_chain rec.iteration [] rec rest
    refine ⟨?_, ?_, hrec, ?_, ?_, huniq⟩
    · rw [analyzer_groups_cons, e]; simp
    · rw [analyzer_groups_cons]
      exact read_loop_nonempty _ _ _ _
    · rw [analyzer_groups_cons, e]; exact hc
    · rw [← records_of_groups_values, hrec]

/-! ### Grouping the trace of a run -/

theorem run_simulation_length (n : Nat) (s : State) (hl : s.p_values.length = NUM_PLAYERS) :
    (run_simulation n s).p_values.length = NUM_PLAYERS := by
  unfold run_simulation
  apply foldl_preserves (fun a : State => a.p_values.length = NUM_PLAYERS)
  · exact hl
  · intro a iter ha
    rw [iteration_step_p_values, update_p_values_length]; exact ha

theorem snapshot_block_eq (k : Nat) (p : List ℚ) (hp : p.length = NUM_PLAYERS) :
    snapshot_block (List.range NUM_PLAYERS) k p =
      p.map (fun v => ({ iteration := (k : Int), p_value := v } : Record)) := by
  unfold snapshot_block
  apply List.ext_getElem?
  intro i
  rw [List.getElem?_map, List.getElem?_map]
  by_cases hi : i < NUM_PLAYERS
  · have hlt : i < p.length := by rw [hp]; exact hi
    rw [List.getElem?_range hi, List.getElem?_eq_getElem hlt]
    simp only [Option.map_some', List.getD_eq_getElem _ _ hlt]
  · have h1 : (List.range NUM_PLAYERS)[i]? = none := by
      apply List.getElem?_eq_none; rw [List.length_range]; omega
    have h2 : p[i]? = none := by
      apply List.getElem?_eq_none; rw [hp]; omega
    rw [h1, h2]; rfl

theorem expected_records_eq_groups (n : Nat) (s : State)
    (hl : s.p_values.length = NUM_PLAYERS) :
    expected_records n s =
      records_of_groups
        ((List.range n).map (fun k : Nat => ((k : Int), (run_simulation k s).p_values))) := by
  unfold expected_records records_of_groups
  rw [List.flatMap_map]
  congr 1
  funext k
  exact snapshot_block_eq k _ (run_simulation_length k s hl)

theorem chain_range (f : Nat → List ℚ) (n : Nat) :
    List.Chain' (fun a b : Int × List ℚ => a.1 ≠ b.1)
      ((List.range n).map (fun k : Nat => ((k : Int), f k))) := by
  rw [List.chain'_map]
  cases n with
  | zero => simp
  | succ m =>
    rw [List.chain'_range_succ]
    intro k _
    simp only [ne_eq]
    omega

theorem construct_p_values (indices : List Nat) (rng : Nat → ℚ) (file_open : Bool) :
    (construct indices rng file_open).p_values = init_p_values indices := by
  rw [construct]

theorem construct_p_values_length (indices : List Nat) (rng : Nat → ℚ) (file_open : Bool) :
    (construct indices rng file_open).p_values.length = NUM_PLAYERS := by
  rw [construct_p_values]
  exact (init_p_values_spec indices).1

/-- The grouping applied to the records as the engine holds them (before they are turned
into bytes): when the trace file is open and the state holds `N` propensities, the records
of `n` iterations form `n` groups, the `k`-th labelled `k` and holding the `N = 256`
propensities of the agents `0 .. 255`, in that order, at the start of iteration `k`. -/
theorem groups_of_emitted_records (n : Nat) (s : State)
    (hopen : s.p_history_file_bin.isSome = true) (hlen : s.p_values.length = NUM_PLAYERS) :
    analyzer_groups (emitted_records n s) =
      (List.range n).map (fun k : Nat => ((k : Int), (run_simulation k s).p_values)) := by
  obtain ⟨written, hw⟩ := Option.isSome_iff_exists.mp hopen
  rw [emitted_records_open n s written hw, expected_records_eq_groups n s hlen]
  apply analyzer_groups_records_of_groups
  · intro g hg
    obtain ⟨k, _, hk⟩ := List.mem_map.mp hg
    rw [← hk]
    intro hnil
    have h1 := run_simulation_length k s hlen
    dsimp only at hnil
    rw [hnil] at h1
    exact absurd h1 (by decide)
  · exact chain_range _ n

/-! ### The histogram -/

theorem static_cast_int_of_nonneg (x : ℚ) (hx : 0 ≤ x) : static_cast_int x = ⌊x⌋ := by
  unfold static_cast_int
  rw [if_pos hx]

theorem bin_index_eq (p : ℚ) (h0 : 0 ≤ p) : bin_index p = min ⌊p * 20⌋ 19 := by
  unfold bin_index
  rw [static_cast_int_of_nonneg _ (by unfold NUM_BINS; positivity)]
  simp [NUM_BINS]

/-- The bin index with the product `p * NUM_BINS` taken exactly: for `0 ≤ p ≤ 1` the
conversion to `int` is in range and the index lies in `0 .. NUM_BINS - 1`; for `p < 1` the
index is `k` exactly when `k / NUM_BINS ≤ p < (k + 1) / NUM_BINS`; and the index of `p = 1`
is `NUM_BINS - 1`. -/
theorem bin_index_exact (p : ℚ) (h0 : 0 ≤ p) (h1 : p ≤ 1) :
    (-2 ^ 31 ≤ static_cast_int (p * NUM_BINS) ∧ static_cast_int (p * NUM_BINS) ≤ 2 ^ 31 - 1) ∧
    bin_index p = min (static_cast_int (p * NUM_BINS)) ((NUM_BINS : Int) - 1) ∧
    (0 ≤ bin_index p ∧ bin_index p ≤ (NUM_BINS : Int) - 1) ∧
    (∀ hist : List Nat, hist.length = NUM_BINS →
      hist_incr hist (bin_index p) =
        hist.set (bin_index p).toNat (hist.getD (bin_index p).toNat 0 + 1)) ∧
    (p < 1 → ∀ k : Int,
      (bin_index p = k ↔ (k : ℚ) / NUM_BINS ≤ p ∧ p < ((k : ℚ) + 1) / NUM_BINS)) ∧
    (p = 1 → bin_index p = (NUM_BINS : Int) - 1) := by
  have hx0 : (0 : ℚ) ≤ p * 20 := by positivity
  have hx1 : p * 20 ≤ 20 := by linarith
  have hf0 : 0 ≤ ⌊p * 20⌋ := Int.floor_nonneg.mpr hx0
  have hf1 : ⌊p * 20⌋ ≤ 20 := by
    have : ⌊p * 20⌋ ≤ ⌊(20 : ℚ)⌋ := Int.floor_mono hx1
    simpa using this
  have hs : static_cast_int (p * NUM_BINS) = ⌊p * 20⌋ := by
    rw [static_cast_int_of_nonneg _ (by unfold NUM_BINS; positivity)]
    simp [NUM_BINS]
  have hb := bin_index_eq p h0
  have hN : ((NUM_BINS : Nat) : Int) = 20 := by decide
  have hNq : ((NUM_BINS : Nat) : ℚ) = 20 := by simp [NUM_BINS]
  have hrange : 0 ≤ bin_index p ∧ bin_index p ≤ (NUM_BINS : Int) - 1 := by
    rw [hb, hN]; omega
  refine ⟨?_, rfl, hrange, ?_, ?_, ?_⟩
  · rw [hs]; omega
  · intro hist hlen
    unfold hist_incr
    rw [if_pos]
    rw [hlen, hN]
    rw [hN] at hrange
    omega
  · intro hlt k
    have hx2 : p * 20 < 20 := by linarith
    have hf2 : ⌊p * 20⌋ < 20 := Int.floor_lt.mpr (by simpa using hx2)
    have hb2 : bin_index p = ⌊p * 20⌋ := by rw [hb]; omega
    rw [hb2, Int.floor_eq_iff, hNq]
    constructor
    · rintro ⟨ha, hb'⟩
      exact ⟨by rw [div_le_iff₀ (by norm_num)]; exact ha, by rw [lt_div_iff₀ (by norm_num)]; exact hb'⟩
    · rintro ⟨ha, hb'⟩
      exact ⟨by rw [div_le_iff₀ (by norm_num)] at ha; exact ha,
        by rw [lt_div_iff₀ (by norm_num)] at hb'; exact hb'⟩
  · intro h
    subst h
    rw [hb, hN]
    norm_num

theorem foldl_hist_incr_length (ps : List ℚ) (hist : List Nat) :
    (ps.foldl (fun hist p => hist_incr hist (bin_index p)) hist).length = hist.length :=
  foldl_preserves (fun h : List Nat => h.length = hist.length) _ ps hist rfl
    (fun h p hh => by
      show (hist_incr h (bin_index p)).length = hist.length
      rw [hist_incr_length]; exact hh)

open Finset

/-! ### Entropy of a finite distribution -/

theorem list_sum_eq_sum_range {α M : Type} [AddCommMonoid M] (g : α → M) (l : List α) (d : α) :
    (l.map g).sum = ∑ i ∈ range l.length, g (l.getD i d) := by
  induction l with
  | nil => simp
  | cons x l ih =>
    rw [List.map_cons, List.sum_cons, List.length_cons, Finset.sum_range_succ', ih, add_comm]
    simp

theorem foldl_entropy (l : List ℚ) (init : ℝ) :
    l.foldl (fun (entropy : ℝ) (p : ℚ) =>
        if p > 0 then entropy - (p : ℝ) * Real.logb 2 (p : ℝ) else entropy) init
      = init + (l.map (fun p : ℚ =>
          if p > 0 then -((p : ℝ) * Real.logb 2 (p : ℝ)) else 0)).sum := by
  induction l generalizing init with
  | nil => simp
  | cons x l ih =>
    rw [List.foldl_cons, ih, List.map_cons, List.sum_cons]
    split <;> ring

theorem threshold_eq : threshold = 153 := by
  unfold threshold static_cast_int NUM_PLAYERS GRID_SIZE
  norm_num

/-- C14 (as amended): for every attendance decision and every total attendance the two
disjuncts of the payoff rule never hold together; the payoff is 1 exactly when one of
them holds and 0 exactly when neither holds, so the payoff is always 0 or 1; and exactly
one disjunct holds exactly when the payoff is 1. -/
theorem C14_payoff_disjuncts (b : Bool) (t : Int) :
    ¬ (attended_not_crowded b t = true ∧ absent_crowded b t = true) ∧
    (calculate_payoff b t = 1 ↔ attended_not_crowded b t = true ∨ absent_crowded b t = true) ∧
    (calculate_payoff b t = 0 ↔
      attended_not_crowded b t = false ∧ absent_crowded b t = false) ∧
    (calculate_payoff b t = 0 ∨ calculate_payoff b t = 1) ∧
    (Xor' (attended_not_crowded b t = true) (absent_crowded b t = true) ↔
      calculate_payoff b t = 1) := by
  unfold calculate_payoff attended_not_crowded absent_crowded Xor'
  cases b <;> by_cases h : t < threshold <;> simp [h]

/-- C14 (the claim as stated fails): for a player who attended when all 256 players
attended, neither disjunct of the payoff rule holds, so it is not the case that exactly
one of them holds. -/
theorem C14_neither_disjunct_counterexample :
    attended_not_crowded true 256 = false ∧ absent_crowded true 256 = false ∧
    ¬ Xor' (attended_not_crowded true 256 = true) (absent_crowded true 256 = true) := by
  unfold attended_not_crowded absent_crowded Xor'
  rw [threshold_eq]
  decide

/-! ### The grid -/

theorem index_to_coord_of_nonneg (i : Int) (h0 : 0 ≤ i) : index_to_coord i = (i / 16, i % 16) := by
  unfold index_to_coord GRID_SIZE
  rw [Int.tdiv_eq_ediv h0 (by omega), Int.tmod_eq_emod h0 (by omega)]
  rfl

theorem coord_to_index_eq (r c : Int) : coord_to_index r c = r * 16 + c := by
  unfold coord_to_index GRID_SIZE
  rfl

theorem wrap_eq (x d : Int) (hx : 0 ≤ x) (hd : -1 ≤ d) :
    Int.tmod (x + d + ((GRID_SIZE : Nat) : Int)) ((GRID_SIZE : Nat) : Int) = (x + d) % 16 := by
  have hG : ((GRID_SIZE : Nat) : Int) = 16 := rfl
  rw [hG, Int.tmod_eq_emod (by omega) (by omega)]
  omega

theorem get_neighbors_cells (i : Int) (h0 : 0 ≤ i) :
    get_neighbors i =
      moore_offsets.map (fun d => coord_to_index ((i / 16 + d.1) % 16) ((i % 16 + d.2) % 16)) := by
  have hr : 0 ≤ i / 16 := by omega
  have hc : 0 ≤ i % 16 := by omega
  rw [get_neighbors_eq, index_to_coord_of_nonneg i h0]
  simp only [moore_offsets, List.map_cons, List.map_nil]
  rw [wrap_eq _ _ hr (by omega), wrap_eq _ _ hc (by omega), wrap_eq _ _ hc (by omega),
    wrap_eq _ _ hc (by omega), wrap_eq _ _ hr (by omega), wrap_eq _ _ hr (by omega)]

/-- C17: `coord_to_index` and `index_to_coord` are mutually inverse on the grid: for an
index `0 ≤ i < N` the coordinates `(r, c) = index_to_coord i` satisfy `0 ≤ r < S`,
`0 ≤ c < S` and `coord_to_index r c = i`; for coordinates `0 ≤ r < S`, `0 ≤ c < S` the
index `coord_to_index r c` lies in `0 .. N-1` and `index_to_coord` maps it back to
`(r, c)` (`S = 16`, `N = 256`). -/
theorem C17_coord_index_inverse (i r c : Int) (hi : 0 ≤ i ∧ i < NUM_PLAYERS)
    (hr : 0 ≤ r ∧ r < GRID_SIZE) (hc : 0 ≤ c ∧ c < GRID_SIZE) :
    ((0 ≤ (index_to_coord i).1 ∧ (index_to_coord i).1 < GRID_SIZE) ∧
     (0 ≤ (index_to_coord i).2 ∧ (index_to_coord i).2 < GRID_SIZE) ∧
     coord_to_index (index_to_coord i).1 (index_to_coord i).2 = i) ∧
    ((0 ≤ coord_to_index r c ∧ coord_to_index r c < NUM_PLAYERS) ∧
     index_to_coord (coord_to_index r c) = (r, c)) ∧
    GRID_SIZE = 16 ∧ NUM_PLAYERS = 256 := by
  have hN : ((NUM_PLAYERS : Nat) : Int) = 256 := by decide
  have hG : ((GRID_SIZE : Nat) : Int) = 16 := rfl
  rw [hN] at hi ⊢
  rw [hG] at hr hc ⊢
  refine ⟨?_, ?_, rfl, by decide⟩
  · rw [index_to_coord_of_nonneg i hi.1, coord_to_index_eq]
    dsimp only
    omega
  · have hnn : 0 ≤ coord_to_index r c := by rw [coord_to_index_eq]; omega
    rw [index_to_coord_of_nonneg _ hnn, coord_to_index_eq]
    refine ⟨by omega, ?_⟩
    have e1 : (r * 16 + c) / 16 = r := by omega
    have e2 : (r * 16 + c) % 16 = c := by omega
    rw [e1, e2]

theorem C17_coord_index_inverse_witness :
    ((0 : Int) ≤ 37 ∧ (37 : Int) < NUM_PLAYERS) ∧ ((0 : Int) ≤ 2 ∧ (2 : Int) < GRID_SIZE) ∧
    ((0 : Int) ≤ 5 ∧ (5 : Int) < GRID_SIZE) ∧
    index_to_coord (coord_to_index 2 5) = (2, 5) :=
  ⟨by decide, by decide, by decide,
   (C17_coord_index_inverse 37 2 5 (by decide) (by decide) (by decide)).2.1.2⟩

theorem get_neighbors_facts (i : Int) (h0 : 0 ≤ i) (h1 : i < 256) :
    (get_neighbors i).length = 8 ∧
    (∀ b ∈ get_neighbors i, 0 ≤ b ∧ b < 256) ∧
    (get_neighbors i).Nodup ∧
    i ∉ get_neighbors i := by
  rw [get_neighbors_cells i h0]
  simp only [moore_offsets, List.map_cons, List.map_nil, coord_to_index_eq]
  refine ⟨rfl, ?_, ?_, ?_⟩
  · intro b hb
    simp only [List.mem_cons, List.mem_singleton, List.not_mem_nil, or_false] at hb
    omega
  · simp only [List.nodup_cons, List.mem_cons, List.mem_singleton, List.not_mem_nil,
      or_false, not_or, List.nodup_nil, and_true, not_false_eq_true]
    omega
  · simp only [List.mem_cons, List.mem_singleton, List.not_mem_nil, or_false, not_or]
    omega

/-- C18: for an agent index `0 ≤ i < 256`, `get_neighbors i` returns exactly 8 indices,
all in `0 .. 255`, pairwise distinct and none equal to `i`; in push order they are the
cells `((r + dr) mod 16, (c + dc) mod 16)` for the eight `(dr, dc)` of
`{-1, 0, 1} x {-1, 0, 1}` other than `(0, 0)`, where `(r, c) = index_to_coord i`. -/
theorem C18_get_neighbors (i : Int) (h0 : 0 ≤ i) (h1 : i < 256) :
    (get_neighbors i).length = 8 ∧
    (∀ b ∈ get_neighbors i, 0 ≤ b ∧ b < 256) ∧
    (get_neighbors i).Nodup ∧
    i ∉ get_neighbors i ∧
    get_neighbors i =
      moore_offsets.map (fun d =>
        coord_to_index (((index_to_coord i).1 + d.1) % 16) (((index_to_coord i).2 + d.2) % 16)) ∧
    (∀ d : Int × Int, d ∈ moore_offsets ↔
      (d.1 = -1 ∨ d.1 = 0 ∨ d.1 = 1) ∧ (d.2 = -1 ∨ d.2 = 0 ∨ d.2 = 1) ∧ d ≠ (0, 0)) := by
  obtain ⟨hl, hr, hn, hi⟩ := get_neighbors_facts i h0 h1
  refine ⟨hl, hr, hn, hi, ?_, ?_⟩
  · rw [index_to_coord_of_nonneg i h0]
    exact get_neighbors_cells i h0
  · rintro ⟨a, b⟩
    simp only [moore_offsets, List.mem_cons, List.mem_singleton, List.not_mem_nil, or_false,
      Prod.mk.injEq, ne_eq]
    omega

theorem C18_get_neighbors_witness :
    (0 : Int) ≤ 0 ∧ (0 : Int) < 256 ∧ get_neighbors 0 = [255, 240, 241, 15, 1, 31, 16, 17] :=
  ⟨by decide, by decide, by
    rw [(C18_get_neighbors 0 (by decide) (by decide)).2.2.2.2.1]
    decide⟩

theorem neighbors_symmetric_imp (i j : Int) (hi : 0 ≤ i ∧ i < 256) (hj : 0 ≤ j ∧ j < 256)
    (h : j ∈ get_neighbors i) : i ∈ get_neighbors j := by
  rw [get_neighbors_cells i hi.1] at h
  rw [get_neighbors_cells j hj.1]
  simp only [moore_offsets, List.map_cons, List.map_nil, coord_to_index_eq, List.mem_cons,
    List.mem_singleton, List.not_mem_nil, or_false] at h ⊢
  rcases h with h | h | h | h | h | h | h | h
  · right; right; right; right; right; right; right; omega
  · right; right; right; right; right; right; left; omega
  · right; right; right; right; right; left; omega
  · right; right; right; right; left; omega
  · right; right; right; left; omega
  · right; right; left; omega
  · right; left; omega
  · left; omega

/-- C20: the neighbour relation of the torus is symmetric: for agent indices `i`, `j` in
`0 .. 255`, `j` occurs in `get_neighbors i` if and only if `i` occurs in
`get_neighbors j`. -/
theorem C20_neighbors_symmetric (i j : Int) (hi : 0 ≤ i ∧ i < 256) (hj : 0 ≤ j ∧ j < 256) :
    j ∈ get_neighbors i ↔ i ∈ get_neighbors j :=
  ⟨neighbors_symmetric_imp i j hi hj, neighbors_symmetric_imp j i hj hi⟩

theorem C20_neighbors_symmetric_witness :
    ((0 : Int) ≤ 0 ∧ (0 : Int) < 256) ∧ ((0 : Int) ≤ 255 ∧ (255 : Int) < 256) ∧
    ((255 : Int) ∈ get_neighbors 0 ↔ (0 : Int) ∈ get_neighbors 255) :=
  ⟨by decide, by decide, C20_neighbors_symmetric 0 255 (by decide) (by decide)⟩

/-! ### The initial propensities -/

theorem foldl_set_getD_of_not_mem (f : Nat → Nat) (val : Nat → ℚ) (l : List Nat) (q : List ℚ)
    (j : Nat) (hj : ∀ i ∈ l, f i ≠ j) :
    (l.foldl (fun acc i => acc.set (f i) (val i)) q).getD j 0 = q.getD j 0 := by
  induction l generalizing q with
  | nil => rfl
  | cons x l ih =>
    rw [List.foldl_cons, ih _ (fun i hi => hj i (List.mem_cons_of_mem _ hi))]
    have hx : f x ≠ j := hj x (List.mem_cons_self _ _)
    simp [List.getD_eq_getElem?_getD, List.getElem?_set, hx]

theorem foldl_set_getD_of_mem (f : Nat → Nat) (val : Nat → ℚ) (l : List Nat) (q : List ℚ)
    (hnd : l.Nodup) (hinj : ∀ a ∈ l, ∀ b ∈ l, f a = f b → a = b)
    (hlt : ∀ a ∈ l, f a < q.length) (i : Nat) (hi : i ∈ l) :
    (l.foldl (fun acc i => acc.set (f i) (val i)) q).getD (f i) 0 = val i := by
  induction l generalizing q with
  | nil => simp at hi
  | cons x l ih =>
    have hnd2 := List.nodup_cons.mp hnd
    rw [List.foldl_cons]
    by_cases hil : i ∈ l
    · exact ih _ hnd2.2
        (fun a ha b hb => hinj a (List.mem_cons_of_mem _ ha) b (List.mem_cons_of_mem _ hb))
        (fun a ha => by rw [List.length_set]; exact hlt a (List.mem_cons_of_mem _ ha)) hil
    · have hix : i = x := by
        rcases List.mem_cons.mp hi with h | h
        · exact h
        · exact absurd h hil
      subst hix
      rw [foldl_set_getD_of_not_mem f val l _ (f i) (fun a ha hfa =>
        hnd2.1 (by
          have := hinj a (List.mem_cons_of_mem _ ha) i (List.mem_cons_self _ _) hfa
          rw [← this]; exact ha))]
      have hlt' := hlt i (List.mem_cons_self _ _)
      simp [List.getD_eq_getElem?_getD, List.getElem?_set, hlt']

theorem perm_range_getD (indices : List Nat) (hperm : indices.Perm (List.range NUM_PLAYERS)) :
    indices.length = NUM_PLAYERS ∧
    (∀ a, a < NUM_PLAYERS → indices.getD a 0 < NUM_PLAYERS) ∧
    (∀ a, a < NUM_PLAYERS → ∀ b, b < NUM_PLAYERS → indices.getD a 0 = indices.getD b 0 → a = b) := by
  have hlen : indices.length = NUM_PLAYERS := by rw [hperm.length_eq, List.length_range]
  have hnd : indices.Nodup := hperm.nodup_iff.mpr (List.nodup_range _)
  refine ⟨hlen, ?_, ?_⟩
  · intro a ha
    have ha' : a < indices.length := by rw [hlen]; exact ha
    rw [List.getD_eq_getElem _ _ ha']
    exact List.mem_range.mp (hperm.mem_iff.mp (List.getElem_mem _))
  · intro a ha b hb hab
    have ha' : a < indices.length := by rw [hlen]; exact ha
    have hb' : b < indices.length := by rw [hlen]; exact hb
    rw [List.getD_eq_getElem _ _ ha', List.getD_eq_getElem _ _ hb'] at hab
    exact (List.Nodup.getElem_inj_iff hnd).mp hab

theorem init_p_values_getD (indices : List Nat) (hperm : indices.Perm (List.range NUM_PLAYERS))
    (a : Nat) (ha : a < NUM_PLAYERS) :
    (init_p_values indices).getD (indices.getD a 0) 0 =
      if a < NUM_PLAYERS / 2 then 95 / 100 else 25 / 100 := by
  obtain ⟨_, hlt, hinj⟩ := perm_range_getD indices hperm
  unfold init_p_values
  exact foldl_set_getD_of_mem (fun i => indices.getD i 0)
    (fun i => if i < NUM_PLAYERS / 2 then 95 / 100 else 25 / 100) (List.range NUM_PLAYERS) _
    (List.nodup_range _)
    (fun x hx y hy h => hinj x (List.mem_range.mp hx) y (List.mem_range.mp hy) h)
    (fun x hx => by rw [List.length_replicate]; exact hlt x (List.mem_range.mp hx))
    a (List.mem_range.mpr ha)

theorem map_getD_range (p : List ℚ) : (List.range p.length).map (fun j => p.getD j 0) = p := by
  apply List.ext_getElem
  · simp
  · intro n h1 h2
    rw [List.getElem_map, List.getElem_range, List.getD_eq_getElem _ _ h2]

theorem init_p_values_perm (indices : List Nat) (hperm : indices.Perm (List.range NUM_PLAYERS)) :
    (init_p_values indices).Perm
      ((List.range NUM_PLAYERS).map
        (fun a => if a < NUM_PLAYERS / 2 then (95 / 100 : ℚ) else 25 / 100)) := by
  obtain ⟨hlen, _, _⟩ := perm_range_getD indices hperm
  have hpl := (init_p_values_spec indices).1
  have h1 : indices.map (fun j => (init_p_values indices).getD j 0) =
      (List.range NUM_PLAYERS).map
        (fun a => if a < NUM_PLAYERS / 2 then (95 / 100 : ℚ) else 25 / 100) := by
    apply List.ext_getElem
    · simp [hlen]
    · intro n hn1 hn2
      have hn : n < NUM_PLAYERS := by simpa using hn2
      have hn' : n < indices.length := by rw [hlen]; exact hn
      rw [List.getElem_map, List.getElem_map, List.getElem_range]
      have := init_p_values_getD indices hperm n hn
      rw [List.getD_eq_getElem indices 0 hn'] at this
      exact this
  have h2 : (indices.map (fun j => (init_p_values indices).getD j 0)).Perm
      ((List.range NUM_PLAYERS).map (fun j => (init_p_values indices).getD j 0)) :=
    hperm.map _
  have h3 := map_getD_range (init_p_values indices)
  rw [hpl] at h3
  rw [h3, h1] at h2
  exact h2.symm

theorem countP_lt_range (k n : Nat) :
    (List.range n).countP (fun a => decide (a < k)) = min k n := by
  induction n with
  | zero => simp
  | succ n ih =>
    rw [List.range_succ, List.countP_append, ih]
    by_cases h : n < k
    · simp [List.countP_cons, h]; omega
    · simp [List.countP_cons, h]; omega

theorem countP_not_lt_range (k n : Nat) :
    (List.range n).countP (fun a => decide (¬ a < k)) = n - min k n := by
  induction n with
  | zero => simp
  | succ n ih =>
    rw [List.range_succ, List.countP_append, ih]
    by_cases h : n < k
    · have h2 : ¬ k ≤ n := by omega
      simp [List.countP_cons, h2]; omega
    · have h2 : k ≤ n := by omega
      simp [List.countP_cons, h2]; omega

theorem count_high :
    ((List.range NUM_PLAYERS).map
      (fun a => if a < NUM_PLAYERS / 2 then (95 / 100 : ℚ) else 25 / 100)).countP
        (fun x => decide (x = 95 / 100)) = 128 := by
  rw [List.countP_map]
  have h : ((fun x : ℚ => decide (x = 95 / 100)) ∘
      fun a => if a < NUM_PLAYERS / 2 then (95 / 100 : ℚ) else 25 / 100) =
      fun a => decide (a < NUM_PLAYERS / 2) := by
    funext a
    simp only [Function.comp]
    by_cases ha : a < NUM_PLAYERS / 2
    · simp [ha]
    · simp only [if_neg ha, ha, decide_False, decide_eq_false_iff_not]
      norm_num
  rw [h, countP_lt_range]
  decide

theorem count_low :
    ((List.range NUM_PLAYERS).map
      (fun a => if a < NUM_PLAYERS / 2 then (95 / 100 : ℚ) else 25 / 100)).countP
        (fun x => decide (x = 25 / 100)) = 128 := by
  rw [List.countP_map]
  have h : ((fun x : ℚ => decide (x = 25 / 100)) ∘
      fun a => if a < NUM_PLAYERS / 2 then (95 / 100 : ℚ) else 25 / 100) =
      fun a => decide (¬ a < NUM_PLAYERS / 2) := by
    funext a
    simp only [Function.comp]
    by_cases ha : a < NUM_PLAYERS / 2
    · simp only [if_pos ha, ha, not_true_eq_false, decide_False, decide_eq_false_iff_not]
      norm_num
    · simp [ha]
  rw [h, countP_not_lt_range]
  decide

/-- C13: for every permutation of the agent indices `0 .. N-1` that the shuffle can
produce, after construction exactly `N/2 = 128` agents have propensity 0.95 and exactly
`128` have propensity 0.25, no agent has another value, and the agents with 0.95 are the
ones at the first `N/2` positions of the shuffled index vector. -/
theorem C13_initial_propensities (indices : List Nat)
    (hperm : indices.Perm (List.range NUM_PLAYERS)) (rng : Nat → ℚ) (file_open : Bool) :
    (construct indices rng file_open).p_values.length = NUM_PLAYERS ∧
    NUM_PLAYERS / 2 = 128 ∧
    (construct indices rng file_open).p_values.countP (fun x => decide (x = 95 / 100)) = 128 ∧
    (construct indices rng file_open).p_values.countP (fun x => decide (x = 25 / 100)) = 128 ∧
    (∀ x ∈ (construct indices rng file_open).p_values, x = 95 / 100 ∨ x = 25 / 100) ∧
    (∀ a, a < NUM_PLAYERS →
      (construct indices rng file_open).p_values.getD (indices.getD a 0) 0 =
        if a < NUM_PLAYERS / 2 then 95 / 100 else 25 / 100) := by
  rw [construct_p_values]
  have hp := init_p_values_perm indices hperm
  refine ⟨(init_p_values_spec indices).1, by decide, ?_, ?_, ?_, ?_⟩
  · rw [hp.countP_eq]; exact count_high
  · rw [hp.countP_eq]; exact count_low
  · intro x hx
    have := hp.mem_iff.mp hx
    obtain ⟨a, _, ha⟩ := List.mem_map.mp this
    rw [← ha]
    split
    · exact Or.inl rfl
    · exact Or.inr rfl
  · intro a ha
    exact init_p_values_getD indices hperm a ha

theorem C13_initial_propensities_witness :
    (List.range NUM_PLAYERS).Perm (List.range NUM_PLAYERS) ∧
    (construct (List.range NUM_PLAYERS) (fun _ => 0) true).p_values.countP
      (fun x => decide (x = 95 / 100)) = 128 :=
  ⟨List.Perm.refl _,
   (C13_initial_propensities (List.range NUM_PLAYERS) (List.Perm.refl _)
      (fun _ => 0) true).2.2.1⟩

/-! ### The range of the propensities -/

theorem best_neighbor_lt (payoffs : List (List ℚ)) (i : Nat) (hi : i < NUM_PLAYERS) (b : Int)
    (hb : IsBestNeighbor payoffs i b) : b.toNat < NUM_PLAYERS := by
  obtain ⟨before, after, hsplit, _, _⟩ := hb
  have hmem : b ∈ get_neighbors i := by rw [hsplit]; simp
  have hN : NUM_PLAYERS = 256 := by decide
  rw [hN] at hi ⊢
  have := (get_neighbors_facts (i : Int) (by omega) (by omega)).2.1 b hmem
  omega

theorem update_p_values_convex (p : List ℚ) (payoffs : List (List ℚ))
    (hp : p.length = NUM_PLAYERS)
    (hunit : ∀ i, i < NUM_PLAYERS → 0 ≤ p.getD i 0 ∧ p.getD i 0 ≤ 1)
    (i : Nat) (hi : i < NUM_PLAYERS) (b : Int) (hb : IsBestNeighbor payoffs i b) :
    (update_p_values p payoffs).getD i 0 =
      if avg_payoff payoffs b.toNat > avg_payoff payoffs i then
        (1 - 2 / 1000) * p.getD i 0 + 2 / 1000 * p.getD b.toNat 0
      else p.getD i 0 := by
  rw [update_p_values_getD p payoffs hp i hi, updated_value_of_best p payoffs i _ b hb]
  have hbl := best_neighbor_lt payoffs i hi b hb
  have h1 := hunit i hi
  have h2 := hunit b.toNat hbl
  split
  · have e : p.getD i 0 + 2 / 1000 * (p.getD b.toNat 0 - p.getD i 0) =
        (1 - 2 / 1000) * p.getD i 0 + 2 / 1000 * p.getD b.toNat 0 := by ring
    rw [e]
    have hx0 : 0 ≤ (1 - 2 / 1000) * p.getD i 0 + 2 / 1000 * p.getD b.toNat 0 := by
      nlinarith [h1.1, h2.1]
    have hx1 : (1 - 2 / 1000) * p.getD i 0 + 2 / 1000 * p.getD b.toNat 0 ≤ 1 := by
      nlinarith [h1.2, h2.2]
    rw [min_eq_right hx1, max_eq_right hx0]
  · rfl

theorem update_p_values_range (p : List ℚ) (payoffs : List (List ℚ)) (lo hi : ℚ)
    (hp : p.length = NUM_PLAYERS)
    (hunit : ∀ i, i < NUM_PLAYERS → 0 ≤ p.getD i 0 ∧ p.getD i 0 ≤ 1)
    (hrange : ∀ i, i < NUM_PLAYERS → lo ≤ p.getD i 0 ∧ p.getD i 0 ≤ hi)
    (i : Nat) (hi' : i < NUM_PLAYERS) :
    lo ≤ (update_p_values p payoffs).getD i 0 ∧ (update_p_values p payoffs).getD i 0 ≤ hi := by
  obtain ⟨before, b, after, h⟩ := exists_first_max payoffs (get_neighbors i)
    (get_neighbors_ne_nil i)
  have hb : IsBestNeighbor payoffs i b := ⟨before, after, h⟩
  rw [update_p_values_convex p payoffs hp hunit i hi' b hb]
  have hbl := best_neighbor_lt payoffs i hi' b hb
  have h1 := hrange i hi'
  have h2 := hrange b.toNat hbl
  split
  · constructor <;> nlinarith [h1.1, h1.2, h2.1, h2.2]
  · exact h1

theorem getD_bounds_of_mem (p : List ℚ) (lo hi : ℚ) (h : ∀ x ∈ p, lo ≤ x ∧ x ≤ hi)
    (i : Nat) (hi' : i < p.length) : lo ≤ p.getD i 0 ∧ p.getD i 0 ≤ hi :=
  h _ ((mem_iff_getD _ _).mpr ⟨i, hi', rfl⟩)

theorem run_simulation_range (n : Nat) (s : State) (lo hi : ℚ)
    (hl : s.p_values.length = NUM_PLAYERS) (hu : InUnit s.p_values)
    (hr : ∀ x ∈ s.p_values, lo ≤ x ∧ x ≤ hi) :
    ∀ x ∈ (run_simulation n s).p_values, lo ≤ x ∧ x ≤ hi := by
  have key : (run_simulation n s).p_values.length = NUM_PLAYERS ∧
      InUnit (run_simulation n s).p_values ∧
      ∀ x ∈ (run_simulation n s).p_values, lo ≤ x ∧ x ≤ hi := by
    unfold run_simulation
    apply foldl_preserves (fun a : State => a.p_values.length = NUM_PLAYERS ∧
      InUnit a.p_values ∧ ∀ x ∈ a.p_values, lo ≤ x ∧ x ≤ hi)
    · exact ⟨hl, hu, hr⟩
    · intro a iter ha
      rw [iteration_step_p_values]
      refine ⟨by rw [update_p_values_length]; exact ha.1,
        update_p_values_unit _ _ ha.1 ha.2.1, ?_⟩
      intro x hx
      obtain ⟨j, hj, e⟩ := (mem_iff_getD _ _).mp hx
      rw [update_p_values_length, ha.1] at hj
      rw [← e]
      exact update_p_values_range _ _ lo hi ha.1
        (fun i hi' => getD_bounds_of_mem _ 0 1 ha.2.1 i (by rw [ha.1]; exact hi'))
        (fun i hi' => getD_bounds_of_mem _ lo hi ha.2.2 i (by rw [ha.1]; exact hi')) j hj
  exact key.2.2

/-- C19: for every `lo` and `hi`, every propensity vector (`N` propensities, each in
`[0, 1]` as the member `p_values` always is) with all entries in `[lo, hi]`, and every
payoff window, all entries after
`update_p_values` are again in `[lo, hi]`; an agent whose best neighbour has a strictly
greater mean payoff gets the convex combination `(1 - 0.002) * p[i] + 0.002 * p[b]`, every
other agent keeps its value, so the clamp to `[0, 1]` changes nothing; and from the
constructor's initial state, for every shuffle outcome and any draws, every propensity is
in `[0.25, 0.95]` after any number of iterations. -/
theorem C19_range_never_widens (p : List ℚ) (payoffs : List (List ℚ)) (lo hi : ℚ)
    (indices : List Nat) (rng : Nat → ℚ) (file_open : Bool) (n : Nat)
    (hp : p.length = NUM_PLAYERS)
    (hunit : ∀ i, i < NUM_PLAYERS → 0 ≤ p.getD i 0 ∧ p.getD i 0 ≤ 1)
    (hrange : ∀ i, i < NUM_PLAYERS → lo ≤ p.getD i 0 ∧ p.getD i 0 ≤ hi)
    (hperm : indices.Perm (List.range NUM_PLAYERS)) :
    (∀ i, i < NUM_PLAYERS →
      lo ≤ (update_p_values p payoffs).getD i 0 ∧ (update_p_values p payoffs).getD i 0 ≤ hi) ∧
    (∀ i, i < NUM_PLAYERS → ∀ b, IsBestNeighbor payoffs i b →
      (update_p_values p payoffs).getD i 0 =
        if avg_payoff payoffs b.toNat > avg_payoff payoffs i then
          (1 - 2 / 1000) * p.getD i 0 + 2 / 1000 * p.getD b.toNat 0
        else p.getD i 0) ∧
    (∀ i, i < NUM_PLAYERS →
      25 / 100 ≤ (run_simulation n (construct indices rng file_open)).p_values.getD i 0 ∧
      (run_simulation n (construct indices rng file_open)).p_values.getD i 0 ≤ 95 / 100) := by
  refine ⟨fun i hi' => update_p_values_range p payoffs lo hi hp hunit hrange i hi',
    fun i hi' b hb => update_p_values_convex p payoffs hp hunit i hi' b hb, ?_⟩
  intro i hi'
  have hinit := init_p_values_spec indices
  have hvals : ∀ x ∈ init_p_values indices, (25 / 100 : ℚ) ≤ x ∧ x ≤ 95 / 100 := by
    intro x hx
    obtain ⟨a, _, ha⟩ := List.mem_map.mp ((init_p_values_perm indices hperm).mem_iff.mp hx)
    rw [← ha]
    split <;> norm_num
  rw [← construct_p_values indices rng file_open] at hinit hvals
  have hlen := run_simulation_length n (construct indices rng file_open) hinit.1
  exact getD_bounds_of_mem _ _ _
    (run_simulation_range n (construct indices rng file_open) _ _ hinit.1 hinit.2 hvals)
    i (by rw [hlen]; exact hi')

theorem C19_range_never_widens_witness :
    (List.replicate NUM_PLAYERS (1 / 2 : ℚ)).length = NUM_PLAYERS ∧
    (25 / 100 ≤ (run_simulation 2 (construct (List.range NUM_PLAYERS) (fun _ => 0)
      true)).p_values.getD 0 0) :=
  ⟨List.length_replicate _ _,
   ((C19_range_never_widens (List.replicate NUM_PLAYERS (1 / 2 : ℚ)) [] (1 / 4) (3 / 4)
      (List.range NUM_PLAYERS) (fun _ => 0) true 2 (List.length_replicate _ _)
      (fun i hi => by
        rw [List.getD_eq_getElem _ _ (by rw [List.length_replicate]; exact hi),
          List.getElem_replicate]
        norm_num)
      (fun i hi => by
        rw [List.getD_eq_getElem _ _ (by rw [List.length_replicate]; exact hi),
          List.getElem_replicate]
        norm_num)
      (List.Perm.refl _)).2.2 0 (by decide)).1⟩

/-! ### The entropy formula -/

theorem process_group_of_num_bins (c : Int) (ps : List ℚ) :
    process_group_of NUM_BINS c ps = process_group c ps := rfl

theorem analyzer_main_of_num_bins (records : List Record) :
    analyzer_main_of NUM_BINS records = analyzer_main records := rfl

theorem entropy_eq_filter_sum (pd : List ℚ) :
    entropy pd =
      -∑ i ∈ (range pd.length).filter (fun i => 0 < pd.getD i 0),
        ((pd.getD i 0 : ℚ) : ℝ) * Real.logb 2 ((pd.getD i 0 : ℚ) : ℝ) := by
  unfold entropy
  rw [foldl_entropy, zero_add, list_sum_eq_sum_range _ pd 0, Finset.sum_filter,
    ← Finset.sum_neg_distrib]
  apply Finset.sum_congr rfl
  intro i _
  by_cases h : 0 < pd.getD i 0
  · rw [if_pos h, if_pos h]
  · rw [if_neg h, if_neg h, neg_zero]

theorem histogram_scenario : histogram_of 2 [1 / 10, 9 / 10] = [1, 1] := by
  have b1 : bin_index_of 2 (1 / 10) = 0 := by
    unfold bin_index_of static_cast_int
    norm_num
  have b2 : bin_index_of 2 (9 / 10) = 1 := by
    unfold bin_index_of static_cast_int
    norm_num
  unfold histogram_of
  simp only [List.foldl_cons, List.foldl_nil, b1, b2]
  decide

theorem prob_dist_scenario : prob_dist_of 2 [1, 1] 2 = [1 / 2, 1 / 2] := by
  unfold prob_dist_of
  simp [List.range_succ]

theorem entropy_scenario : entropy [1 / 2, 1 / 2] = 1 := by
  unfold entropy
  have hl : Real.logb 2 ((1 / 2 : ℚ) : ℝ) = -1 := by
    have : ((1 / 2 : ℚ) : ℝ) = (2 : ℝ)⁻¹ := by norm_num
    rw [this, Real.logb_inv, Real.logb_self_eq_one (by norm_num)]
  simp only [List.foldl_cons, List.foldl_nil]
  rw [if_pos (by norm_num), if_pos (by norm_num), hl]
  norm_num

theorem analyzer_scenario :
    analyzer_main_of 2 [⟨0, 1 / 10⟩, ⟨0, 9 / 10⟩] = [⟨0, [1 / 2, 1 / 2]⟩] := by
  have h : analyzer_main_of 2 [⟨0, 1 / 10⟩, ⟨0, 9 / 10⟩] =
      [process_group_of 2 0 [1 / 10, 9 / 10]] := by
    simp [analyzer_main_of, analyzer_with, read_loop]
  rw [h]
  unfold process_group_of
  rw [histogram_scenario]
  have hlen : ([1 / 10, 9 / 10] : List ℚ).length = 2 := rfl
  rw [hlen, prob_dist_scenario]

/-- C11: for every group the emitted entropy is minus the sum, over the bins `i` whose
emitted probability `p_i` is positive, of `p_i * log2(p_i)`; bins of probability 0
contribute nothing.  With `NUM_BINS = 2`, for the trace holding only the two records of
iteration 0 with values 0.1 and 0.9, the bin counts are `(1, 1)`, the distribution is
`(0.5, 0.5)` and the entropy is exactly 1. -/
theorem C11_entropy_formula (c : Int) (ps : List ℚ) (records : List Record) :
    (entropy (process_group c ps).prob_dist =
      -∑ i ∈ (range NUM_BINS).filter (fun i => 0 < (process_group c ps).prob_dist.getD i 0),
        (((process_group c ps).prob_dist.getD i 0 : ℚ) : ℝ) *
          Real.logb 2 (((process_group c ps).prob_dist.getD i 0 : ℚ) : ℝ)) ∧
    (∀ row ∈ analyzer_main records,
      entropy row.prob_dist =
        -∑ i ∈ (range NUM_BINS).filter (fun i => 0 < row.prob_dist.getD i 0),
          ((row.prob_dist.getD i 0 : ℚ) : ℝ) * Real.logb 2 ((row.prob_dist.getD i 0 : ℚ) : ℝ)) ∧
    histogram_of 2 [1 / 10, 9 / 10] = [1, 1] ∧
    analyzer_main_of 2 [⟨0, 1 / 10⟩, ⟨0, 9 / 10⟩] = [⟨0, [1 / 2, 1 / 2]⟩] ∧
    entropy_rows (analyzer_main_of 2 [⟨0, 1 / 10⟩, ⟨0, 9 / 10⟩]) = [(0, 1)] := by
  have hrow : ∀ pd : List ℚ, pd.length = NUM_BINS →
      entropy pd =
        -∑ i ∈ (range NUM_BINS).filter (fun i => 0 < pd.getD i 0),
          ((pd.getD i 0 : ℚ) : ℝ) * Real.logb 2 ((pd.getD i 0 : ℚ) : ℝ) := by
    intro pd hl
    rw [entropy_eq_filter_sum, hl]
  refine ⟨hrow _ (prob_dist_length _ _), ?_, histogram_scenario, analyzer_scenario, ?_⟩
  · intro row hr
    have hmem : row ∈ analyzer_with process_group records := hr
    have hl : row.prob_dist.length = NUM_BINS := by
      cases records with
      | nil => simp [analyzer_with] at hmem
      | cons r rest =>
        have e : analyzer_with process_group (r :: rest) =
            read_loop process_group r.iteration [] r rest := rfl
        rw [e, read_loop_map] at hmem
        obtain ⟨g, _, hg⟩ := List.mem_map.mp hmem
        rw [← hg]
        exact prob_dist_length _ _
    exact hrow _ hl
  · rw [analyzer_scenario]
    unfold entropy_rows
    simp only [List.map_cons, List.map_nil]
    rw [entropy_scenario]

/-! ### The analyzer on a byte stream -/

theorem analyzer_bytes_empty (a : Nat) (dv : Nat → ℚ) (rec0 : List Nat) :
    analyzer_bytes a dv rec0 (some []) =
      some { exit_code := 0, entropy_header := true, rows := [] } := by
  unfold analyzer_bytes istream_read
  by_cases h : sizeof_Record a ≤ 0
  · simp [h]
    omega
  · simp [h]

/-- C16 (as amended): for an empty (zero-length) trace the analyzer terminates at once
with success and processes no group: no entropy row is written and nothing is written to
the histogram output; the entropy output holds the header line `iteration,entropy`, which
is written before the trace is read. -/
theorem C16_empty_trace (a : Nat) (dv : Nat → ℚ) (rec0 : List Nat) :
    analyzer_bytes a dv rec0 (some []) =
      some { exit_code := 0, entropy_header := true, rows := [] } ∧
    histogram_output_empty { exit_code := 0, entropy_header := true, rows := [] } = true :=
  ⟨analyzer_bytes_empty a dv rec0, rfl⟩

/-- C16 (the claim as stated fails): on the empty trace the run has written the header
line to the entropy output, so it is not the case that nothing is written to it. -/
theorem C16_header_counterexample :
    analyzer_bytes 8 (fun _ => 0) (List.replicate 16 0) (some []) =
      some { exit_code := 0, entropy_header := true, rows := [] } ∧
    entropy_output_empty { exit_code := 0, entropy_header := true, rows := [] } = false :=
  ⟨analyzer_bytes_empty 8 (fun _ => 0) (List.replicate 16 0), rfl⟩

/-! ### Truncated traces -/

theorem read_records_stable (a : Nat) (hs : 0 < sizeof_Record a) (f1 f2 : Nat) (B : List Nat)
    (h1 : B.length ≤ f1) (h2 : B.length ≤ f2) :
    read_records a f1 B = read_records a f2 B := by
  induction f1 generalizing f2 B with
  | zero =>
    have hB : B = [] := List.length_eq_zero.mp (by omega)
    subst hB
    cases f2 with
    | zero => rfl
    | succ f2 =>
      unfold read_records
      rw [if_neg (by simp; omega)]
  | succ f1 ih =>
    cases f2 with
    | zero =>
      have hB : B = [] := List.length_eq_zero.mp (by omega)
      subst hB
      unfold read_records
      rw [if_neg (by simp; omega)]
    | succ f2 =>
      unfold read_records
      by_cases hc : 0 < sizeof_Record a ∧ sizeof_Record a ≤ B.length
      · rw [if_pos hc, if_pos hc]
        congr 1
        apply ih
        · rw [List.length_drop]; omega
        · rw [List.length_drop]; omega
      · rw [if_neg hc, if_neg hc]

theorem decode_trace_cons (a : Nat) (hs : 0 < sizeof_Record a) (B : List Nat)
    (hB : sizeof_Record a ≤ B.length) :
    decode_trace a B =
      record_of_block a (B.take (sizeof_Record a)) :: decode_trace a (B.drop (sizeof_Record a)) := by
  unfold decode_trace
  have hpos : 0 < B.length := by omega
  obtain ⟨n, hn⟩ : ∃ n, B.length = n + 1 := ⟨B.length - 1, by omega⟩
  rw [hn]
  have e : read_records a (n + 1) B =
      (if 0 < sizeof_Record a ∧ sizeof_Record a ≤ B.length then
        record_of_block a (B.take (sizeof_Record a)) ::
          read_records a n (B.drop (sizeof_Record a))
      else []) := by
    rw [read_records]
  rw [e, if_pos ⟨hs, hB⟩]
  congr 1
  apply read_records_stable a hs
  · rw [List.length_drop]; omega
  · exact le_refl _

theorem decode_trace_short (a : Nat) (B : List Nat) (hB : B.length < sizeof_Record a) :
    decode_trace a B = [] := by
  unfold decode_trace
  cases h : B.length with
  | zero => rfl
  | succ n =>
    unfold read_records
    rw [if_neg (by omega)]

theorem byte_loop_failed (a : Nat) (dv : Nat → ℚ) (fuel : Nat) (cur : Int) (ps : List ℚ)
    (s : IStream) (rec : List Nat) (hs : s.good = false) :
    byte_loop a dv (fuel + 1) cur ps s rec =
      some [process_group cur (ps ++ [(record_of_buffer a dv rec).p_value])] := by
  unfold byte_loop istream_read
  simp [hs]

theorem byte_loop_good (a : Nat) (dv : Nat → ℚ) (hs : 0 < sizeof_Record a) (fuel : Nat)
    (cur : Int) (ps : List ℚ) (B : List Nat) (g : Nat) (rec : List Nat)
    (hf : B.length < fuel) :
    byte_loop a dv fuel cur ps { bytes := B, good := true, gcount := g } rec =
      some (read_loop process_group cur ps (record_of_buffer a dv rec)
        (decoded_records a dv B)) := by
  induction fuel generalizing cur ps B g rec with
  | zero => omega
  | succ fuel ih =>
    unfold byte_loop istream_read
    by_cases hB : sizeof_Record a ≤ B.length
    · have hd : decoded_records a dv B =
          record_of_buffer a dv (B.take (sizeof_Record a)) ::
            decoded_records a dv (B.drop (sizeof_Record a)) := by
        unfold decoded_records
        rw [decode_trace_cons a hs B hB]
        rfl
      have hlen : (B.drop (sizeof_Record a)).length < fuel := by
        rw [List.length_drop]; omega
      rw [hd]
      simp only [if_true, if_pos hB]
      rw [read_loop]
      by_cases hc : (record_of_buffer a dv (B.take (sizeof_Record a))).iteration = cur
      · simp only [hc, and_self, if_true]
        exact ih _ _ _ _ _ hlen
      · simp only [hc, and_false, if_false, if_true]
        rw [ih _ _ _ _ _ hlen]
        rfl
    · have hd : decoded_records a dv B = [] := by
        unfold decoded_records
        rw [decode_trace_short a B (by omega)]
        rfl
      rw [hd]
      simp only [if_true, if_neg hB]
      rw [read_loop]
      simp

theorem analyzer_bytes_whole (a : Nat) (dv : Nat → ℚ) (rec0 : List Nat) (B : List Nat)
    (hs : 0 < sizeof_Record a) (hB : sizeof_Record a ≤ B.length) :
    analyzer_bytes a dv rec0 (some B) =
      some { exit_code := 0, entropy_header := true,
             rows := analyzer_main (decoded_records a dv B) } := by
  have hd : decoded_records a dv B =
      record_of_buffer a dv (B.take (sizeof_Record a)) ::
        decoded_records a dv (B.drop (sizeof_Record a)) := by
    unfold decoded_records
    rw [decode_trace_cons a hs B hB]
    rfl
  have hm : analyzer_main (decoded_records a dv B) =
      read_loop process_group (record_of_buffer a dv (B.take (sizeof_Record a))).iteration []
        (record_of_buffer a dv (B.take (sizeof_Record a)))
        (decoded_records a dv (B.drop (sizeof_Record a))) := by
    rw [hd]; rfl
  unfold analyzer_bytes istream_read
  simp only [if_true, if_pos hB]
  rw [if_neg (by omega), byte_loop_good a dv hs _ _ _ _ _ _ (by rw [List.length_drop]; omega),
    hm]
  rfl

theorem analyzer_bytes_short (a : Nat) (dv : Nat → ℚ) (rec0 : List Nat) (B : List Nat)
    (h0 : 0 < B.length) (hB : B.length < sizeof_Record a) :
    analyzer_bytes a dv rec0 (some B) =
      some { exit_code := 0, entropy_header := true,
             rows := [process_group
               (record_of_buffer a dv (B ++ rec0.drop B.length)).iteration
               [(record_of_buffer a dv (B ++ rec0.drop B.length)).p_value]] } := by
  unfold analyzer_bytes istream_read
  simp only [if_true, if_neg (not_le.mpr hB)]
  rw [if_neg (by omega), byte_loop_failed a dv _ _ _ _ _ rfl]
  rfl

theorem decode_trace_whole_blocks (a : Nat) (hs : 0 < sizeof_Record a) (k : Nat) (B : List Nat)
    (hk : B.length / sizeof_Record a = k) :
    decode_trace a (B.take (k * sizeof_Record a)) = decode_trace a B := by
  induction k generalizing B with
  | zero =>
    have hlt : B.length < sizeof_Record a := (Nat.div_eq_zero_iff hs).mp hk
    rw [Nat.zero_mul, List.take_zero, decode_trace_short a B hlt]
    exact decode_trace_short a [] (by simpa using hs)
  | succ k ih =>
    have hge : sizeof_Record a ≤ B.length := by
      by_contra hlt
      have := (Nat.div_eq_zero_iff hs).mpr (not_le.mp hlt)
      omega
    have hmul : (k + 1) * sizeof_Record a ≤ B.length := by
      rw [← hk]; exact Nat.div_mul_le_self _ _
    have hk' : (B.drop (sizeof_Record a)).length / sizeof_Record a = k := by
      rw [List.length_drop]
      have := Nat.div_eq_sub_div hs hge
      omega
    have hsm : sizeof_Record a ≤ (k + 1) * sizeof_Record a := by
      rw [Nat.add_mul, Nat.one_mul]; omega
    rw [decode_trace_cons a hs B hge,
      decode_trace_cons a hs (B.take ((k + 1) * sizeof_Record a))
        (by rw [List.length_take, min_eq_left hmul]; exact hsm),
      List.take_take, min_eq_left hsm, List.drop_take, ← ih _ hk']
    congr 3
    rw [Nat.add_mul, Nat.one_mul]
    omega

/-- The part of C15 that holds on the code: when the stream holds at least one complete
record, a trailing partial record is discarded, the output being that on the stream cut
to the largest whole number of records. -/
theorem analyzer_bytes_truncate (a : Nat) (dv : Nat → ℚ) (rec0 : List Nat) (B : List Nat)
    (hs : 0 < sizeof_Record a) (hB : sizeof_Record a ≤ B.length) :
    analyzer_bytes a dv rec0 (some B) =
      analyzer_bytes a dv rec0
        (some (B.take (B.length / sizeof_Record a * sizeof_Record a))) := by
  have hk : 1 ≤ B.length / sizeof_Record a := (Nat.one_le_div_iff hs).mpr hB
  have hmul : B.length / sizeof_Record a * sizeof_Record a ≤ B.length :=
    Nat.div_mul_le_self _ _
  have hlen : sizeof_Record a ≤
      (B.take (B.length / sizeof_Record a * sizeof_Record a)).length := by
    rw [List.length_take, min_eq_left hmul]
    calc sizeof_Record a = 1 * sizeof_Record a := (Nat.one_mul _).symm
      _ ≤ B.length / sizeof_Record a * sizeof_Record a := Nat.mul_le_mul_right _ hk
  rw [analyzer_bytes_whole a dv rec0 B hs hB, analyzer_bytes_whole a dv rec0 _ hs hlen]
  unfold decoded_records
  rw [decode_trace_whole_blocks a hs _ B rfl]

/-- C15 (the code at the failing input): a stream of 12 bytes, the bytes the engine
writes for the single record `(0, 0.95)`, is shorter than one `Record` of 16 bytes.  The
largest whole number of records in it is zero, and on the empty stream the analyzer emits
no row.  On the 12 bytes the first read fails with `gcount() = 12`, which is not 0, so the
loops are entered and one group is processed and emitted, made of the 12 bytes read and
the last 4 bytes of the indeterminate buffer, whatever these are. -/
theorem C15_short_stream_processed (dv : Nat → ℚ) (rec0 : List Nat) :
    sizeof_Record 8 = 16 ∧
    write_records [⟨0, 0x3FEE666666666666⟩] =
      [0, 0, 0, 0, 102, 102, 102, 102, 102, 102, 238, 63] ∧
    ([0, 0, 0, 0, 102, 102, 102, 102, 102, 102, 238, 63] : List Nat).take
      (12 / sizeof_Record 8 * sizeof_Record 8) = [] ∧
    analyzer_bytes 8 dv rec0 (some []) =
      some { exit_code := 0, entropy_header := true, rows := [] } ∧
    analyzer_bytes 8 dv rec0 (some [0, 0, 0, 0, 102, 102, 102, 102, 102, 102, 238, 63]) =
      some { exit_code := 0, entropy_header := true,
             rows := [process_group 0
               [dv (of_le_bytes ((([0, 0, 0, 0, 102, 102, 102, 102, 102, 102, 238, 63] ++
                  rec0.drop 12).drop 8).take 8))]] } ∧
    analyzer_bytes 8 dv rec0 (some [0, 0, 0, 0, 102, 102, 102, 102, 102, 102, 238, 63]) ≠
      analyzer_bytes 8 dv rec0 (some []) := by
  have h16 : sizeof_Record 8 = 16 := by decide
  have hshort := analyzer_bytes_short 8 dv rec0
    [0, 0, 0, 0, 102, 102, 102, 102, 102, 102, 238, 63] (by decide) (by rw [h16]; decide)
  have hempty := analyzer_bytes_empty 8 dv rec0
  have hrow : analyzer_bytes 8 dv rec0
      (some [0, 0, 0, 0, 102, 102, 102, 102, 102, 102, 238, 63]) =
      some { exit_code := 0, entropy_header := true,
             rows := [process_group 0
               [dv (of_le_bytes ((([0, 0, 0, 0, 102, 102, 102, 102, 102, 102, 238, 63] ++
                  rec0.drop 12).drop 8).take 8))]] } := by
    rw [hshort]
    rfl
  refine ⟨h16, by decide, by decide, hempty, hrow, ?_⟩
  rw [hrow, hempty]
  intro h
  simp at h

/-! ### Attendance statistics -/

theorem decide_loop_spec (round : Nat) (l : List Nat) (s : State) (c : Int) :
    SameBase s (l.foldl (decide_step round) (s, c)).1 l.length ∧
    (l.foldl (decide_step round) (s, c)).2 =
      c + (((List.range l.length).countP
        (fun k => decide (s.rng (s.rng_pos + k) < s.p_values.getD (l.getD k 0) 0)) : Nat) : Int) := by
  induction l generalizing s c with
  | nil => exact ⟨⟨rfl, rfl, rfl, rfl, rfl⟩, by simp⟩
  | cons x l ih =>
    rw [List.foldl_cons]
    have hstep : decide_step round (s, c) x =
        ({ s with
            rng_pos := s.rng_pos + 1
            attendance_decisions :=
              s.attendance_decisions.set x ((s.attendance_decisions.getD x []).set round
                (decide (s.rng s.rng_pos < s.p_values.getD x 0))) },
         if decide (s.rng s.rng_pos < s.p_values.getD x 0) = true then c + 1 else c) := rfl
    rw [hstep]
    obtain ⟨⟨h1, h2, h3, h4, h5⟩, hc⟩ := ih
      { s with
          rng_pos := s.rng_pos + 1
          attendance_decisions :=
            s.attendance_decisions.set x ((s.attendance_decisions.getD x []).set round
              (decide (s.rng s.rng_pos < s.p_values.getD x 0))) }
      (if decide (s.rng s.rng_pos < s.p_values.getD x 0) = true then c + 1 else c)
    refine ⟨⟨h1, h2, ?_, h4, h5⟩, ?_⟩
    · rw [h3, List.length_cons]
      show s.rng_pos + 1 + l.length = s.rng_pos + (l.length + 1)
      omega
    · rw [hc, List.length_cons, List.range_succ_eq_map, List.countP_cons, List.countP_map]
      have hfun : ((fun k => decide (s.rng (s.rng_pos + k) <
            s.p_values.getD ((x :: l).getD k 0) 0)) ∘ Nat.succ) =
          (fun k => decide (s.rng (s.rng_pos + 1 + k) < s.p_values.getD (l.getD k 0) 0)) := by
        funext k
        simp only [Function.comp, Nat.succ_eq_add_one, List.getD_cons_succ]
        rw [Nat.add_assoc, Nat.add_comm 1 k]
      rw [hfun]
      simp only [Nat.add_zero, List.getD_cons_zero]
      by_cases hd : s.rng s.rng_pos < s.p_values.getD x 0
      · simp only [hd, decide_True, if_true]
        push_cast
        ring
      · simp only [hd, decide_False, if_false]
        push_cast
        simp

theorem payoff_loop_spec (round : Nat) (attendance : Int) (l : List Nat) (s : State) :
    SameBase s (l.foldl (payoff_step round attendance) s) 0 :=
  foldl_preserves (fun a : State => SameBase s a 0) _ l s ⟨rfl, rfl, rfl, rfl, rfl⟩
    (fun _ _ h => h)

theorem play_round_on_spec (players : List Nat) (s : State) (acc : List Int) (round : Nat) :
    SameBase s (play_round_on players (s, acc) round).1 players.length ∧
    (play_round_on players (s, acc) round).2 =
      acc ++ [attendance_count s players s.rng_pos] := by
  obtain ⟨⟨d1, d2, d3, d4, d5⟩, dc⟩ := decide_loop_spec round players s 0
  obtain ⟨p1, p2, p3, p4, p5⟩ := payoff_loop_spec round
    (players.foldl (decide_step round) (s, 0)).2 players
    (players.foldl (decide_step round) (s, 0)).1
  unfold play_round_on
  dsimp only
  refine ⟨⟨by rw [p1, d1], by rw [p2, d2], by rw [p3, d3]; rfl, by rw [p4, d4],
    by rw [p5, d5]⟩, ?_⟩
  rw [dc, zero_add]
  rfl

theorem rounds_spec (players rounds : List Nat) (s : State) (acc : List Int) :
    SameBase s (rounds.foldl (play_round_on players) (s, acc)).1
        (rounds.length * players.length) ∧
    (rounds.foldl (play_round_on players) (s, acc)).2 =
      acc ++ (List.range rounds.length).map
        (fun r => attendance_count s players (s.rng_pos + r * players.length)) := by
  induction rounds generalizing s acc with
  | nil => exact ⟨⟨rfl, rfl, by simp, rfl, rfl⟩, by simp⟩
  | cons x rounds ih =>
    rw [List.foldl_cons]
    obtain ⟨⟨q1, q2, q3, q4, q5⟩, qc⟩ := play_round_on_spec players s acc x
    have hpair : play_round_on players (s, acc) x =
        ((play_round_on players (s, acc) x).1, (play_round_on players (s, acc) x).2) := rfl
    rw [hpair]
    obtain ⟨⟨r1, r2, r3, r4, r5⟩, rc⟩ := ih (play_round_on players (s, acc) x).1
      (play_round_on players (s, acc) x).2
    refine ⟨⟨by rw [r1, q1], by rw [r2, q2], ?_, by rw [r4, q4], by rw [r5, q5]⟩, ?_⟩
    · rw [r3, q3, List.length_cons, Nat.add_mul, Nat.one_mul]
      omega
    · rw [rc, qc, List.length_cons, List.range_succ_eq_map, List.map_cons, List.map_map,
        List.append_assoc]
      congr 1
      simp only [List.singleton_append, Nat.zero_mul, Nat.add_zero]
      congr 1
      apply List.map_congr_left
      intro r _
      simp only [Function.comp, Nat.succ_eq_add_one]
      unfold attendance_count
      rw [q1, q2, q3, Nat.add_mul, Nat.one_mul]
      congr 2
      funext k
      congr 3
      omega

theorem variance_sum_eq (a : List Int) (m : ℚ) :
    variance_sum a m = (a.map (fun x : Int => ((x : ℚ) - m) ^ 2)).sum := by
  unfold variance_sum
  have h : ∀ (l : List Int) (init : ℚ),
      l.foldl (fun (variance : ℚ) (att : Int) => variance + ((att : ℚ) - m) * ((att : ℚ) - m))
        init = init + (l.map (fun x : Int => ((x : ℚ) - m) ^ 2)).sum := by
    intro l
    induction l with
    | nil => intro init; simp
    | cons x l ih =>
      intro init
      rw [List.foldl_cons, ih, List.map_cons, List.sum_cons]
      ring
  rw [h, zero_add]

theorem iteration_step_on_stats (players rounds : List Nat) (s : State) (iter : Nat) :
    (iteration_step_on players rounds s iter).mean_history =
      s.mean_history ++
        [((rounds.foldl (play_round_on players) (s, [])).2.map (fun a : Int => (a : ℚ))).sum
          / NUM_ROUNDS] ∧
    (iteration_step_on players rounds s iter).variance_history =
      s.variance_history ++
        [variance_sum (rounds.foldl (play_round_on players) (s, [])).2
          (((rounds.foldl (play_round_on players) (s, [])).2.map (fun a : Int => (a : ℚ))).sum
            / NUM_ROUNDS) / NUM_ROUNDS] := by
  obtain ⟨⟨_, _, _, r4, r5⟩, _⟩ := rounds_spec players rounds s []
  unfold iteration_step_on
  dsimp only
  rw [r4, r5]
  exact ⟨rfl, rfl⟩

theorem iteration_step_stats (s : State) (iter : Nat) :
    (iteration_step s iter).mean_history = s.mean_history ++ [iteration_mean s] ∧
    (iteration_step s iter).variance_history = s.variance_history ++ [iteration_variance s] := by
  obtain ⟨h1, h2⟩ := iteration_step_on_stats (List.range NUM_PLAYERS) (List.range NUM_ROUNDS)
    s iter
  refine ⟨h1, ?_⟩
  rw [variance_sum_eq] at h2
  exact h2

theorem run_simulation_stats (n : Nat) (s : State) :
    (run_simulation n s).mean_history =
      s.mean_history ++ (List.range n).map (fun k => iteration_mean (run_simulation k s)) ∧
    (run_simulation n s).variance_history =
      s.variance_history ++
        (List.range n).map (fun k => iteration_variance (run_simulation k s)) := by
  induction n with
  | zero => simp [run_simulation]
  | succ n ih =>
    obtain ⟨h1, h2⟩ := iteration_step_stats (run_simulation n s) n
    rw [run_simulation_succ, h1, h2, ih.1, ih.2, List.range_succ, List.map_append,
      List.map_append]
    simp

theorem getD_append_map (l : List ℚ) (f : Nat → ℚ) (n k : Nat) (hk : k < n) :
    (l ++ (List.range n).map f).getD (l.length + k) 0 = f k := by
  rw [List.getD_eq_getElem?_getD, List.getElem?_append_right (by omega)]
  have : l.length + k - l.length = k := by omega
  rw [this, List.getElem?_map, List.getElem?_range hk]
  rfl

theorem getD_range (n k : Nat) (hk : k < n) : (List.range n).getD k 0 = k := by
  rw [List.getD_eq_getElem?_getD, List.getElem?_range hk]
  rfl

theorem round_attendance_eq (s : State) :
    round_attendance s =
      (List.range NUM_ROUNDS).map
        (fun r => (((List.range NUM_PLAYERS).countP (fun i => attends_in s r i) : Nat) : Int)) := by
  unfold round_attendance
  rw [(rounds_spec (List.range NUM_PLAYERS) (List.range NUM_ROUNDS) s []).2, List.nil_append,
    List.length_range, List.length_range]
  apply List.map_congr_left
  intro r _
  unfold attendance_count
  rw [List.length_range]
  have hcount : (List.range NUM_PLAYERS).countP
      (fun k => decide (s.rng (s.rng_pos + r * NUM_PLAYERS + k) <
        s.p_values.getD ((List.range NUM_PLAYERS).getD k 0) 0)) =
      (List.range NUM_PLAYERS).countP (fun i => attends_in s r i) := by
    apply List.countP_congr
    intro k hk
    unfold attends_in
    rw [getD_range _ _ (List.mem_range.mp hk)]
  rw [hcount]

/-- C12: for every iteration `k < n` of `run_simulation n`, with `a_1 .. a_R` the `R = 5`
attendance counts of its rounds, the stored `mean_attendance` is `(a_1 + ... + a_R) / R`
and the stored variance is the sum of `(a_r - mean)^2` over the `R` rounds divided by `R`
(population variance); each `a_r` is the number of agents `i < N` whose decision in round
`r` (the draw it consumed is below its propensity) was to attend. -/
theorem C12_attendance_statistics (n k : Nat) (s : State) (hk : k < n) :
    (round_attendance (run_simulation k s)).length = NUM_ROUNDS ∧ NUM_ROUNDS = 5 ∧
    (run_simulation n s).mean_history.getD (s.mean_history.length + k) 0 =
      ((round_attendance (run_simulation k s)).map (fun a : Int => (a : ℚ))).sum / 5 ∧
    (run_simulation n s).variance_history.getD (s.variance_history.length + k) 0 =
      ((round_attendance (run_simulation k s)).map
        (fun a : Int => ((a : ℚ) -
          ((round_attendance (run_simulation k s)).map (fun a : Int => (a : ℚ))).sum / 5) ^ 2)).sum
        / 5 ∧
    (∀ r, r < NUM_ROUNDS →
      (round_attendance (run_simulation k s)).getD r 0 =
        (((List.range NUM_PLAYERS).countP
          (fun i => attends_in (run_simulation k s) r i) : Nat) : Int)) := by
  obtain ⟨h1, h2⟩ := run_simulation_stats n s
  have hR : ((NUM_ROUNDS : Nat) : ℚ) = 5 := by norm_num [NUM_ROUNDS]
  refine ⟨?_, rfl, ?_, ?_, ?_⟩
  · rw [round_attendance_eq, List.length_map, List.length_range]
  · rw [h1, getD_append_map _ _ n k hk]
    unfold iteration_mean
    rw [hR]
  · rw [h2, getD_append_map _ _ n k hk]
    unfold iteration_variance iteration_mean
    rw [hR]
  · intro r hr
    rw [round_attendance_eq, List.getD_eq_getElem?_getD, List.getElem?_map,
      List.getElem?_range hr]
    rfl

theorem C12_attendance_statistics_witness :
    (0 < 1) ∧
    (round_attendance (run_simulation 0 (construct (List.range NUM_PLAYERS) (fun _ => 0)
      true))).length = NUM_ROUNDS :=
  ⟨by decide,
   (C12_attendance_statistics 1 0 (construct (List.range NUM_PLAYERS) (fun _ => 0) true)
      (by decide)).1⟩

/-! ### The bin product in binary64 -/

theorem round_half_even_bounds (x : ℚ) :
    ⌊x⌋ ≤ round_half_even x ∧ round_half_even x ≤ ⌊x⌋ + 1 := by
  unfold round_half_even
  split
  · omega
  · split
    · omega
    · split <;> omega

theorem round_half_even_intCast (n : Int) : round_half_even (n : ℚ) = n := by
  unfold round_half_even
  rw [Int.floor_intCast, if_pos (by norm_num)]

theorem round_half_even_tie (f : Int) :
    round_half_even ((f : ℚ) + 1 / 2) = if f % 2 = 0 then f else f + 1 := by
  have hf : ⌊(f : ℚ) + 1 / 2⌋ = f := by
    rw [Int.floor_eq_iff]
    constructor <;> linarith
  unfold round_half_even
  rw [hf, if_neg (by norm_num), if_neg (by norm_num)]

theorem le_round_half_even (n : Int) (x : ℚ) (h : (n : ℚ) ≤ x) : n ≤ round_half_even x :=
  le_trans (Int.le_floor.mpr h) (round_half_even_bounds x).1

theorem round_half_even_le (n : Int) (x : ℚ) (h : x ≤ n) : round_half_even x ≤ n := by
  rcases eq_or_lt_of_le h with h | h
  · rw [h, round_half_even_intCast]
  · have := (round_half_even_bounds x).2
    have h2 : ⌊x⌋ < n := Int.floor_lt.mpr h
    omega

theorem round_half_even_sub_le (x : ℚ) : (round_half_even x : ℚ) - x ≤ 1 / 2 := by
  have h1 := Int.floor_le x
  unfold round_half_even
  split
  · linarith
  · split
    · push_cast; linarith
    · rename_i h2 h3
      split
      · linarith
      · push_cast; linarith

theorem int_log_two_eq (x : ℚ) (k : Int) (h0 : (2 : ℚ) ^ k ≤ x) (h1 : x < (2 : ℚ) ^ (k + 1)) :
    Int.log 2 x = k := by
  have hx : 0 < x := lt_of_lt_of_le (by positivity) h0
  have a : k ≤ Int.log 2 x := (Int.zpow_le_iff_le_log (by norm_num) hx).mp (by exact_mod_cast h0)
  have b : Int.log 2 x < k + 1 := (Int.lt_zpow_iff_log_lt (by norm_num) hx).mp (by exact_mod_cast h1)
  omega

theorem round_double_of_log (x : ℚ) (k : Int) (hk : -1022 ≤ k) (h0 : (2 : ℚ) ^ k ≤ |x|)
    (h1 : |x| < (2 : ℚ) ^ (k + 1)) :
    round_double x = (round_half_even (x / 2 ^ (k - 52)) : ℚ) * 2 ^ (k - 52) := by
  have hu : ulp_exponent x = k - 52 := by
    unfold ulp_exponent
    rw [int_log_two_eq _ k h0 h1]
    omega
  unfold round_double
  rw [hu]

theorem ulp_exponent_le (x : ℚ) (h0 : 0 ≤ x) (h : x < 32) : ulp_exponent x ≤ -48 := by
  unfold ulp_exponent
  rw [abs_of_nonneg h0]
  rcases eq_or_lt_of_le h0 with h0 | h0
  · rw [← h0, Int.log_zero_right]; decide
  · have b : Int.log 2 x < 5 :=
      (Int.lt_zpow_iff_log_lt (by norm_num) h0).mp (by norm_num; exact h)
    omega

theorem intCast_div_zpow (k e : Int) (he : e ≤ 0) :
    (k : ℚ) / 2 ^ e = ((k * 2 ^ (-e).toNat : Int) : ℚ) := by
  have h : e = -(((-e).toNat : Nat) : Int) := by omega
  have h2 : (2 : ℚ) ^ e = ((2 : ℚ) ^ (-e).toNat)⁻¹ := by
    conv_lhs => rw [h]
    rw [zpow_neg, zpow_natCast]
  rw [h2]
  push_cast
  rw [div_inv_eq_mul]

theorem le_round_double (k : Int) (x : ℚ) (he : ulp_exponent x ≤ 0) (h : (k : ℚ) ≤ x) :
    (k : ℚ) ≤ round_double x := by
  unfold round_double
  have hpos : (0 : ℚ) < 2 ^ ulp_exponent x := by positivity
  have h1 : (k : ℚ) / 2 ^ ulp_exponent x ≤ x / 2 ^ ulp_exponent x :=
    div_le_div_of_nonneg_right h hpos.le
  rw [intCast_div_zpow k _ he] at h1
  have h2 := le_round_half_even _ _ h1
  have h3 : ((k * 2 ^ (-ulp_exponent x).toNat : Int) : ℚ) ≤
      (round_half_even (x / 2 ^ ulp_exponent x) : ℚ) := by exact_mod_cast h2
  rw [← intCast_div_zpow k _ he, div_le_iff₀ hpos] at h3
  exact h3

theorem round_double_le (k : Int) (x : ℚ) (he : ulp_exponent x ≤ 0) (h : x ≤ (k : ℚ)) :
    round_double x ≤ (k : ℚ) := by
  unfold round_double
  have hpos : (0 : ℚ) < 2 ^ ulp_exponent x := by positivity
  have h1 : x / 2 ^ ulp_exponent x ≤ (k : ℚ) / 2 ^ ulp_exponent x :=
    div_le_div_of_nonneg_right h hpos.le
  rw [intCast_div_zpow k _ he] at h1
  have h2 := round_half_even_le _ _ h1
  have h3 : (round_half_even (x / 2 ^ ulp_exponent x) : ℚ) ≤
      ((k * 2 ^ (-ulp_exponent x).toNat : Int) : ℚ) := by exact_mod_cast h2
  rw [← intCast_div_zpow k _ he, le_div_iff₀ hpos] at h3
  exact h3

theorem round_double_sub_le (x : ℚ) : round_double x - x ≤ 2 ^ ulp_exponent x / 2 := by
  unfold round_double
  have hpos : (0 : ℚ) < 2 ^ ulp_exponent x := by positivity
  have h := round_half_even_sub_le (x / 2 ^ ulp_exponent x)
  have h2 : x = x / 2 ^ ulp_exponent x * 2 ^ ulp_exponent x := by field_simp
  nlinarith [mul_le_mul_of_nonneg_right h hpos.le]

theorem two_zpow_ulp_le (x : ℚ) (hx : 1 / 2 ≤ x) : (2 : ℚ) ^ ulp_exponent x ≤ x / 2 ^ 52 := by
  have h0 : 0 < x := by linarith
  have hl : (-1 : Int) ≤ Int.log 2 x :=
    (Int.zpow_le_iff_le_log (by norm_num) h0).mp (by norm_num; linarith)
  have hu : ulp_exponent x = Int.log 2 x - 52 := by
    unfold ulp_exponent
    rw [abs_of_pos h0]
    omega
  rw [hu, zpow_sub₀ (by norm_num)]
  have := Int.zpow_log_le_self (b := 2) (r := x) (by norm_num) h0
  have h3 : (2 : ℚ) ^ Int.log 2 x ≤ x := by exact_mod_cast this
  have h4 : (2 : ℚ) ^ (52 : Int) = 2 ^ 52 := by norm_cast
  rw [h4]
  exact div_le_div_of_nonneg_right h3 (by positivity)

theorem static_cast_int_intCast (n : Int) : static_cast_int (n : ℚ) = n := by
  unfold static_cast_int
  split <;> simp

/-- For a propensity in `[0, 1]` the rounded product `p * NUM_BINS` lies in `[0, 20]`, as
`0` and `20` are binary64 numbers. -/
theorem round_double_product_bounds (p : ℚ) (h0 : 0 ≤ p) (h1 : p ≤ 1) :
    ulp_exponent (p * NUM_BINS) ≤ -48 ∧ 0 ≤ round_double (p * NUM_BINS) ∧
    round_double (p * NUM_BINS) ≤ 20 := by
  have hN : ((NUM_BINS : Nat) : ℚ) = 20 := by simp [NUM_BINS]
  rw [hN]
  have hx0 : (0 : ℚ) ≤ p * 20 := by positivity
  have hx1 : p * 20 ≤ 20 := by linarith
  have he := ulp_exponent_le (p * 20) hx0 (by linarith)
  refine ⟨he, ?_, ?_⟩
  · have := le_round_double 0 (p * 20) (by omega) (by simpa using hx0)
    simpa using this
  · have := round_double_le 20 (p * 20) (by omega) (by simpa using hx1)
    simpa using this

theorem bin_index_double_eq (p : ℚ) (h0 : 0 ≤ p) (h1 : p ≤ 1) :
    bin_index_double p = some (min ⌊round_double (p * NUM_BINS)⌋ 19) := by
  obtain ⟨_, hr0, hr1⟩ := round_double_product_bounds p h0 h1
  have hf0 : 0 ≤ ⌊round_double (p * NUM_BINS)⌋ := Int.floor_nonneg.mpr hr0
  have hf1 : ⌊round_double (p * NUM_BINS)⌋ ≤ 20 := by
    have : ⌊round_double (p * NUM_BINS)⌋ ≤ ⌊(20 : ℚ)⌋ := Int.floor_mono hr1
    simpa using this
  have hN : ((NUM_BINS : Nat) : Int) = 20 := by decide
  unfold bin_index_double mul_double
  rw [if_pos (by rw [abs_of_nonneg hr0]; exact lt_of_le_of_lt hr1 (by norm_num))]
  simp only [Option.some_bind]
  unfold static_cast_int_checked
  rw [static_cast_int_of_nonneg _ hr0, if_pos (by omega), Option.map_some', hN]
  rfl

theorem bin_index_double_in_range (p : ℚ) (h0 : 0 ≤ p) (h1 : p ≤ 1) :
    ∃ b : Int, bin_index_double p = some b ∧ 0 ≤ b ∧ b ≤ 19 := by
  obtain ⟨_, hr0, _⟩ := round_double_product_bounds p h0 h1
  have hf0 : 0 ≤ ⌊round_double (p * NUM_BINS)⌋ := Int.floor_nonneg.mpr hr0
  exact ⟨_, bin_index_double_eq p h0 h1, by omega, by omega⟩

/-- For `p < 1` in the bin `[k / 20, (k + 1) / 20)` the index computed in binary64 is `k`,
or `k + 1` when the product rounds up to the integer `k + 1`, which takes `p * 20` within
the relative distance `2^-53` of `k + 1`. -/
theorem bin_index_double_bin (p : ℚ) (h0 : 0 ≤ p) (hlt : p < 1) (k : Int)
    (hk0 : (k : ℚ) / NUM_BINS ≤ p) (hk1 : p < ((k : ℚ) + 1) / NUM_BINS) :
    bin_index_double p = some k ∨
    (bin_index_double p = some (k + 1) ∧ (k : ℚ) + 1 ≤ p * NUM_BINS * (1 + 1 / 2 ^ 53)) := by
  obtain ⟨he, hr0, hr1⟩ := round_double_product_bounds p h0 hlt.le
  rw [bin_index_double_eq p h0 hlt.le]
  have hN : ((NUM_BINS : Nat) : ℚ) = 20 := by simp [NUM_BINS]
  rw [hN] at hk0 hk1 he hr0 hr1 ⊢
  rw [div_le_iff₀ (by norm_num)] at hk0
  rw [lt_div_iff₀ (by norm_num)] at hk1
  have hx20 : p * 20 < 20 := by linarith
  have hk19 : k ≤ 19 := by
    have : (k : ℚ) < 20 := lt_of_le_of_lt hk0 hx20
    have : k < 20 := by exact_mod_cast this
    omega
  have hkr : (k : ℚ) ≤ round_double (p * 20) := le_round_double k _ (by omega) hk0
  have hrk : round_double (p * 20) ≤ ((k + 1 : Int) : ℚ) :=
    round_double_le (k + 1) _ (by omega) (by push_cast; linarith)
  have hf0 : k ≤ ⌊round_double (p * 20)⌋ := Int.le_floor.mpr hkr
  have hf1 : ⌊round_double (p * 20)⌋ ≤ k + 1 := by
    have := Int.floor_mono hrk
    rwa [Int.floor_intCast] at this
  by_cases hcase : ⌊round_double (p * 20)⌋ = k ∨ k = 19
  · left
    congr 1
    omega
  · right
    have hfl : ⌊round_double (p * 20)⌋ = k + 1 := by omega
    refine ⟨by congr 1; omega, ?_⟩
    have hr : ((k + 1 : Int) : ℚ) ≤ round_double (p * 20) := by
      rw [← hfl]; exact Int.floor_le _
    push_cast at hr
    have hk1' : (0 : ℚ) ≤ k := by
      have : (-1 : ℚ) < k := by
        have : (0 : ℚ) < (k : ℚ) + 1 := lt_of_le_of_lt (by positivity) hk1
        linarith
      have : (-1 : Int) < k := by exact_mod_cast this
      have : 0 ≤ k := by omega
      exact_mod_cast this
    have herr := round_double_sub_le (p * 20)
    have hpow : (2 : ℚ) ^ ulp_exponent (p * 20) ≤ 2 ^ (-48 : Int) :=
      zpow_le_zpow_right₀ (by norm_num) he
    have h48 : (2 : ℚ) ^ (-48 : Int) ≤ 1 := by norm_num
    have hhalf : (1 / 2 : ℚ) ≤ p * 20 := by linarith
    have hulp := two_zpow_ulp_le (p * 20) hhalf
    have hsplit : p * 20 * (1 + 1 / 2 ^ 53) = p * 20 + p * 20 / 2 ^ 52 / 2 := by ring
    rw [hsplit]
    linarith

/-! ### The bin index as the code computes it -/

theorem hist_incr_checked_some (hist : List Nat) (hl : hist.length = NUM_BINS) (b : Int)
    (h0 : 0 ≤ b) (h1 : b ≤ 19) :
    hist_incr_checked hist b = some (hist.set b.toNat (hist.getD b.toNat 0 + 1)) := by
  have hN : NUM_BINS = 20 := rfl
  have hin : 0 ≤ b ∧ b < hist.length := by rw [hl, hN]; omega
  unfold hist_incr_checked hist_incr
  rw [if_pos hin, if_pos hin]

theorem round_double_sample :
    round_double (2026619832316723 / 2 ^ 52) = 2026619832316723 / 2 ^ 52 := by
  rw [round_double_of_log _ (-2) (by decide) (by norm_num [abs_of_pos])
    (by norm_num [abs_of_pos])]
  have h : (2026619832316723 / 2 ^ 52 : ℚ) / 2 ^ ((-2 : Int) - 52) =
      ((8106479329266892 : Int) : ℚ) := by
    norm_num
  rw [h, round_half_even_intCast]
  norm_num

theorem round_double_sample_product :
    round_double (2026619832316723 / 2 ^ 52 * NUM_BINS) = 9 := by
  have hN : ((NUM_BINS : Nat) : ℚ) = 20 := by simp [NUM_BINS]
  rw [hN, round_double_of_log _ 3 (by decide) (by norm_num [abs_of_pos])
    (by norm_num [abs_of_pos])]
  have h : (2026619832316723 / 2 ^ 52 * 20 : ℚ) / 2 ^ ((3 : Int) - 52) =
      ((5066549580791807 : Int) : ℚ) + 1 / 2 := by
    norm_num
  rw [h, round_half_even_tie, if_neg (by decide)]
  norm_num

/-- C8 (as amended): for `0 ≤ p ≤ 1` the conversion `static_cast<int>(p * NUM_BINS)` of the
binary64 product is defined and the bin index `b` lies in `0 .. NUM_BINS - 1`, so
`hist[b]++` is in bounds; for `p < 1` in the bin `[k / NUM_BINS, (k + 1) / NUM_BINS)` the
index is `k`, or `k + 1` when the product rounds up to the integer `k + 1`, which needs
`p * NUM_BINS` within the relative distance `2^-53` of `k + 1`; the index of `p = 1` is
`NUM_BINS - 1`; and with the product taken exactly (`bin_index`) the index is `k` exactly
when `k / NUM_BINS ≤ p < (k + 1) / NUM_BINS`. -/
theorem C8_bin_index (p : ℚ) (h0 : 0 ≤ p) (h1 : p ≤ 1) :
    ∃ b : Int, bin_index_double p = some b ∧
      (0 ≤ b ∧ b ≤ (NUM_BINS : Int) - 1) ∧
      (∀ hist : List Nat, hist.length = NUM_BINS →
        hist_incr_checked hist b = some (hist.set b.toNat (hist.getD b.toNat 0 + 1))) ∧
      (p < 1 → ∀ k : Int, (k : ℚ) / NUM_BINS ≤ p → p < ((k : ℚ) + 1) / NUM_BINS →
        b = k ∨ (b = k + 1 ∧ (k : ℚ) + 1 ≤ p * NUM_BINS * (1 + 1 / 2 ^ 53))) ∧
      (p = 1 → b = (NUM_BINS : Int) - 1) ∧
      (p < 1 → ∀ k : Int,
        (bin_index p = k ↔ (k : ℚ) / NUM_BINS ≤ p ∧ p < ((k : ℚ) + 1) / NUM_BINS)) := by
  obtain ⟨b, hb, hb0, hb1⟩ := bin_index_double_in_range p h0 h1
  have hN : ((NUM_BINS : Nat) : Int) = 20 := by decide
  refine ⟨b, hb, by rw [hN]; omega, fun hist hl => hist_incr_checked_some hist hl b hb0 hb1,
    ?_, ?_, ?_⟩
  · intro hlt k hk0 hk1
    rcases bin_index_double_bin p h0 hlt k hk0 hk1 with h | ⟨h, hr⟩
    · left
      rw [hb] at h
      exact Option.some.inj h
    · right
      rw [hb] at h
      exact ⟨Option.some.inj h, hr⟩
  · intro hp
    subst hp
    have h20 : round_double ((1 : ℚ) * NUM_BINS) = 20 := by
      have hq : ((NUM_BINS : Nat) : ℚ) = 20 := by simp [NUM_BINS]
      rw [hq, round_double_of_log _ 4 (by decide) (by norm_num [abs_of_pos])
        (by norm_num [abs_of_pos])]
      have h : (1 * 20 : ℚ) / 2 ^ ((4 : Int) - 52) = ((5629499534213120 : Int) : ℚ) := by
        norm_num
      rw [h, round_half_even_intCast]
      norm_num
    rw [bin_index_double_eq 1 h0 h1, h20] at hb
    have := Option.some.inj hb
    rw [hN, ← this]
    norm_num
  · intro hlt k
    exact (bin_index_exact p h0 h1).2.2.2.2.1 hlt k

theorem C8_bin_index_witness :
    (0 : ℚ) ≤ 37 / 100 ∧ (37 / 100 : ℚ) ≤ 1 ∧
    ∃ b : Int, bin_index_double (37 / 100) = some b ∧ 0 ≤ b ∧ b ≤ (NUM_BINS : Int) - 1 :=
  ⟨by norm_num, by norm_num,
   (C8_bin_index (37 / 100) (by norm_num) (by norm_num)).imp (fun _ h => ⟨h.1, h.2.1⟩)⟩

/-- C8 (the claim as stated fails): the double `0x3FDCCCCCCCCCCCCC`, of value
`2026619832316723 / 2^52`, is in `[0, 1)` and below `9 / 20`, so it belongs to the bin
`[8 / 20, 9 / 20)`.  Its product with 20 is `9 - 2^-50`, half-way between the binary64
neighbours `9 - 2^-49` and `9`, and rounds to the even one, `9.0`; the code puts the value
in bin 9, although `9 / NUM_BINS ≤ p` does not hold. -/
theorem C8_rounding_counterexample :
    round_double (2026619832316723 / 2 ^ 52) = 2026619832316723 / 2 ^ 52 ∧
    ((0 : ℚ) ≤ 2026619832316723 / 2 ^ 52 ∧ (2026619832316723 / 2 ^ 52 : ℚ) < 1) ∧
    ((8 : ℚ) / NUM_BINS ≤ 2026619832316723 / 2 ^ 52 ∧
      (2026619832316723 / 2 ^ 52 : ℚ) < 9 / NUM_BINS) ∧
    (2026619832316723 / 2 ^ 52 : ℚ) * NUM_BINS = 9 - 1 / 2 ^ 50 ∧
    mul_double (2026619832316723 / 2 ^ 52) NUM_BINS = some 9 ∧
    bin_index_double (2026619832316723 / 2 ^ 52) = some 9 ∧
    ¬ (bin_index_double (2026619832316723 / 2 ^ 52) = some 9 ↔
        (9 : ℚ) / NUM_BINS ≤ 2026619832316723 / 2 ^ 52 ∧
        (2026619832316723 / 2 ^ 52 : ℚ) < (9 + 1) / NUM_BINS) := by
  have hN : ((NUM_BINS : Nat) : ℚ) = 20 := by simp [NUM_BINS]
  have hm : mul_double (2026619832316723 / 2 ^ 52) NUM_BINS = some 9 := by
    unfold mul_double
    rw [round_double_sample_product, if_pos (by norm_num)]
  have hb : bin_index_double (2026619832316723 / 2 ^ 52) = some 9 := by
    unfold bin_index_double
    rw [hm]
    have h9 : (9 : ℚ) = ((9 : Int) : ℚ) := by norm_num
    simp only [Option.some_bind]
    unfold static_cast_int_checked
    rw [h9, static_cast_int_intCast, if_pos (by decide)]
    decide
  refine ⟨round_double_sample, by norm_num, by rw [hN]; norm_num, by rw [hN]; norm_num, hm, hb,
    ?_⟩
  intro h
  have := (h.mp hb).1
  rw [hN] at this
  norm_num at this

/-! ### The trace of a run as the analyzer reads it -/

theorem decode_trace_length (a : Nat) (hs : 0 < sizeof_Record a) (k : Nat) (B : List Nat)
    (hk : B.length / sizeof_Record a = k) : (decode_trace a B).length = k := by
  induction k generalizing B with
  | zero =>
    have hlt : B.length < sizeof_Record a := (Nat.div_eq_zero_iff hs).mp hk
    rw [decode_trace_short a B hlt]
    rfl
  | succ k ih =>
    have hge : sizeof_Record a ≤ B.length := by
      by_contra hlt
      have := (Nat.div_eq_zero_iff hs).mpr (not_le.mp hlt)
      omega
    have hk' : (B.drop (sizeof_Record a)).length / sizeof_Record a = k := by
      rw [List.length_drop]
      have := Nat.div_eq_sub_div hs hge
      omega
    rw [decode_trace_cons a hs B hge, List.length_cons, ih _ hk']

theorem trace_bytes_length (bits : ℚ → Nat) (records : List Record) :
    (trace_bytes bits records).length = 12 * records.length := by
  unfold trace_bytes
  rw [write_records_length, List.length_map]

theorem analyzer_groups_total (records : List Record) :
    ((analyzer_groups records).map (fun g => g.2.length)).sum = records.length := by
  cases records with
  | nil => rfl
  | cons rec rest =>
    have h := (analyzer_groups_facts (rec :: rest) (by simp)).2.2.2.2.1
    have h2 := congrArg List.length h
    rw [List.length_map, List.flatMap, List.length_flatten, List.map_map] at h2
    exact h2

theorem emitted_records_length (n : Nat) (indices : List Nat) (rng : Nat → ℚ) :
    (emitted_records n (construct indices rng true)).length = 256 * n := by
  have ho : (construct indices rng true).p_history_file_bin = some [] := by
    rw [construct]; rfl
  rw [emitted_records_open n _ [] ho, expected_records_length]
  have hN : NUM_PLAYERS = 256 := by decide
  rw [hN, Nat.mul_comm]

theorem expected_records_iteration (n : Nat) (s : State) :
    ∀ r ∈ expected_records n s, 0 ≤ r.iteration ∧ r.iteration < n := by
  intro r hr
  unfold expected_records snapshot_block at hr
  obtain ⟨k, hk, hr⟩ := List.mem_flatMap.mp hr
  obtain ⟨i, _, e⟩ := List.mem_map.mp hr
  have hkn : k < n := List.mem_range.mp hk
  rw [← e]
  dsimp only
  omega

/-- Where `struct Record` has no padding (`alignof(double) = 4`, so `sizeof(Record) = 12`)
the analyzer forms, from the file that `n` iterations write, `n` groups, the `k`-th
labelled `k` and holding the 256 propensities of the agents at the start of iteration `k`
(for fewer than `2^31` iterations and values that survive the conversion to bytes and
back). -/
theorem file_groups_packed (n : Nat) (hn : n ≤ 2 ^ 31) (s : State)
    (hopen : s.p_history_file_bin.isSome = true) (hlen : s.p_values.length = NUM_PLAYERS)
    (double_bits : ℚ → Nat) (double_value : Nat → ℚ)
    (hbits : ∀ r ∈ emitted_records n s,
      double_bits r.p_value < 2 ^ 64 ∧ double_value (double_bits r.p_value) = r.p_value) :
    file_groups 4 double_value (trace_bytes double_bits (emitted_records n s)) =
      (List.range n).map (fun k : Nat => ((k : Int), (run_simulation k s).p_values)) := by
  obtain ⟨written, hw⟩ := Option.isSome_iff_exists.mp hopen
  have hiter : ∀ r ∈ emitted_records n s, 0 ≤ r.iteration ∧ r.iteration < n := by
    rw [emitted_records_open n s written hw]
    exact expected_records_iteration n s
  have hdec : decoded_records 4 double_value (trace_bytes double_bits (emitted_records n s)) =
      emitted_records n s := by
    unfold decoded_records trace_bytes
    rw [decode_trace_packed, List.map_map]
    · conv_rhs => rw [← List.map_id (emitted_records n s)]
      apply List.map_congr_left
      intro r hr
      simp only [Function.comp, id]
      rw [(hbits r hr).2]
    · intro r hr
      obtain ⟨r0, hr0, e⟩ := List.mem_map.mp hr
      rw [← e]
      have h1 := hiter r0 hr0
      have h2 := (hbits r0 hr0).1
      have hn' : (n : Int) ≤ 2 ^ 31 := by exact_mod_cast hn
      dsimp only
      exact ⟨by omega, by omega, h2⟩
  unfold file_groups
  rw [hdec]
  exact groups_of_emitted_records n s hopen hlen

/-- C7 (the code on the trace of a run): `n ≥ 1` iterations started from the constructor
with the trace file open emit `256 * n` records, which the engine writes as `3072 * n`
bytes, 12 per record.  With `alignof(double) = 8` the analyzer reads the file in blocks of
`sizeof(Record) = 16` bytes: it obtains `192 * n` records, so its groups hold `192 * n`
values in all and are not `n` groups of 256 values each. -/
theorem C7_groups_of_run_misread (n : Nat) (hn : 1 ≤ n) (indices : List Nat) (rng : Nat → ℚ)
    (double_bits : ℚ → Nat) (double_value : Nat → ℚ) :
    (emitted_records n (construct indices rng true)).length = 256 * n ∧
    (trace_bytes double_bits (emitted_records n (construct indices rng true))).length
      = 3072 * n ∧
    sizeof_Record 8 = 16 ∧
    (decoded_records 8 double_value
      (trace_bytes double_bits (emitted_records n (construct indices rng true)))).length
      = 192 * n ∧
    ((file_groups 8 double_value
      (trace_bytes double_bits (emitted_records n (construct indices rng true)))).map
        (fun g => g.2.length)).sum = 192 * n ∧
    ¬ ((file_groups 8 double_value
        (trace_bytes double_bits (emitted_records n (construct indices rng true)))).length = n ∧
      ∀ g ∈ file_groups 8 double_value
        (trace_bytes double_bits (emitted_records n (construct indices rng true))),
        g.2.length = 256) := by
  have hrec := emitted_records_length n indices rng
  have hbytes : (trace_bytes double_bits
      (emitted_records n (construct indices rng true))).length = 3072 * n := by
    rw [trace_bytes_length, hrec]; omega
  have hs : sizeof_Record 8 = 16 := by decide
  have hdec : (decoded_records 8 double_value
      (trace_bytes double_bits (emitted_records n (construct indices rng true)))).length
      = 192 * n := by
    unfold decoded_records
    rw [List.length_map]
    apply decode_trace_length 8 (by rw [hs]; decide)
    rw [hbytes, hs]
    omega
  have hsum : ((file_groups 8 double_value
      (trace_bytes double_bits (emitted_records n (construct indices rng true)))).map
        (fun g => g.2.length)).sum = 192 * n := by
    unfold file_groups
    rw [analyzer_groups_total, hdec]
  refine ⟨hrec, hbytes, hs, hdec, hsum, ?_⟩
  rintro ⟨hlen, hall⟩
  have hconst : ∀ (l : List (Int × List ℚ)), (∀ g ∈ l, g.2.length = 256) →
      (l.map (fun g => g.2.length)).sum = 256 * l.length := by
    intro l
    induction l with
    | nil => intro _; rfl
    | cons g l ih =>
      intro h
      rw [List.map_cons, List.sum_cons, ih (fun g' hg' => h g' (List.mem_cons_of_mem _ hg')),
        h g (List.mem_cons_self _ _), List.length_cons]
      omega
  rw [hconst _ hall, hlen] at hsum
  omega

theorem C7_groups_of_run_misread_witness :
    1 ≤ 1 ∧
    (decoded_records 8 (fun _ => 0)
      (trace_bytes (fun _ => 0)
        (emitted_records 1 (construct (List.range NUM_PLAYERS) (fun _ => 0) true)))).length
      = 192 * 1 :=
  ⟨Nat.le_refl 1,
   (C7_groups_of_run_misread 1 (Nat.le_refl 1) (List.range NUM_PLAYERS) (fun _ => 0)
      (fun _ => 0) (fun _ => 0)).2.2.2.1⟩

/-! ### The rows of the analyzer -/

theorem analyzer_with_eq_map {β : Type} (emit : Int → List ℚ → β) (records : List Record) :
    analyzer_with emit records = (analyzer_groups records).map (fun g => emit g.1 g.2) := by
  cases records with
  | nil => rfl
  | cons rec rest =>
    rw [analyzer_groups_cons]
    exact read_loop_map _ _ _ _ _

theorem bin_index_double_le (p : ℚ) (b : Int) (h : bin_index_double p = some b) : b ≤ 19 := by
  unfold bin_index_double at h
  obtain ⟨x, _, hx⟩ := Option.map_eq_some'.mp h
  have hN : ((NUM_BINS : Nat) : Int) = 20 := by decide
  rw [hN] at hx
  omega

theorem bin_in_bounds_iff (p : ℚ) :
    bin_in_bounds p = true ↔ ∃ b : Int, bin_index_double p = some b ∧ 0 ≤ b ∧ b ≤ 19 := by
  unfold bin_in_bounds
  constructor
  · intro h
    cases hb : bin_index_double p with
    | none => rw [hb] at h; exact absurd h (by simp)
    | some b =>
      rw [hb] at h
      exact ⟨b, rfl, by simpa using h, bin_index_double_le p b hb⟩
  · rintro ⟨b, hb, h0, _⟩
    rw [hb]
    simpa using h0

theorem bin_in_bounds_of_unit (p : ℚ) (h0 : 0 ≤ p) (h1 : p ≤ 1) : bin_in_bounds p = true :=
  (bin_in_bounds_iff p).mpr (bin_index_double_in_range p h0 h1)

theorem foldl_histogram_none (ps : List ℚ) :
    ps.foldl
      (fun (hist : Option (List Nat)) (p : ℚ) =>
        hist.bind (fun h => (bin_index_double p).bind (hist_incr_checked h)))
      none = none := by
  induction ps with
  | nil => rfl
  | cons p ps ih => rw [List.foldl_cons]; exact ih

theorem foldl_histogram_checked (ps : List ℚ) (hps : ∀ p ∈ ps, bin_in_bounds p = true)
    (hist : List Nat) (hl : hist.length = NUM_BINS) :
    ∃ h : List Nat,
      ps.foldl
        (fun (hist : Option (List Nat)) (p : ℚ) =>
          hist.bind (fun h => (bin_index_double p).bind (hist_incr_checked h)))
        (some hist) = some h ∧ h.length = NUM_BINS := by
  induction ps generalizing hist with
  | nil => exact ⟨hist, rfl, hl⟩
  | cons p ps ih =>
    obtain ⟨b, hb, hb0, hb1⟩ := (bin_in_bounds_iff p).mp (hps p (List.mem_cons_self _ _))
    have hN : NUM_BINS = 20 := rfl
    have hin : 0 ≤ b ∧ b < hist.length := by rw [hl, hN]; omega
    rw [List.foldl_cons]
    have hstep : (some hist).bind
        (fun h => (bin_index_double p).bind (hist_incr_checked h)) =
        some (hist_incr hist b) := by
      rw [Option.some_bind, hb, Option.some_bind]
      unfold hist_incr_checked
      rw [if_pos hin]
    rw [hstep]
    exact ih (fun q hq => hps q (List.mem_cons_of_mem _ hq)) _
      (by rw [hist_incr_length]; exact hl)

theorem foldl_histogram_defined (ps : List ℚ) (hist h : List Nat)
    (hh : ps.foldl
        (fun (hist : Option (List Nat)) (p : ℚ) =>
          hist.bind (fun h => (bin_index_double p).bind (hist_incr_checked h)))
        (some hist) = some h) :
    ∀ p ∈ ps, bin_in_bounds p = true := by
  induction ps generalizing hist with
  | nil => intro p hp; exact absurd hp (List.not_mem_nil _)
  | cons q ps ih =>
    rw [List.foldl_cons, Option.some_bind] at hh
    cases hb : bin_index_double q with
    | none =>
      rw [hb, Option.none_bind, foldl_histogram_none] at hh
      exact absurd hh (by simp)
    | some b =>
      rw [hb, Option.some_bind] at hh
      by_cases hin : 0 ≤ b ∧ b < hist.length
      · have hq : bin_in_bounds q = true :=
          (bin_in_bounds_iff q).mpr ⟨b, hb, hin.1, bin_index_double_le q b hb⟩
        have hstep : hist_incr_checked hist b = some (hist_incr hist b) := by
          unfold hist_incr_checked; rw [if_pos hin]
        rw [hstep] at hh
        intro p hp
        rcases List.mem_cons.mp hp with e | e
        · rw [e]; exact hq
        · exact ih _ hh p e
      · have hstep : hist_incr_checked hist b = none := by
          unfold hist_incr_checked; rw [if_neg hin]
        rw [hstep, foldl_histogram_none] at hh
        exact absurd hh (by simp)

theorem process_group_checked_some (c : Int) (ps : List ℚ)
    (hps : ∀ p ∈ ps, bin_in_bounds p = true) :
    ∃ row : Row, process_group_checked c ps = some row ∧ row.iteration = c ∧
      row.prob_dist.length = NUM_BINS := by
  obtain ⟨h, hh, _⟩ := foldl_histogram_checked ps hps (List.replicate NUM_BINS 0)
    (List.length_replicate _ _)
  refine ⟨{ iteration := c, prob_dist := prob_dist h ps.length }, ?_, rfl,
    prob_dist_length _ _⟩
  unfold process_group_checked histogram_checked
  rw [hh]
  rfl

theorem process_group_checked_defined (c : Int) (ps : List ℚ) (row : Row)
    (h : process_group_checked c ps = some row) : ∀ p ∈ ps, bin_in_bounds p = true := by
  unfold process_group_checked histogram_checked at h
  obtain ⟨hist, hh, _⟩ := Option.map_eq_some'.mp h
  exact foldl_histogram_defined ps _ hist hh

theorem rows_of_groups (gs : List (Int × List ℚ))
    (hgs : ∀ g ∈ gs, ∀ p ∈ g.2, bin_in_bounds p = true) :
    ∃ rows : List Row,
      (gs.map (fun g => process_group_checked g.1 g.2)).foldr
        (fun (row : Option Row) (rows : Option (List Row)) =>
          row.bind (fun r => rows.map (fun rs => r :: rs)))
        (some []) = some rows ∧
      List.Forall₂ (fun (row : Row) (g : Int × List ℚ) =>
        process_group_checked g.1 g.2 = some row) rows gs ∧
      rows.map (fun row => row.iteration) = gs.map (fun g => g.1) ∧
      (∀ row ∈ rows, row.prob_dist.length = NUM_BINS) := by
  induction gs with
  | nil => exact ⟨[], rfl, List.Forall₂.nil, rfl, by simp⟩
  | cons g gs ih =>
    obtain ⟨rows, h1, h2, h3, h4⟩ := ih (fun g' hg' => hgs g' (List.mem_cons_of_mem _ hg'))
    obtain ⟨row, hr, hi, hl⟩ := process_group_checked_some g.1 g.2
      (hgs g (List.mem_cons_self _ _))
    refine ⟨row :: rows, ?_, List.Forall₂.cons hr h2, ?_, ?_⟩
    · rw [List.map_cons, List.foldr_cons, h1, hr]
      rfl
    · rw [List.map_cons, List.map_cons, h3, hi]
    · intro r hr'
      rcases List.mem_cons.mp hr' with e | e
      · rw [e]; exact hl
      · exact h4 r e

theorem rows_of_groups_defined (gs : List (Int × List ℚ)) (rows : List Row)
    (h : (gs.map (fun g => process_group_checked g.1 g.2)).foldr
        (fun (row : Option Row) (rows : Option (List Row)) =>
          row.bind (fun r => rows.map (fun rs => r :: rs)))
        (some []) = some rows) :
    ∀ g ∈ gs, ∀ p ∈ g.2, bin_in_bounds p = true := by
  induction gs generalizing rows with
  | nil => intro g hg; exact absurd hg (List.not_mem_nil _)
  | cons g gs ih =>
    rw [List.map_cons, List.foldr_cons] at h
    obtain ⟨row, hrow, h2⟩ := Option.bind_eq_some.mp h
    obtain ⟨rs, hrs, _⟩ := Option.map_eq_some'.mp h2
    intro g' hg'
    rcases List.mem_cons.mp hg' with e | e
    · rw [e]; exact process_group_checked_defined g.1 g.2 row hrow
    · exact ih rs hrs g' e

/-- The run of the analyzer on a record sequence is defined exactly when the histogram
loop is defined for every `p` value of the sequence. -/
theorem analyzer_checked_isSome_iff (records : List Record) :
    (analyzer_checked records).isSome = true ↔
      ∀ r ∈ records, bin_in_bounds r.p_value = true := by
  have hvals : (analyzer_groups records).flatMap (fun g => g.2) =
      records.map (fun r => r.p_value) := by
    cases records with
    | nil => rfl
    | cons rec rest => exact (analyzer_groups_facts (rec :: rest) (by simp)).2.2.2.2.1
  unfold analyzer_checked
  rw [analyzer_with_eq_map]
  constructor
  · intro h r hr
    obtain ⟨rows, hrows⟩ := Option.isSome_iff_exists.mp h
    have hmem : r.p_value ∈ (analyzer_groups records).flatMap (fun g => g.2) := by
      rw [hvals]; exact List.mem_map_of_mem _ hr
    obtain ⟨g, hg, hp⟩ := List.mem_flatMap.mp hmem
    exact rows_of_groups_defined _ rows hrows g hg _ hp
  · intro h
    have hgs : ∀ g ∈ analyzer_groups records, ∀ p ∈ g.2, bin_in_bounds p = true := by
      intro g hg p hp
      have hmem : p ∈ (analyzer_groups records).flatMap (fun g => g.2) :=
        List.mem_flatMap.mpr ⟨g, hg, hp⟩
      rw [hvals] at hmem
      obtain ⟨r, hr, e⟩ := List.mem_map.mp hmem
      rw [← e]
      exact h r hr
    obtain ⟨rows, h1, _⟩ := rows_of_groups _ hgs
    rw [h1]
    rfl

/-- C6 (as amended): for a non-empty record sequence in which the histogram loop is
defined for every `p` value (the bin index is defined and in `0 .. NUM_BINS - 1`, as it is
for every `p` in `[0, 1]`) the analyzer forms at least one group; every group is
non-empty; the records are, in order, the values of the groups, each carrying the
iteration index of its group (so concatenating the groups gives back the input and its
`p` values); adjacent groups have different indices; the groups are the only list of
groups with these properties, the maximal runs of equal consecutive index; and the run is
defined and emits one row per group, in the order of the groups: the group's index (with
the entropy of its distribution) in the entropy output and its probability vector of
`NUM_BINS` entries in the histogram output. -/
theorem C6_analyzer_grouping (records : List Record) (hne : records ≠ [])
    (hbin : ∀ r ∈ records, bin_in_bounds r.p_value = true) :
    (∀ p : ℚ, 0 ≤ p → p ≤ 1 → bin_in_bounds p = true) ∧
    analyzer_groups records ≠ [] ∧
    (∀ g ∈ analyzer_groups records, g.2 ≠ []) ∧
    records_of_groups (analyzer_groups records) = records ∧
    List.Chain' (fun a b : Int × List ℚ => a.1 ≠ b.1) (analyzer_groups records) ∧
    (analyzer_groups records).flatMap (fun g => g.2) = records.map (fun r => r.p_value) ∧
    (∀ gs : List (Int × List ℚ), (∀ g ∈ gs, g.2 ≠ []) →
      List.Chain' (fun a b : Int × List ℚ => a.1 ≠ b.1) gs →
      records_of_groups gs = records → analyzer_groups records = gs) ∧
    ∃ rows : List Row, analyzer_checked records = some rows ∧
      rows.length = (analyzer_groups records).length ∧
      List.Forall₂ (fun (row : Row) (g : Int × List ℚ) =>
        process_group_checked g.1 g.2 = some row) rows (analyzer_groups records) ∧
      rows.map (fun row => row.iteration) = (analyzer_groups records).map (fun g => g.1) ∧
      (entropy_rows rows).map (fun e => e.1) = (analyzer_groups records).map (fun g => g.1) ∧
      (∀ row ∈ rows, row.prob_dist.length = NUM_BINS) := by
  obtain ⟨f1, f2, f3, f4, f5, f6⟩ := analyzer_groups_facts records hne
  have hgs : ∀ g ∈ analyzer_groups records, ∀ p ∈ g.2, bin_in_bounds p = true := by
    intro g hg p hp
    have hmem : p ∈ (analyzer_groups records).flatMap (fun g => g.2) :=
      List.mem_flatMap.mpr ⟨g, hg, hp⟩
    rw [f5] at hmem
    obtain ⟨r, hr, e⟩ := List.mem_map.mp hmem
    rw [← e]
    exact hbin r hr
  obtain ⟨rows, h1, h2, h3, h4⟩ := rows_of_groups (analyzer_groups records) hgs
  refine ⟨bin_in_bounds_of_unit, f1, f2, f3, f4, f5, f6, rows, ?_, h2.length_eq, h2, h3, ?_,
    h4⟩
  · unfold analyzer_checked
    rw [analyzer_with_eq_map]
    exact h1
  · unfold entropy_rows
    rw [List.map_map, ← h3]
    rfl

theorem C6_analyzer_grouping_witness :
    ([⟨0, 1 / 10⟩, ⟨0, 9 / 10⟩, ⟨1, 1 / 2⟩] : List Record) ≠ [] ∧
    (∀ r ∈ ([⟨0, 1 / 10⟩, ⟨0, 9 / 10⟩, ⟨1, 1 / 2⟩] : List Record),
      bin_in_bounds r.p_value = true) ∧
    records_of_groups (analyzer_groups [⟨0, 1 / 10⟩, ⟨0, 9 / 10⟩, ⟨1, 1 / 2⟩]) =
      [⟨0, 1 / 10⟩, ⟨0, 9 / 10⟩, ⟨1, 1 / 2⟩] ∧
    ∃ rows : List Row,
      analyzer_checked [⟨0, 1 / 10⟩, ⟨0, 9 / 10⟩, ⟨1, 1 / 2⟩] = some rows ∧
      rows.length = (analyzer_groups [⟨0, 1 / 10⟩, ⟨0, 9 / 10⟩, ⟨1, 1 / 2⟩]).length := by
  have hu : ∀ r ∈ ([⟨0, 1 / 10⟩, ⟨0, 9 / 10⟩, ⟨1, 1 / 2⟩] : List Record),
      bin_in_bounds r.p_value = true := by
    intro r hr
    simp only [List.mem_cons, List.mem_singleton, List.not_mem_nil, or_false] at hr
    rcases hr with rfl | rfl | rfl <;> exact bin_in_bounds_of_unit _ (by norm_num) (by norm_num)
  have h := C6_analyzer_grouping [⟨0, 1 / 10⟩, ⟨0, 9 / 10⟩, ⟨1, 1 / 2⟩] (by simp) hu
  exact ⟨by simp, hu, h.2.2.2.1, h.2.2.2.2.2.2.2.imp (fun _ hr => ⟨hr.1, hr.2.1⟩)⟩

/-- C6 (the claim as stated fails): the record sequence holding the single record
`(0, -0.5)` forms one group.  For its value the index is
`min(static_cast<int>(-0.5 * 20), 19) = -10`, and `hist[-10]++` is outside the vector of
`NUM_BINS` counts: the behaviour of the run is undefined, and no entropy entry and no
probability vector is defined for the group. -/
theorem C6_out_of_range_counterexample :
    ([⟨0, -1 / 2⟩] : List Record) ≠ [] ∧
    analyzer_groups [⟨0, -1 / 2⟩] = [(0, [-1 / 2])] ∧
    bin_index_double (-1 / 2) = some (-10) ∧
    hist_incr_checked (List.replicate NUM_BINS 0) (-10) = none ∧
    process_group_checked 0 [-1 / 2] = none ∧
    analyzer_checked [⟨0, -1 / 2⟩] = none := by
  have hN : ((NUM_BINS : Nat) : ℚ) = 20 := by simp [NUM_BINS]
  have hr : round_double (-1 / 2 * NUM_BINS) = ((-10 : Int) : ℚ) := by
    rw [hN, round_double_of_log _ 3 (by decide) (by norm_num [abs_of_neg])
      (by norm_num [abs_of_neg])]
    have h : (-1 / 2 * 20 : ℚ) / 2 ^ ((3 : Int) - 52) = ((-5629499534213120 : Int) : ℚ) := by
      norm_num
    rw [h, round_half_even_intCast]
    norm_num
  have hb : bin_index_double (-1 / 2) = some (-10) := by
    unfold bin_index_double mul_double
    rw [hr, if_pos (by norm_num)]
    simp only [Option.some_bind]
    unfold static_cast_int_checked
    rw [static_cast_int_intCast, if_pos (by decide)]
    decide
  have hh : hist_incr_checked (List.replicate NUM_BINS 0) (-10) = none := by
    unfold hist_incr_checked
    rw [if_neg (by omega)]
  have hp : process_group_checked 0 [-1 / 2] = none := by
    unfold process_group_checked histogram_checked
    rw [List.foldl_cons, List.foldl_nil, Option.some_bind, hb, Option.some_bind, hh]
    rfl
  refine ⟨by simp, rfl, hb, hh, hp, ?_⟩
  unfold analyzer_checked
  rw [analyzer_with_eq_map]
  have hg : analyzer_groups [⟨0, -1 / 2⟩] = [(0, [-1 / 2])] := rfl
  rw [hg, List.map_cons, List.map_nil, List.foldr_cons, hp]
  rfl

end ElFarol
